import Mathlib

/-!
# Linked-list queue of strings (`queue.c`)

A shallow embedding of the queue operations of `queue.c` over an explicit heap
of list elements, and the properties of the container established from it.

Conventions of the embedding.

* A pointer to a list element is an `Option Nat`: `none` is `NULL`, `some a` is
  the address `a`.  The heap maps the addresses of the live elements to their
  contents; dereferencing `NULL` or an address that is not live makes the
  operation return `none`.
* A string is the list of bytes found at its address; a read past the end of
  the list yields the terminator `0`.  The `value` of an element is the block
  of bytes it owns, terminator included.
* Loops and the recursion of the sort take a `fuel` bound; the theorems show
  that a bound larger than the number of elements always gives a result.
* `malloc` is a parameter of the insertions: the address it answers (or
  `NULL`) and whether the allocation of the copy of the string succeeds.
* The count of the container is an integer.  It is the `int` of the code while
  it stays between 0 and `INT_MAX`; the theorems on insertions and on sequences
  of calls keep it in this range.
* A buffer is given by its bytes at every offset.  A removal into a buffer
  follows the code when the declared capacity is at least one byte; with the
  capacity 0 the code stores outside the buffer, at the offset `SIZE_MOD - 1`.
* A sequence of calls is run by `run` over a list of `Op`, which counts the
  calls that returned true and collects the strings delivered by removals.
* The commented-out alternate sort (`merge_sort` and its `q_sort`) is embedded
  as `merge_sort` and `q_sort_alt`.
-/

namespace Queue

/-! ## Data model -/

/-- A list element (`list_ele_t`): the block of bytes it owns and its successor. -/
structure list_ele_t where
  value : List Nat
  next : Option Nat
deriving DecidableEq

/-- Modelled from the spec: `queue.h` is not among the sources.  The container
holds a reference to the first node, a reference to the last node and an
integer count of nodes.  The count is the value of the `int` field `size`: the
model follows the code as long as that value stays between 0 and `INT_MAX`. -/
structure queue_t where
  head : Option Nat
  tail : Option Nat
  size : Int
deriving DecidableEq

/-- The live list elements, by address. -/
abbrev Heap := Nat → Option list_ele_t

/-- The caller's output buffer, by byte offset from `sp`. -/
abbrev Buf := Nat → Nat

/-- Number of values of `size_t` (64-bit). -/
def SIZE_MOD : Nat := 2 ^ 64

/-- The largest value of an `int` (32-bit). -/
def INT_MAX : Nat := 2 ^ 31 - 1

/-- Read through a pointer: `*p`. -/
def load (h : Heap) (p : Option Nat) : Option list_ele_t :=
  match p with
  | none => none
  | some a => h a

/-- The assignment `p->next = nx`. -/
def store_next (h : Heap) (p : Option Nat) (nx : Option Nat) : Option Heap :=
  match p with
  | none => none
  | some a =>
    match h a with
    | none => none
    | some n => some (fun b => if b = a then some { n with next := nx } else h b)

/-- The call `free(p)` for the element at address `a`. -/
def free (h : Heap) (a : Nat) : Heap :=
  fun b => if b = a then none else h b

/-! ## The C library functions used -/

/-- The byte of a string at offset `i` (the terminator past its end). -/
def byteAt (s : List Nat) (i : Nat) : Nat := s.getD i 0

/-- The C library `strlen`: the number of bytes before the first terminator. -/
def strlen : List Nat → Nat
  | [] => 0
  | c :: cs => if c = 0 then 0 else strlen cs + 1

/-- The C library `strcmp`: the difference of the first pair of differing
bytes (as unsigned bytes), `0` when the strings agree up to their terminator. -/
def strcmp : List Nat → List Nat → Int
  | [], [] => 0
  | [], b :: _ => 0 - (b : Int)
  | a :: _, [] => (a : Int)
  | a :: as, b :: bs =>
    if a ≠ b then (a : Int) - (b : Int) else if a = 0 then 0 else strcmp as bs

/-- The block written by `memcpy(dst, src, n)` into a fresh allocation of `n` bytes. -/
def memblock (src : List Nat) (n : Nat) : List Nat :=
  (List.range n).map (byteAt src)

/-- The buffer after `memcpy(sp, src, n)`. -/
def memcpy (sp : Buf) (src : List Nat) (n : Nat) : Buf :=
  fun i => if i < n then byteAt src i else sp i

/-- The buffer after `sp[i] = v`. -/
def poke (sp : Buf) (i : Nat) (v : Nat) : Buf :=
  fun j => if j = i then v else sp j

/-! ## The queue operations -/

/-- Source `q_new`: `ok` tells whether `malloc` succeeded. -/
def q_new (ok : Bool) : Option queue_t :=
  if ok then some { head := none, tail := none, size := 0 } else none

/-- Source `q_insert_head`.  `newh` is the result of the first `malloc` (the
address of the new element, or `NULL`), `valueOk` tells whether the second
`malloc` (the copy of the string) succeeded.  The result is the heap, the
container and the returned boolean.  The increment `q->size += 1` is taken in
the integers: it is the increment of the `int` when the count is below
`INT_MAX`; at `INT_MAX` the C increment overflows and the model does not
follow it, so the theorems on a successful insertion assume a count below
`INT_MAX`. -/
def q_insert_head (h : Heap) (q : Option queue_t) (s : List Nat)
    (newh : Option Nat) (valueOk : Bool) : Option (Heap × Option queue_t × Bool) :=
  match q with
  | none => some (h, none, false)
  | some q =>
    match newh with
    | none => some (h, some q, false)
    | some a =>
      let h1 : Heap := fun b => if b = a then some { value := [], next := none } else h b
      let copy_size := strlen s + 1
      if valueOk = false then some (free h1 a, some q, false)
      else
        let h2 : Heap :=
          fun b => if b = a then some { value := memblock s copy_size, next := none } else h1 b
        match q.head with
        | none => some (h2, some { q with head := some a, tail := some a, size := q.size + 1 }, true)
        | some hd =>
          match store_next h2 (some a) (some hd) with
          | none => none
          | some h3 => some (h3, some { q with head := some a, size := q.size + 1 }, true)

/-- Source `q_insert_tail`, with the same allocation parameters as
`q_insert_head` and the same reading of `q->size += 1` (exact below `INT_MAX`). -/
def q_insert_tail (h : Heap) (q : Option queue_t) (s : List Nat)
    (newt : Option Nat) (valueOk : Bool) : Option (Heap × Option queue_t × Bool) :=
  match q with
  | none => some (h, none, false)
  | some q =>
    match newt with
    | none => some (h, some q, false)
    | some a =>
      let h1 : Heap := fun b => if b = a then some { value := [], next := none } else h b
      let copy_size := strlen s + 1
      if valueOk = false then some (free h1 a, some q, false)
      else
        let h2 : Heap :=
          fun b => if b = a then some { value := memblock s copy_size, next := none } else h1 b
        match q.tail with
        | none => some (h2, some { q with head := some a, tail := some a, size := q.size + 1 }, true)
        | some tl =>
          match store_next h2 (some tl) (some a) with
          | none => none
          | some h3 => some (h3, some { q with tail := some a, size := q.size + 1 }, true)

/-- Source `q_remove_head`.  `sp` is the caller's buffer (`none` for `NULL`)
and `bufsize` its declared capacity; the index `bufsize - 1` is computed in
`size_t`.  The result is the heap, the container, the buffer and the returned
boolean.  With a buffer and `bufsize = 0` that index is `SIZE_MOD - 1`, outside
the buffer: the model records the store at that offset and goes on, where C
leaves the behaviour of the out-of-bounds store undefined; so the model follows
the code for `sp = NULL` or `1 ≤ bufsize`, which the theorems on a successful
removal assume. -/
def q_remove_head (h : Heap) (q : Option queue_t) (sp : Option Buf) (bufsize : Nat) :
    Option (Heap × Option queue_t × Option Buf × Bool) :=
  match q with
  | none => some (h, none, sp, false)
  | some q =>
    match q.head with
    | none => some (h, some q, sp, false)
    | some a =>
      match h a with
      | none => none
      | some rm_node =>
        let q1 : queue_t := { q with head := rm_node.next, size := q.size - 1 }
        let q2 : queue_t := if rm_node.next = none then { q1 with tail := none } else q1
        let copy_size := strlen rm_node.value + 1
        let sp1 := sp.map (fun buf =>
          poke (memcpy buf rm_node.value (if copy_size ≤ bufsize then copy_size else bufsize))
            ((bufsize + SIZE_MOD - 1) % SIZE_MOD) 0)
        some (free h a, some q2, sp1, true)

/-- Source `q_size`.  The `int` it returns is the count of the model as long as
that count is at most `INT_MAX`. -/
def q_size (q : Option queue_t) : Int :=
  match q with
  | none => 0
  | some q => q.size

/-- The `while (cur)` loop of `q_reverse`, on the heap, `q->head` and `cur`. -/
def reverse_loop : Nat → Heap → Option Nat → Option Nat → Option (Heap × Option Nat)
  | 0, _, _, _ => none
  | fuel + 1, h, head, cur =>
    match cur with
    | none => some (h, head)
    | some c =>
      match h c with
      | none => none
      | some n =>
        match store_next h (some c) head with
        | none => none
        | some h1 => reverse_loop fuel h1 (some c) n.next

/-- Source `q_reverse`. -/
def q_reverse (fuel : Nat) (h : Heap) (q : Option queue_t) : Option (Heap × Option queue_t) :=
  match q with
  | none => some (h, none)
  | some q =>
    match q.head with
    | none => some (h, some q)
    | some a =>
      match h a with
      | none => none
      | some n =>
        match reverse_loop fuel h (some a) n.next with
        | none => none
        | some (h1, hd) =>
          match store_next h1 (some a) none with
          | none => none
          | some h2 => some (h2, some { q with head := hd, tail := some a })

/-- The slow/fast loop of `q_sort_mergesort`, on `stp1` and `stp2`; the result
is the final `stp1`. -/
def split_loop : Nat → Heap → Option Nat → Option Nat → Option (Option Nat)
  | 0, _, _, _ => none
  | fuel + 1, h, stp1, stp2 =>
    match stp2 with
    | none => some stp1
    | some a2 =>
      match h a2 with
      | none => none
      | some n2 =>
        match n2.next with
        | none => some stp1
        | some a3 =>
          match load h stp1, h a3 with
          | some n1, some n3 => split_loop fuel h n1.next n3.next
          | _, _ => none

/-- The merge loop `while (p2 && p3)` of `q_sort_mergesort` followed by the
final `p1->next = p2 ? p2 : p3`. -/
def merge_loop : Nat → Heap → Option Nat → Option Nat → Option Nat → Option Heap
  | 0, _, _, _, _ => none
  | fuel + 1, h, p1, p2, p3 =>
    match p2, p3 with
    | some a2, some a3 =>
      match h a2, h a3 with
      | some n2, some n3 =>
        if strcmp n2.value n3.value < 0 then
          match store_next h p1 (some a2) with
          | none => none
          | some h1 =>
            match h1 a2 with
            | none => none
            | some m2 => merge_loop fuel h1 (some a2) m2.next (some a3)
        else
          match store_next h p1 (some a3) with
          | none => none
          | some h1 =>
            match h1 a3 with
            | none => none
            | some m3 => merge_loop fuel h1 (some a3) (some a2) m3.next
      | _, _ => none
    | some a2, none => store_next h p1 (some a2)
    | none, p3 => store_next h p1 p3

/-- The merge part of `q_sort_mergesort` (from the comparison of the two heads
to the return), on the two sorted halves `p1` and `p2`. -/
def merge_halves (fuel : Nat) (h : Heap) (p1 p2 : Option Nat) : Option (Heap × Option Nat) :=
  match load h p1, load h p2 with
  | some n1, some n2 =>
    if strcmp n1.value n2.value > 0 then
      match merge_loop fuel h p2 p1 n2.next with
      | none => none
      | some h1 => some (h1, p2)
    else
      match merge_loop fuel h p1 p2 n1.next with
      | none => none
      | some h1 => some (h1, p1)
  | _, _ => none

/-- Source `q_sort_mergesort`: the sorted chain's heap and head. -/
def q_sort_mergesort : Nat → Heap → Option Nat → Option (Heap × Option Nat)
  | 0, _, _ => none
  | fuel + 1, h, p1 =>
    match load h p1 with
    | none => none
    | some n1 =>
      match n1.next with
      | none => some (h, p1)
      | some a2 =>
        match split_loop fuel h p1 (some a2) with
        | none => none
        | some stp1 =>
          match load h stp1 with
          | none => none
          | some ns =>
            match store_next h stp1 none with
            | none => none
            | some h1 =>
              match q_sort_mergesort fuel h1 p1 with
              | none => none
              | some (h2, s1) =>
                match q_sort_mergesort fuel h2 ns.next with
                | none => none
                | some (h3, s2) => merge_halves fuel h3 s1 s2

/-- The loop of `q_sort` that walks `q->tail` to the last element. -/
def tail_loop : Nat → Heap → Option Nat → Option (Option Nat)
  | 0, _, _ => none
  | fuel + 1, h, tail =>
    match load h tail with
    | none => none
    | some n =>
      match n.next with
      | none => some tail
      | some b => tail_loop fuel h (some b)

/-- Source `q_sort`. -/
def q_sort (fuel : Nat) (h : Heap) (q : Option queue_t) : Option (Heap × Option queue_t) :=
  if q_size q ≤ 1 then some (h, q)
  else
    match q with
    | none => none
    | some q =>
      match q_sort_mergesort fuel h q.head with
      | none => none
      | some (h1, hd) =>
        match tail_loop fuel h1 q.tail with
        | none => none
        | some tl => some (h1, some { q with head := hd, tail := tl })

/-! ## Reading the chain: the abstraction used by the proofs -/

/-- The pointer to a segment `l` that ends in `p`: its first address, or `p`
when the segment is empty. -/
def headOr (l : List Nat) (p : Option Nat) : Option Nat :=
  match l with
  | [] => p
  | a :: _ => some a

/-- The addresses `l` are live and linked in this order by their `next`
fields, the last one pointing to `p`. -/
def seg (h : Heap) : List Nat → Option Nat → Prop
  | [], _ => True
  | a :: l, p => (h a).map list_ele_t.next = some (headOr l p) ∧ seg h l p

/-- Decision procedure for `seg`. -/
def decSeg (h : Heap) : (l : List Nat) → (p : Option Nat) → Decidable (seg h l p)
  | [], _ => isTrue trivial
  | a :: l, p =>
    match decSeg h l p with
    | isTrue ht =>
      if hh : (h a).map list_ele_t.next = some (headOr l p) then isTrue ⟨hh, ht⟩
      else isFalse (fun hc => hh hc.1)
    | isFalse ht => isFalse (fun hc => ht hc.2)

instance instDecidableSeg (h : Heap) (l : List Nat) (p : Option Nat) : Decidable (seg h l p) :=
  decSeg h l p

/-- The chain `l`: following `next` from the first address of `l` visits
exactly the addresses of `l`, in order, and then reaches `NULL`. -/
def chain (h : Heap) (l : List Nat) : Prop := seg h l none

instance instDecidableChain (h : Heap) (l : List Nat) : Decidable (chain h l) :=
  decSeg h l none

/-- The string owned by the element at address `a`. -/
def valOf (h : Heap) (a : Nat) : List Nat :=
  match h a with
  | none => []
  | some n => n.value

/-- The container invariants of the data model, for a container whose chain
is `l`: the chain is linked from `head` and ends in `NULL`, no node occurs
twice, `tail` is the last node and `size` is the number of nodes. -/
def inv (h : Heap) (q : queue_t) (l : List Nat) : Prop :=
  chain h l ∧ l.Nodup ∧ q.head = l.head? ∧ q.tail = l.getLast? ∧ q.size = (l.length : Int)

instance instDecidableInv (h : Heap) (q : queue_t) (l : List Nat) : Decidable (inv h q l) :=
  inferInstanceAs (Decidable (chain h l ∧ l.Nodup ∧ q.head = l.head? ∧ q.tail = l.getLast? ∧
    q.size = (l.length : Int)))

/-- The order of the sort on strings: `strcmp v w <= 0`. -/
def sle (v w : List Nat) : Prop := strcmp v w ≤ 0

instance instDecidableSle (v w : List Nat) : Decidable (sle v w) :=
  inferInstanceAs (Decidable (strcmp v w ≤ 0))

/-- The list computed by the merge loop from the chains at `p2` and `p3`. -/
def mergeL (val : Nat → List Nat) : List Nat → List Nat → List Nat
  | [], l3 => l3
  | a2 :: l2, [] => a2 :: l2
  | a2 :: l2, a3 :: l3 =>
    if strcmp (val a2) (val a3) < 0 then a2 :: mergeL val l2 (a3 :: l3)
    else a3 :: mergeL val (a2 :: l2) l3
termination_by l2 l3 => l2.length + l3.length

/-- The list computed by the merge part from the two sorted halves. -/
def mergeHeads (val : Nat → List Nat) (l1 l2 : List Nat) : List Nat :=
  match l1, l2 with
  | a :: t1, b :: t2 =>
    if strcmp (val a) (val b) > 0 then b :: mergeL val (a :: t1) t2
    else a :: mergeL val (b :: t2) t1
  | _, _ => l1 ++ l2

/-- The list computed by `q_sort_mergesort` from the chain `l`. -/
def msortL (val : Nat → List Nat) : Nat → List Nat → List Nat
  | 0, l => l
  | fuel + 1, l =>
    if l.length ≤ 1 then l
    else
      mergeHeads val (msortL val fuel (l.take ((l.length + 1) / 2)))
        (msortL val fuel (l.drop ((l.length + 1) / 2)))

/-- The heap after a successful `a->next = nx`. -/
def setNext (h : Heap) (a : Nat) (nx : Option Nat) : Heap :=
  fun b => if b = a then (h a).map (fun n => { n with next := nx }) else h b

/-- The two heaps hold the same strings at the same addresses. -/
def sameVals (h h' : Heap) : Prop :=
  ∀ b, (h' b).map list_ele_t.value = (h b).map list_ele_t.value

/-- The order of the sort on nodes, through the strings they own. -/
def nle (val : Nat → List Nat) (a b : Nat) : Prop := sle (val a) (val b)

instance instDecidableNle (val : Nat → List Nat) (a b : Nat) : Decidable (nle val a b) :=
  inferInstanceAs (Decidable (strcmp (val a) (val b) ≤ 0))

/-- The heap with a new element `n` at address `a`. -/
def alloc (h : Heap) (a : Nat) (n : list_ele_t) : Heap :=
  fun b => if b = a then some n else h b

/-- An example heap: four elements at addresses 1 to 4 holding "b", "c", "a", "b". -/
def exHeap : Heap := fun a =>
  if a = 1 then some ⟨[98, 0], some 2⟩
  else if a = 2 then some ⟨[99, 0], some 3⟩
  else if a = 3 then some ⟨[97, 0], some 4⟩
  else if a = 4 then some ⟨[98, 0], none⟩
  else none

/-- The container over `exHeap`, with chain `[1, 2, 3, 4]`. -/
def exQ : queue_t := { head := some 1, tail := some 4, size := 4 }

/-- The addresses met when following `next` from `p`, at most `fuel` of them. -/
def readChain : Nat → Heap → Option Nat → List Nat
  | 0, _, _ => []
  | fuel + 1, h, p =>
    match p with
    | none => []
    | some a =>
      match h a with
      | none => []
      | some n => a :: readChain fuel h n.next

/-- A heap with two sorted chains, `[1, 2]` holding "b", "c" and `[3, 4]` holding "a", "b". -/
def exHalves : Heap := fun a =>
  if a = 1 then some ⟨[98, 0], some 2⟩
  else if a = 2 then some ⟨[99, 0], none⟩
  else if a = 3 then some ⟨[97, 0], some 4⟩
  else if a = 4 then some ⟨[98, 0], none⟩
  else none

/-- The pointer reached from `p` by following `next` exactly `k` times. -/
def follow (h : Heap) : Nat → Option Nat → Option Nat
  | 0, p => p
  | k + 1, p =>
    match load h p with
    | none => none
    | some n => follow h k n.next

/-- The states of a container reachable from the empty container of `q_new`
by the public operations.  An insertion receives from `malloc` either `NULL`
or an address that is not live, and is called on a container of fewer than
`INT_MAX` nodes (the `int` count does not overflow); a removal is given no
buffer, or a buffer of a capacity of at least one byte. -/
inductive Reach : Heap → queue_t → Prop
  | new (h : Heap) (q : queue_t) : q_new true = some q → Reach h q
  | insert_head {h : Heap} {q : queue_t} (s : List Nat) (newh : Option Nat) (valueOk : Bool)
      {h' : Heap} {q' : queue_t} {r : Bool} :
      Reach h q → (∀ a, newh = some a → h a = none) → q.size < (INT_MAX : Int) →
      q_insert_head h (some q) s newh valueOk = some (h', some q', r) → Reach h' q'
  | insert_tail {h : Heap} {q : queue_t} (s : List Nat) (newt : Option Nat) (valueOk : Bool)
      {h' : Heap} {q' : queue_t} {r : Bool} :
      Reach h q → (∀ a, newt = some a → h a = none) → q.size < (INT_MAX : Int) →
      q_insert_tail h (some q) s newt valueOk = some (h', some q', r) → Reach h' q'
  | remove_head {h : Heap} {q : queue_t} (sp : Option Buf) (bufsize : Nat)
      {h' : Heap} {q' : queue_t} {sp' : Option Buf} {r : Bool} :
      Reach h q → (sp = none ∨ (1 ≤ bufsize ∧ bufsize < SIZE_MOD)) →
      q_remove_head h (some q) sp bufsize = some (h', some q', sp', r) → Reach h' q'
  | reverse {h : Heap} {q : queue_t} (fuel : Nat) {h' : Heap} {q' : queue_t} :
      Reach h q → q_reverse fuel h (some q) = some (h', some q') → Reach h' q'
  | sort {h : Heap} {q : queue_t} (fuel : Nat) {h' : Heap} {q' : queue_t} :
      Reach h q → q_sort fuel h (some q) = some (h', some q') → Reach h' q'

/-- The empty heap. -/
def exEmpty : Heap := fun _ => none

/-- The first `c` bytes of a buffer. -/
def bufBytes (buf : Buf) (c : Nat) : List Nat := (List.range c).map buf

/-- A buffer filled with the byte 7. -/
def exBuf : Buf := fun _ => 7

/-- The byte-wise order on strings in words: either the two strings agree up
to and including the terminator of the first, or at the first offset where
they differ (an offset inside the first string, its terminator included) the
byte of the first is the smaller one; a proper prefix is therefore less. -/
def bytewiseLe (v w : List Nat) : Prop :=
  (∀ j, j ≤ strlen v → byteAt v j = byteAt w j) ∨
  ∃ i, i ≤ strlen v ∧ (∀ j, j < i → byteAt v j = byteAt w j) ∧ byteAt v i < byteAt w i

instance instDecidableBytewiseLe (v w : List Nat) : Decidable (bytewiseLe v w) :=
  inferInstanceAs (Decidable ((∀ j, j ≤ strlen v → byteAt v j = byteAt w j) ∨
    ∃ i, i ≤ strlen v ∧ (∀ j, j < i → byteAt v j = byteAt w j) ∧ byteAt v i < byteAt w i))

/-! ## The split of `q_sort_mergesort`, on its own -/

/-- The split of `q_sort_mergesort`, from `stp1 = p1` to `stp1->next = NULL`:
the heap after the cut and the head `p2` of the second half. -/
def split_halves (fuel : Nat) (h : Heap) (p1 : Option Nat) : Option (Heap × Option Nat) :=
  match load h p1 with
  | none => none
  | some n1 =>
    match split_loop fuel h p1 n1.next with
    | none => none
    | some stp1 =>
      match load h stp1 with
      | none => none
      | some ns =>
        match store_next h stp1 none with
        | none => none
        | some h1 => some (h1, ns.next)

/-! ## Sequences of calls -/

/-- The string found at the start of a block of bytes, as a block of its own:
the bytes before the first terminator, then the terminator. -/
def cstr (s : List Nat) : List Nat := memblock s (strlen s + 1)

/-- A call of one of the public operations, with what the environment
supplies: the answers of the allocator for an insertion, the caller's buffer
and its capacity for a removal, the fuel for an operation with loops. -/
inductive Op
  | insert_head (s : List Nat) (newh : Option Nat) (valueOk : Bool)
  | insert_tail (s : List Nat) (newt : Option Nat) (valueOk : Bool)
  | remove_head (sp : Option Buf) (bufsize : Nat)
  | reverse (fuel : Nat)
  | sort (fuel : Nat)

/-- The state of a run of calls: the heap, the container pointer, the number
of insertions that returned true, the number of removals that returned true
and the strings these removals delivered into a provided buffer, in order. -/
structure St where
  h : Heap
  q : Option queue_t
  ins : Nat
  rem : Nat
  out : List (List Nat)

/-- The strings delivered so far, after a removal that returned `r` and left
the buffer `sp1`: a removal that returned true with a buffer adds the string
now found in the buffer. -/
def deliver (out : List (List Nat)) (r : Bool) (sp1 : Option Buf) (bufsize : Nat) :
    List (List Nat) :=
  match r, sp1 with
  | true, some b => out ++ [cstr (bufBytes b bufsize)]
  | _, _ => out

/-- One call. -/
def step (st : St) : Op → Option St
  | Op.insert_head s newh valueOk =>
    match q_insert_head st.h st.q s newh valueOk with
    | none => none
    | some (h1, q1, r) =>
      some { st with h := h1, q := q1, ins := st.ins + (if r then 1 else 0) }
  | Op.insert_tail s newt valueOk =>
    match q_insert_tail st.h st.q s newt valueOk with
    | none => none
    | some (h1, q1, r) =>
      some { st with h := h1, q := q1, ins := st.ins + (if r then 1 else 0) }
  | Op.remove_head sp bufsize =>
    match q_remove_head st.h st.q sp bufsize with
    | none => none
    | some (h1, q1, sp1, r) =>
      some { st with h := h1, q := q1, rem := st.rem + (if r then 1 else 0),
                     out := deliver st.out r sp1 bufsize }
  | Op.reverse fuel =>
    match q_reverse fuel st.h st.q with
    | none => none
    | some (h1, q1) => some { st with h := h1, q := q1 }
  | Op.sort fuel =>
    match q_sort fuel st.h st.q with
    | none => none
    | some (h1, q1) => some { st with h := h1, q := q1 }

/-- A sequence of calls, one after the other. -/
def run : St → List Op → Option St
  | st, [] => some st
  | st, op :: ops =>
    match step st op with
    | none => none
    | some st1 => run st1 ops

instance instDecidableFresh (h : Heap) (newh : Option Nat) :
    Decidable (∀ a, newh = some a → h a = none) :=
  match newh with
  | none => isTrue (fun _ e => Option.noConfusion e)
  | some b =>
    if hb : h b = none then isTrue (fun _ e => Option.some.inj e ▸ hb)
    else isFalse (fun hall => hb (hall b rfl))

instance instDecidableNoBuf (sp : Option Buf) : Decidable (sp = none) :=
  match sp with
  | none => isTrue rfl
  | some _ => isFalse (fun e => Option.noConfusion e)

/-- What a call may assume of its environment: `malloc` answers `NULL` or an
address that is not live; an insertion is called on a container of fewer than
`INT_MAX` nodes (the `int` count does not overflow); a removal is given no
buffer, or a buffer of a capacity of at least one byte; the fuel of a loop
exceeds the number of nodes. -/
def okOp (st : St) : Op → Prop
  | Op.insert_head _ newh _ =>
    (∀ a, newh = some a → st.h a = none) ∧ q_size st.q < (INT_MAX : Int)
  | Op.insert_tail _ newt _ =>
    (∀ a, newt = some a → st.h a = none) ∧ q_size st.q < (INT_MAX : Int)
  | Op.remove_head sp bufsize => sp = none ∨ (1 ≤ bufsize ∧ bufsize < SIZE_MOD)
  | Op.reverse fuel => q_size st.q ≤ (fuel : Int)
  | Op.sort fuel => q_size st.q < (fuel : Int)

instance instDecidableOkOp (st : St) (op : Op) : Decidable (okOp st op) :=
  match op with
  | Op.insert_head _ newh _ =>
    inferInstanceAs (Decidable
      ((∀ a, newh = some a → st.h a = none) ∧ q_size st.q < (INT_MAX : Int)))
  | Op.insert_tail _ newt _ =>
    inferInstanceAs (Decidable
      ((∀ a, newt = some a → st.h a = none) ∧ q_size st.q < (INT_MAX : Int)))
  | Op.remove_head sp bufsize =>
    inferInstanceAs (Decidable (sp = none ∨ (1 ≤ bufsize ∧ bufsize < SIZE_MOD)))
  | Op.reverse fuel => inferInstanceAs (Decidable (q_size st.q ≤ (fuel : Int)))
  | Op.sort fuel => inferInstanceAs (Decidable (q_size st.q < (fuel : Int)))

/-- The assumption `okOp` holds at every call of the sequence. -/
def okRun : St → List Op → Prop
  | _, [] => True
  | st, op :: ops => okOp st op ∧ ∀ st1, step st op = some st1 → okRun st1 ops

/-- The assumption `okRun` is decided by running the sequence. -/
def decOkRun : (st : St) → (ops : List Op) → Decidable (okRun st ops)
  | _, [] => isTrue trivial
  | st, op :: ops =>
    if h1 : okOp st op then
      match hs : step st op with
      | none => isTrue ⟨h1, fun st1 e => by rw [hs] at e; cases e⟩
      | some st2 =>
        match decOkRun st2 ops with
        | isTrue h2 => isTrue ⟨h1, fun st1 e => by rw [hs] at e; cases e; exact h2⟩
        | isFalse h2 => isFalse (fun hh => h2 (hh.2 st2 hs))
    else isFalse (fun hh => h1 hh.1)

instance instDecidableOkRun (st : St) (ops : List Op) : Decidable (okRun st ops) :=
  decOkRun st ops

/-- The container of a state is absent, or satisfies the invariants with a
count of at most `INT_MAX`. -/
def stInv (st : St) : Prop :=
  st.q = none ∨ ∃ q l, st.q = some q ∧ inv st.h q l ∧ l.length ≤ INT_MAX

/-- A sequence of calls on the example container: four insertions and a failed
allocation, a removal into a buffer of two bytes, a sort and a reversal. -/
def exOps : List Op :=
  [Op.insert_head [98] (some 1) true, Op.insert_tail [97] (some 2) true,
   Op.insert_head [99] none true, Op.insert_tail [99] (some 3) true,
   Op.insert_head [97] (some 4) true, Op.remove_head (some exBuf) 2,
   Op.sort 5, Op.reverse 5]

/-- The state in which `exOps` leaves a fresh container over the empty heap. -/
def exFinal : St :=
  (run { h := exEmpty, q := q_new true, ins := 0, rem := 0, out := [] } exOps).getD
    { h := exEmpty, q := none, ins := 0, rem := 0, out := [] }

/-- The container in which `exOps` leaves a fresh container: three nodes. -/
def exFinalQ : queue_t := exFinal.q.getD { head := none, tail := none, size := 0 }

/-! ## The commented-out alternate implementation of the sort -/

/-- The assignment `*tmp = x` of the alternate `merge_sort`: `tmp` is either
the slot `*head` it was given (`none`) or the `next` field of the node at an
address (`some a`).  The result is the heap and the content of the slot. -/
def assign_slot (h : Heap) (hd : Option Nat) (tmp : Option Nat) (x : Option Nat) :
    Option (Heap × Option Nat) :=
  match tmp with
  | none => some (h, x)
  | some a =>
    match store_next h (some a) x with
    | none => none
    | some h1 => some (h1, hd)

/-- The merge loop `while (l1 && l2)` of the alternate `merge_sort` followed
by the final `*tmp = l1 ? l1 : l2`, on the heap, the slot `*head`, `tmp`, `l1`
and `l2`; after `*tmp = x` the step `tmp = &((*tmp)->next)` makes `tmp` the
`next` field of `x`. -/
def alt_merge_loop : Nat → Heap → Option Nat → Option Nat → Option Nat → Option Nat →
    Option (Heap × Option Nat)
  | 0, _, _, _, _, _ => none
  | fuel + 1, h, hd, tmp, l1, l2 =>
    match l1, l2 with
    | some a1, some a2 =>
      match h a1, h a2 with
      | some n1, some n2 =>
        if strcmp n1.value n2.value < 0 then
          match assign_slot h hd tmp (some a1) with
          | none => none
          | some (h1, hd1) =>
            match h1 a1 with
            | none => none
            | some m1 => alt_merge_loop fuel h1 hd1 (some a1) m1.next (some a2)
        else
          match assign_slot h hd tmp (some a2) with
          | none => none
          | some (h1, hd1) =>
            match h1 a2 with
            | none => none
            | some m2 => alt_merge_loop fuel h1 hd1 (some a2) (some a1) m2.next
      | _, _ => none
    | some a1, none => assign_slot h hd tmp (some a1)
    | none, l2 => assign_slot h hd tmp l2

/-- Source `merge_sort` (the commented-out alternate), on the heap and the
content of `*head`; the result is the heap and the new content of `*head`.
Its slow/fast loop is the loop of `q_sort_mergesort` with `l2` for `stp1` and
`l1` for `stp2`. -/
def merge_sort : Nat → Heap → Option Nat → Option (Heap × Option Nat)
  | 0, _, _ => none
  | fuel + 1, h, head =>
    match head with
    | none => some (h, none)
    | some a =>
      match h a with
      | none => none
      | some n =>
        match n.next with
        | none => some (h, some a)
        | some b =>
          match split_loop fuel h (some a) (some b) with
          | none => none
          | some l2 =>
            match load h l2 with
            | none => none
            | some n2 =>
              match store_next h l2 none with
              | none => none
              | some h1 =>
                match merge_sort fuel h1 (some a) with
                | none => none
                | some (h2, s2) =>
                  match merge_sort fuel h2 n2.next with
                  | none => none
                  | some (h3, s1) => alt_merge_loop fuel h3 none none s1 s2

/-- Source `q_sort` of the commented-out alternate. -/
def q_sort_alt (fuel : Nat) (h : Heap) (q : Option queue_t) : Option (Heap × Option queue_t) :=
  match q with
  | none => some (h, none)
  | some q =>
    if q.head = q.tail then some (h, some q)
    else
      match merge_sort fuel h q.head with
      | none => none
      | some (h1, hd) =>
        match tail_loop fuel h1 q.tail with
        | none => none
        | some tl => some (h1, some { q with head := hd, tail := tl })

/-- The list computed by the alternate `merge_sort` from the chain `l`. -/
def msortAlt (val : Nat → List Nat) : Nat → List Nat → List Nat
  | 0, l => l
  | fuel + 1, l =>
    if l.length ≤ 1 then l
    else
      mergeL val (msortAlt val fuel (l.drop ((l.length + 1) / 2)))
        (msortAlt val fuel (l.take ((l.length + 1) / 2)))

/-- Order on strings used to compare two sorted sequences: strictly less for
`strcmp`, or equal. -/
def keyLe (v w : List Nat) : Prop := strcmp v w < 0 ∨ v = w

/-! ## The order given by `strcmp` -/

theorem strcmp_swap (a b : List Nat) : strcmp b a = - strcmp a b := by
  induction a generalizing b with
  | nil => cases b <;> simp [strcmp]
  | cons x xs ih =>
    cases b with
    | nil => simp [strcmp]
    | cons y ys =>
      simp only [strcmp]
      by_cases hxy : x = y
      · subst hxy
        by_cases hx : x = 0
        · simp [hx]
        · simp [hx, ih]
      · have hyx : y ≠ x := fun e => hxy e.symm
        simp [hxy, hyx]

theorem strcmp_self (a : List Nat) : strcmp a a = 0 := by
  have := strcmp_swap a a
  omega

theorem sle_total (a b : List Nat) : sle a b ∨ sle b a := by
  unfold sle
  have := strcmp_swap a b
  omega

theorem sle_trans {a b c : List Nat} (hab : sle a b) (hbc : sle b c) : sle a c := by
  unfold sle at *
  induction a generalizing b c with
  | nil =>
    cases b with
    | nil => exact hbc
    | cons y ys =>
      cases c with
      | nil => 
        simp only [strcmp] at hab hbc ⊢
        omega
      | cons z zs =>
        simp only [strcmp] at hab hbc ⊢
        split_ifs at hbc <;> omega
  | cons x xs ih =>
    cases b with
    | nil =>
      cases c with
      | nil => simpa [strcmp] using hab
      | cons z zs =>
        simp only [strcmp] at hab hbc ⊢
        split_ifs <;> omega
    | cons y ys =>
      cases c with
      | nil =>
        simp only [strcmp] at hab hbc ⊢
        split_ifs at hab <;> omega
      | cons z zs =>
        simp only [strcmp] at hab hbc ⊢
        split_ifs at hab hbc ⊢ <;> first | omega | exact ih hab hbc

/-! ## Heap and chain lemmas -/

theorem store_next_eq {h : Heap} {a : Nat} {n : list_ele_t} (nx : Option Nat)
    (ha : h a = some n) : store_next h (some a) nx = some (setNext h a nx) := by
  unfold store_next setNext
  simp [ha]

theorem setNext_same (h : Heap) (a : Nat) (nx : Option Nat) :
    setNext h a nx a = (h a).map (fun n => { n with next := nx }) := by
  simp [setNext]

theorem setNext_other (h : Heap) {a b : Nat} (nx : Option Nat) (hb : b ≠ a) :
    setNext h a nx b = h b := by
  simp [setNext, hb]

theorem sameVals_refl (h : Heap) : sameVals h h := fun _ => rfl

theorem sameVals_trans {h1 h2 h3 : Heap} (h12 : sameVals h1 h2) (h23 : sameVals h2 h3) :
    sameVals h1 h3 := fun b => (h23 b).trans (h12 b)

theorem sameVals_setNext (h : Heap) (a : Nat) (nx : Option Nat) :
    sameVals h (setNext h a nx) := by
  intro b
  by_cases hb : b = a
  · subst hb
    rw [setNext_same]
    cases h b <;> rfl
  · rw [setNext_other h nx hb]

theorem valOf_eq_of_sameVals {h h' : Heap} (hv : sameVals h h') : valOf h' = valOf h := by
  funext b
  have := hv b
  unfold valOf
  cases hb : h b <;> cases hb' : h' b <;> simp_all

theorem valOf_of_eq {h : Heap} {a : Nat} {n : list_ele_t} (ha : h a = some n) :
    valOf h a = n.value := by
  simp [valOf, ha]

theorem headOr_none (l : List Nat) : headOr l none = l.head? := by
  cases l <;> rfl

theorem seg_congr {h h' : Heap} {l : List Nat} {p : Option Nat}
    (hf : ∀ a ∈ l, h' a = h a) (hs : seg h l p) : seg h' l p := by
  induction l with
  | nil => trivial
  | cons a l ih =>
    refine ⟨?_, ih (fun b hb => hf b (List.mem_cons_of_mem _ hb)) hs.2⟩
    rw [hf a (List.mem_cons_self _ _)]
    exact hs.1

theorem seg_live {h : Heap} {l : List Nat} {p : Option Nat} (hs : seg h l p) {a : Nat}
    (ha : a ∈ l) : ∃ n, h a = some n := by
  induction l with
  | nil => cases ha
  | cons b l ih =>
    rcases List.mem_cons.1 ha with rfl | hm
    · have h1 := hs.1
      cases hb : h a with
      | none => rw [hb] at h1; cases h1
      | some n => exact ⟨n, rfl⟩
    · exact ih hs.2 hm

theorem seg_head {h : Heap} {a : Nat} {l : List Nat} {p : Option Nat} (hs : seg h (a :: l) p) :
    ∃ n, h a = some n ∧ n.next = headOr l p := by
  have h1 := hs.1
  cases hb : h a with
  | none => rw [hb] at h1; cases h1
  | some n =>
    rw [hb] at h1
    exact ⟨n, rfl, by simpa using h1⟩

theorem seg_append {h : Heap} {l1 l2 : List Nat} {p : Option Nat} :
    seg h (l1 ++ l2) p ↔ seg h l1 (headOr l2 p) ∧ seg h l2 p := by
  induction l1 with
  | nil => simp [seg]
  | cons a l ih =>
    have hh : headOr (l ++ l2) p = headOr l (headOr l2 p) := by
      cases l <;> rfl
    constructor
    · rintro ⟨h1, h2⟩
      have h3 := ih.1 h2
      exact ⟨⟨h1.trans (congrArg some hh), h3.1⟩, h3.2⟩
    · rintro ⟨⟨h1, h2⟩, h3⟩
      exact ⟨h1.trans (congrArg some hh.symm), ih.2 ⟨h2, h3⟩⟩

theorem merge_loop_spec (fuel : Nat) : ∀ (h : Heap) (a1 : Nat) (l2 l3 : List Nat),
    (a1 :: (l2 ++ l3)).Nodup → chain h l2 → chain h l3 → (∃ n, h a1 = some n) →
    l2.length + l3.length < fuel →
    ∃ h', merge_loop fuel h (some a1) l2.head? l3.head? = some h' ∧
      chain h' (a1 :: mergeL (valOf h) l2 l3) ∧
      (∀ b, b ∉ a1 :: (l2 ++ l3) → h' b = h b) ∧ sameVals h h' := by
  induction fuel with
  | zero => intro h a1 l2 l3 _ _ _ _ hf; omega
  | succ fuel ih =>
    intro h a1 l2 l3 hnd hc2 hc3 ⟨n1, hn1⟩ hf
    have hnd1 : a1 ∉ l2 ++ l3 := (List.nodup_cons.1 hnd).1
    cases l2 with
    | nil =>
      refine ⟨setNext h a1 l3.head?, ?_, ?_, ?_, sameVals_setNext _ _ _⟩
      · simp only [merge_loop, List.head?_nil]
        exact store_next_eq _ hn1
      · rw [mergeL]
        refine ⟨?_, seg_congr (fun b hb => setNext_other h _ ?_) hc3⟩
        · rw [setNext_same, hn1, headOr_none]; rfl
        · rintro rfl; exact hnd1 (by simpa using hb)
      · intro b hb
        exact setNext_other h _ (fun e => hb (by simp [e]))
    | cons a2 t2 =>
      obtain ⟨n2, hn2, hnx2⟩ := seg_head hc2
      have h21 : a2 ≠ a1 := by rintro rfl; exact hnd1 (by simp)
      cases l3 with
      | nil =>
        refine ⟨setNext h a1 (some a2), ?_, ?_, ?_, sameVals_setNext _ _ _⟩
        · simp only [merge_loop, List.head?_cons, List.head?_nil]
          exact store_next_eq _ hn1
        · rw [mergeL]
          refine ⟨?_, seg_congr (fun b hb => setNext_other h _ ?_) hc2⟩
          · rw [setNext_same, hn1]; rfl
          · rintro rfl; exact hnd1 (by simpa using hb)
        · intro b hb
          exact setNext_other h _ (fun e => hb (by simp [e]))
      | cons a3 t3 =>
        obtain ⟨n3, hn3, hnx3⟩ := seg_head hc3
        have h31 : a3 ≠ a1 := by rintro rfl; exact hnd1 (by simp)
        have hnd2 : (a2 :: (t2 ++ a3 :: t3)).Nodup := (List.nodup_cons.1 hnd).2
        by_cases hlt : strcmp n2.value n3.value < 0
        · -- the element of `p2` is relinked
          have hfr : ∀ b, b ∈ t2 ++ a3 :: t3 → setNext h a1 (some a2) b = h b := by
            intro b hb
            refine setNext_other h _ ?_
            rintro rfl; exact hnd1 (List.mem_cons_of_mem _ hb)
          obtain ⟨h', hrun, hch, hout, hvals⟩ := ih (setNext h a1 (some a2)) a2 t2 (a3 :: t3) hnd2
            (seg_congr (fun b hb => hfr b (List.mem_append_left _ hb)) hc2.2)
            (seg_congr (fun b hb => hfr b (List.mem_append_right _ hb)) hc3)
            ⟨n2, by rw [setNext_other h _ h21]; exact hn2⟩
            (by simp only [List.length_cons] at hf ⊢; omega)
          have hv : valOf (setNext h a1 (some a2)) = valOf h :=
            valOf_eq_of_sameVals (sameVals_setNext _ _ _)
          refine ⟨h', ?_, ?_, ?_, sameVals_trans (sameVals_setNext _ _ _) hvals⟩
          · simp only [merge_loop, List.head?_cons, hn2, hn3, hlt, if_true,
              store_next_eq _ hn1, setNext_other h _ h21, hnx2, headOr_none]
            exact hrun
          · rw [mergeL, valOf_of_eq hn2, valOf_of_eq hn3, if_pos hlt]
            rw [hv] at hch
            refine ⟨?_, hch⟩
            rw [hout a1 (fun hm => (List.nodup_cons.1 hnd).1 (by simpa using hm)),
              setNext_same, hn1]
            rfl
          · intro b hb
            rw [hout b (fun hm => hb (List.mem_cons_of_mem _ (by simpa using hm)))]
            exact setNext_other h _ (fun e => hb (by simp [e]))
        · -- the element of `p3` is relinked
          have hnd3 : (a3 :: ((a2 :: t2) ++ t3)).Nodup := by
            have hp : (a3 :: ((a2 :: t2) ++ t3)).Perm ((a2 :: t2) ++ a3 :: t3) :=
              (List.perm_middle).symm
            exact hp.nodup_iff.2 hnd2
          have hfr : ∀ b, b ∈ (a2 :: t2) ++ a3 :: t3 → setNext h a1 (some a3) b = h b := by
            intro b hb
            refine setNext_other h _ ?_
            rintro rfl; exact hnd1 hb
          obtain ⟨h', hrun, hch, hout, hvals⟩ := ih (setNext h a1 (some a3)) a3 (a2 :: t2) t3 hnd3
            (seg_congr (fun b hb => hfr b (List.mem_append_left _ hb)) hc2)
            (seg_congr (fun b hb => hfr b (List.mem_append_right _ (List.mem_cons_of_mem _ hb)))
              hc3.2)
            ⟨n3, by rw [setNext_other h _ h31]; exact hn3⟩
            (by simp only [List.length_cons] at hf ⊢; omega)
          have hv : valOf (setNext h a1 (some a3)) = valOf h :=
            valOf_eq_of_sameVals (sameVals_setNext _ _ _)
          refine ⟨h', ?_, ?_, ?_, sameVals_trans (sameVals_setNext _ _ _) hvals⟩
          · simp only [merge_loop, List.head?_cons, hn2, hn3, hlt, if_false,
              store_next_eq _ hn1, setNext_other h _ h31, hnx3, headOr_none]
            exact hrun
          · rw [mergeL, valOf_of_eq hn2, valOf_of_eq hn3, if_neg hlt]
            rw [hv] at hch
            refine ⟨?_, hch⟩
            rw [hout a1 (fun hm => hnd1 (by
              rcases List.mem_cons.1 hm with e | hm
              · exact absurd e.symm h31
              · simp at hm ⊢; tauto)), setNext_same, hn1]
            rfl
          · intro b hb
            rw [hout b (fun hm => hb (by
              rcases List.mem_cons.1 hm with e | hm
              · simp [e]
              · exact List.mem_cons_of_mem _ (by
                  rcases List.mem_append.1 hm with hm | hm
                  · exact List.mem_append_left _ hm
                  · exact List.mem_append_right _ (List.mem_cons_of_mem _ hm))))]
            exact setNext_other h _ (fun e => hb (by simp [e]))

/-! ## The lists computed by the merge -/

theorem mergeL_perm (val : Nat → List Nat) : ∀ (n : Nat) (l2 l3 : List Nat),
    l2.length + l3.length ≤ n → (mergeL val l2 l3).Perm (l2 ++ l3) := by
  intro n
  induction n with
  | zero =>
    intro l2 l3 hn
    have h2 : l2 = [] := List.length_eq_zero.1 (by omega)
    have h3 : l3 = [] := List.length_eq_zero.1 (by omega)
    subst h2 h3
    simp [mergeL]
  | succ n ih =>
    intro l2 l3 hn
    cases l2 with
    | nil => rw [mergeL]; exact List.Perm.refl _
    | cons a2 t2 =>
      cases l3 with
      | nil => rw [mergeL]; simp
      | cons a3 t3 =>
        rw [mergeL]
        simp only [List.length_cons] at hn
        split_ifs
        · exact (ih t2 (a3 :: t3) (by simp only [List.length_cons]; omega)).cons a2
        · have h1 := (ih (a2 :: t2) t3 (by simp only [List.length_cons]; omega)).cons a3
          exact h1.trans List.perm_middle.symm

theorem mergeHeads_perm (val : Nat → List Nat) (l1 l2 : List Nat) :
    (mergeHeads val l1 l2).Perm (l1 ++ l2) := by
  unfold mergeHeads
  split
  · rename_i a t1 b t2
    split_ifs
    · have h1 := (mergeL_perm val _ (a :: t1) t2 (le_refl _)).cons b
      exact h1.trans List.perm_middle.symm
    · have h1 := (mergeL_perm val _ (b :: t2) t1 (le_refl _)).cons a
      refine h1.trans (List.Perm.cons a ?_)
      exact List.perm_append_comm
  · exact List.Perm.refl _

theorem msortL_perm (val : Nat → List Nat) (fuel : Nat) :
    ∀ l : List Nat, (msortL val fuel l).Perm l := by
  induction fuel with
  | zero => intro l; rw [msortL]
  | succ fuel ih =>
    intro l
    rw [msortL]
    split_ifs
    · exact List.Perm.refl _
    · refine (mergeHeads_perm val _ _).trans ?_
      refine ((ih _).append (ih _)).trans ?_
      rw [List.take_append_drop]

/-! ## The loops of the sort on a chain -/

theorem split_loop_spec (h : Heap) (fuel : Nat) : ∀ (xs ys : List Nat),
    chain h xs → chain h ys → ys.length < xs.length → ys.length < fuel →
    split_loop fuel h xs.head? ys.head? = some (xs.drop (ys.length / 2)).head? := by
  induction fuel with
  | zero => intro xs ys _ _ _ hf; omega
  | succ fuel ih =>
    intro xs ys hx hy hlen hf
    cases ys with
    | nil => simp [split_loop]
    | cons y1 ys1 =>
      obtain ⟨n2, hn2, hnx2⟩ := seg_head hy
      cases ys1 with
      | nil =>
        have hnx2n : n2.next = none := hnx2
        simp [split_loop, hn2, hnx2n]
      | cons y2 ys2 =>
        obtain ⟨n3, hn3, hnx3⟩ := seg_head hy.2
        cases xs with
        | nil => simp at hlen
        | cons x xs1 =>
          obtain ⟨n1, hn1, hnx1⟩ := seg_head hx
          simp only [List.length_cons] at hlen hf
          have hrec := ih xs1 ys2 hx.2 hy.2.2 (by omega) (by omega)
          have hnx2s : n2.next = some y2 := hnx2
          simp only [split_loop, List.head?_cons, hn2, hnx2s, load, hn1, hn3, hnx1,
            hnx3, headOr_none]
          rw [hrec]
          have hk : (ys2.length + 1 + 1) / 2 = ys2.length / 2 + 1 := by omega
          simp only [List.length_cons, hk, List.drop_succ_cons]

theorem chain_cut {h : Heap} {l1 l2 : List Nat} {s : Nat} (hc : chain h (l1 ++ s :: l2))
    (hnd : (l1 ++ s :: l2).Nodup) :
    chain (setNext h s none) (l1 ++ [s]) ∧ chain (setNext h s none) l2 := by
  have hs := (seg_append (p := none)).1 hc
  have hnd2 := List.nodup_append.1 hnd
  have hs1 : s ∉ l1 := fun hm => hnd2.2.2 hm (List.mem_cons_self _ _)
  have hs2 : s ∉ l2 := (List.nodup_cons.1 hnd2.2.1).1
  obtain ⟨n, hn, -⟩ := seg_head hs.2
  constructor
  · refine (seg_append (p := none)).2 ⟨?_, ?_, trivial⟩
    · exact seg_congr (fun b hb => setNext_other h _ (fun e => hs1 (e ▸ hb))) hs.1
    · rw [setNext_same, hn]; rfl
  · exact seg_congr (fun b hb => setNext_other h _ (fun e => hs2 (e ▸ hb))) hs.2.2

theorem merge_halves_spec (fuel : Nat) (h : Heap) (l1 l2 : List Nat) (hne1 : l1 ≠ [])
    (hne2 : l2 ≠ []) (hnd : (l1 ++ l2).Nodup) (hc1 : chain h l1) (hc2 : chain h l2)
    (hf : l1.length + l2.length ≤ fuel) :
    ∃ h', merge_halves fuel h l1.head? l2.head?
        = some (h', (mergeHeads (valOf h) l1 l2).head?) ∧
      chain h' (mergeHeads (valOf h) l1 l2) ∧
      (∀ b, b ∉ l1 ++ l2 → h' b = h b) ∧ sameVals h h' := by
  cases l1 with
  | nil => exact absurd rfl hne1
  | cons a t1 =>
    cases l2 with
    | nil => exact absurd rfl hne2
    | cons b t2 =>
      obtain ⟨n1, hn1, hnx1⟩ := seg_head hc1
      obtain ⟨n2, hn2, hnx2⟩ := seg_head hc2
      simp only [List.length_cons] at hf
      by_cases hgt : strcmp n1.value n2.value > 0
      · have hp : (b :: ((a :: t1) ++ t2)).Perm ((a :: t1) ++ b :: t2) := List.perm_middle.symm
        obtain ⟨h', hrun, hch, hout, hvals⟩ := merge_loop_spec fuel h b (a :: t1) t2
          (hp.nodup_iff.2 hnd) hc1 hc2.2 ⟨n2, hn2⟩ (by simp only [List.length_cons]; omega)
        refine ⟨h', ?_, ?_, ?_, hvals⟩
        · simp only [merge_halves, load, List.head?_cons, hn1, hn2, hgt, if_true, hnx2,
            headOr_none]
          simp only [List.head?_cons] at hrun
          rw [hrun]
          simp [mergeHeads, valOf_of_eq hn1, valOf_of_eq hn2, hgt]
        · simpa [mergeHeads, valOf_of_eq hn1, valOf_of_eq hn2, hgt] using hch
        · intro c hc
          exact hout c (fun hm => hc (hp.mem_iff.1 hm))
      · have hp : (a :: ((b :: t2) ++ t1)).Perm ((a :: t1) ++ b :: t2) :=
          List.Perm.cons a List.perm_append_comm
        obtain ⟨h', hrun, hch, hout, hvals⟩ := merge_loop_spec fuel h a (b :: t2) t1
          (hp.nodup_iff.2 hnd) hc2 hc1.2 ⟨n1, hn1⟩ (by simp only [List.length_cons]; omega)
        refine ⟨h', ?_, ?_, ?_, hvals⟩
        · simp only [merge_halves, load, List.head?_cons, hn1, hn2, hgt, if_false, hnx1,
            headOr_none]
          simp only [List.head?_cons] at hrun
          rw [hrun]
          simp [mergeHeads, valOf_of_eq hn1, valOf_of_eq hn2, hgt]
        · simpa [mergeHeads, valOf_of_eq hn1, valOf_of_eq hn2, hgt] using hch
        · intro c hc
          exact hout c (fun hm => hc (hp.mem_iff.1 hm))

theorem take_drop_split {l : List Nat} {k : Nat} (hk : k < l.length) :
    ∃ s l2, l = l.take k ++ s :: l2 ∧ l.take (k + 1) = l.take k ++ [s] ∧ l.drop (k + 1) = l2 := by
  refine ⟨l[k], l.drop (k + 1), ?_, ?_, rfl⟩
  · conv_lhs => rw [← List.take_append_drop k l]
    rw [List.drop_eq_getElem_cons hk]
  · rw [List.take_succ, List.getElem?_eq_getElem hk]
    rfl

theorem q_sort_mergesort_spec (fuel : Nat) : ∀ (h : Heap) (l : List Nat),
    l ≠ [] → l.Nodup → chain h l → l.length < fuel →
    ∃ h', q_sort_mergesort fuel h l.head? = some (h', (msortL (valOf h) fuel l).head?) ∧
      chain h' (msortL (valOf h) fuel l) ∧
      (∀ b, b ∉ l → h' b = h b) ∧ sameVals h h' := by
  induction fuel with
  | zero => intro h l _ _ _ hf; omega
  | succ fuel ih =>
    intro h l hne hnd hc hf
    cases l with
    | nil => exact absurd rfl hne
    | cons a t =>
      obtain ⟨n1, hn1, hnx1⟩ := seg_head hc
      cases t with
      | nil =>
        have hnx1n : n1.next = none := hnx1
        refine ⟨h, ?_, ?_, fun _ _ => rfl, sameVals_refl h⟩
        · simp [q_sort_mergesort, load, hn1, hnx1n, msortL]
        · simpa [msortL] using hc
      | cons b t1 =>
        have hnx1s : n1.next = some b := hnx1
        -- the split
        have hsplit := split_loop_spec h fuel (a :: b :: t1) (b :: t1) hc hc.2
          (by simp) (by simp only [List.length_cons] at hf ⊢; omega)
        simp only [List.head?_cons] at hsplit
        obtain ⟨k, hk⟩ : ∃ k, k = (b :: t1).length / 2 := ⟨_, rfl⟩
        obtain ⟨l, hl0⟩ : ∃ l, l = a :: b :: t1 := ⟨_, rfl⟩
        have hlen : l.length = t1.length + 2 := by rw [hl0]; rfl
        have hk2 : 2 * k ≤ t1.length + 1 ∧ t1.length < 2 * k + 1 := by
          rw [hk]; simp only [List.length_cons]; omega
        have hhead : (l.take (k + 1)).head? = some a := by rw [hl0]; rfl
        have hms : msortL (valOf h) (fuel + 1) l
            = mergeHeads (valOf h) (msortL (valOf h) fuel (l.take (k + 1)))
                (msortL (valOf h) fuel (l.drop (k + 1))) := by
          have hkk : (l.length + 1) / 2 = k + 1 := by omega
          rw [msortL, if_neg (by omega), hkk]
        simp only [List.length_cons] at hf
        rw [← hk, ← hl0] at hsplit
        rw [← hl0] at hc hnd ⊢
        clear hk hl0 hnx1 hne
        obtain ⟨s, l2, hl, htake, hdrop⟩ := take_drop_split (show k < l.length by omega)
        have hstp : (l.drop k).head? = some s := by
          conv_lhs => rw [hl]
          rw [List.drop_left' (by rw [List.length_take]; omega)]
          rfl
        rw [hstp] at hsplit
        have hc0 := hc
        have hnd0 := hnd
        rw [hl] at hc0 hnd0
        have hseg := (seg_append (p := none)).1 hc0
        obtain ⟨ns, hns, hnxs⟩ := seg_head hseg.2
        obtain ⟨hcA, hcB⟩ := chain_cut hc0 hnd0
        rw [← htake] at hcA
        rw [← hdrop] at hcB hnxs
        -- sizes of the halves
        have hlA : (l.take (k + 1)).length = k + 1 := by
          rw [List.length_take]; omega
        have hlB : (l.drop (k + 1)).length = l.length - (k + 1) := List.length_drop _ _
        have hneA : l.take (k + 1) ≠ [] := by
          intro e; rw [e] at hlA; simp at hlA
        have hneB : l.drop (k + 1) ≠ [] := by
          intro e; rw [e] at hlB; simp only [List.length_nil] at hlB; omega
        have hndAB : (l.take (k + 1) ++ l.drop (k + 1)).Nodup := by
          rw [List.take_append_drop]; exact hnd
        have hndA := (List.nodup_append.1 hndAB).1
        have hndB := (List.nodup_append.1 hndAB).2.1
        have hdisj := (List.nodup_append.1 hndAB).2.2
        have hsl : s ∈ l := by rw [hl]; simp
        -- first recursive call
        obtain ⟨h2, hrun1, hch1, hout1, hv1⟩ := ih (setNext h s none) _ hneA hndA hcA
          (by omega)
        have hval1 : valOf (setNext h s none) = valOf h :=
          valOf_eq_of_sameVals (sameVals_setNext _ _ _)
        rw [hval1] at hrun1 hch1
        -- second recursive call
        have hcB2 : chain h2 (l.drop (k + 1)) :=
          seg_congr (fun c hcm => hout1 c (fun hm => hdisj hm hcm)) hcB
        obtain ⟨h3, hrun2, hch2, hout2, hv2⟩ := ih h2 _ hneB hndB hcB2 (by omega)
        have hval2 : valOf h2 = valOf h :=
          (valOf_eq_of_sameVals hv1).trans hval1
        rw [hval2] at hrun2 hch2
        have hval3 : valOf h3 = valOf h := (valOf_eq_of_sameVals hv2).trans hval2
        -- the merge
        have hpA := msortL_perm (valOf h) fuel (l.take (k + 1))
        have hpB := msortL_perm (valOf h) fuel (l.drop (k + 1))
        have hch1b : chain h3 (msortL (valOf h) fuel (l.take (k + 1))) :=
          seg_congr (fun c hcm => hout2 c (fun hm => hdisj (hpA.mem_iff.1 hcm) hm)) hch1
        have hpAB := hpA.append hpB
        obtain ⟨h4, hrun3, hch3, hout3, hv3⟩ := merge_halves_spec fuel h3 _ _
          (fun e => hneA (List.Perm.eq_nil (by rw [← e]; exact hpA.symm)))
          (fun e => hneB (List.Perm.eq_nil (by rw [← e]; exact hpB.symm)))
          (hpAB.nodup_iff.2 hndAB) hch1b hch2
          (by rw [hpA.length_eq, hpB.length_eq, hlA, hlB]; omega)
        rw [hval3] at hrun3 hch3
        refine ⟨h4, ?_, ?_, ?_, ?_⟩
        · rw [hhead] at hrun1
          have hlh : l.head? = some a := by
            rw [← hhead]; cases l <;> rfl
          simp only [q_sort_mergesort, hlh, load, hn1, hnx1s, hsplit, hns,
            store_next_eq none hns, hrun1, hnxs, headOr_none, hrun2]
          rw [hms]
          exact hrun3
        · rw [hms]; exact hch3
        · intro c hcm
          have hcA : c ∉ l.take (k + 1) :=
            fun hm => hcm (List.mem_of_mem_take hm)
          have hcB : c ∉ l.drop (k + 1) :=
            fun hm => hcm (List.mem_of_mem_drop hm)
          rw [hout3 c (fun hm => by
            rcases List.mem_append.1 hm with hm | hm
            · exact hcA (hpA.mem_iff.1 hm)
            · exact hcB (hpB.mem_iff.1 hm)), hout2 c hcB, hout1 c hcA]
          exact setNext_other h _ (fun e => hcm (e ▸ hsl))
        · exact sameVals_trans (sameVals_trans (sameVals_trans (sameVals_setNext _ _ _) hv1)
            hv2) hv3

/-! ## The result of the merge is sorted -/

theorem nle_trans {val : Nat → List Nat} {a b c : Nat} (hab : nle val a b)
    (hbc : nle val b c) : nle val a c := sle_trans hab hbc

theorem nle_of_lt {val : Nat → List Nat} {a b : Nat} (h : strcmp (val a) (val b) < 0) :
    nle val a b := by
  unfold nle sle; omega

theorem nle_of_not_lt {val : Nat → List Nat} {a b : Nat} (h : ¬ strcmp (val a) (val b) < 0) :
    nle val b a := by
  unfold nle sle
  have := strcmp_swap (val a) (val b)
  omega

theorem nle_of_gt {val : Nat → List Nat} {a b : Nat} (h : strcmp (val a) (val b) > 0) :
    nle val b a := by
  unfold nle sle
  have := strcmp_swap (val a) (val b)
  omega

theorem nle_of_not_gt {val : Nat → List Nat} {a b : Nat} (h : ¬ strcmp (val a) (val b) > 0) :
    nle val a b := by
  unfold nle sle; omega

theorem mergeL_sorted (val : Nat → List Nat) : ∀ (n : Nat) (l2 l3 : List Nat),
    l2.length + l3.length ≤ n → l2.Pairwise (nle val) → l3.Pairwise (nle val) →
    (mergeL val l2 l3).Pairwise (nle val) := by
  intro n
  induction n with
  | zero =>
    intro l2 l3 hn _ _
    have h2 : l2 = [] := List.length_eq_zero.1 (by omega)
    have h3 : l3 = [] := List.length_eq_zero.1 (by omega)
    subst h2 h3
    simp [mergeL]
  | succ n ih =>
    intro l2 l3 hn hs2 hs3
    cases l2 with
    | nil => rw [mergeL]; exact hs3
    | cons a2 t2 =>
      cases l3 with
      | nil => rw [mergeL]; exact hs2
      | cons a3 t3 =>
        rw [mergeL]
        simp only [List.length_cons] at hn
        have hp2 := List.pairwise_cons.1 hs2
        have hp3 := List.pairwise_cons.1 hs3
        split_ifs with hlt
        · refine List.pairwise_cons.2 ⟨?_, ih t2 (a3 :: t3)
            (by simp only [List.length_cons]; omega) hp2.2 hs3⟩
          intro x hx
          have hx2 := (mergeL_perm val _ t2 (a3 :: t3) (le_refl _)).mem_iff.1 hx
          rcases List.mem_append.1 hx2 with hm | hm
          · exact hp2.1 x hm
          · rcases List.mem_cons.1 hm with rfl | hm
            · exact nle_of_lt hlt
            · exact nle_trans (nle_of_lt hlt) (hp3.1 x hm)
        · refine List.pairwise_cons.2 ⟨?_, ih (a2 :: t2) t3
            (by simp only [List.length_cons]; omega) hs2 hp3.2⟩
          intro x hx
          have hx2 := (mergeL_perm val _ (a2 :: t2) t3 (le_refl _)).mem_iff.1 hx
          rcases List.mem_append.1 hx2 with hm | hm
          · rcases List.mem_cons.1 hm with rfl | hm
            · exact nle_of_not_lt hlt
            · exact nle_trans (nle_of_not_lt hlt) (hp2.1 x hm)
          · exact hp3.1 x hm

theorem mergeHeads_sorted (val : Nat → List Nat) (l1 l2 : List Nat)
    (hs1 : l1.Pairwise (nle val)) (hs2 : l2.Pairwise (nle val)) :
    (mergeHeads val l1 l2).Pairwise (nle val) := by
  unfold mergeHeads
  split
  · rename_i a t1 b t2
    have hp1 := List.pairwise_cons.1 hs1
    have hp2 := List.pairwise_cons.1 hs2
    split_ifs with hgt
    · refine List.pairwise_cons.2 ⟨?_, mergeL_sorted val _ _ _ (le_refl _) hs1 hp2.2⟩
      intro x hx
      have hx2 := (mergeL_perm val _ (a :: t1) t2 (le_refl _)).mem_iff.1 hx
      rcases List.mem_append.1 hx2 with hm | hm
      · rcases List.mem_cons.1 hm with rfl | hm
        · exact nle_of_gt hgt
        · exact nle_trans (nle_of_gt hgt) (hp1.1 x hm)
      · exact hp2.1 x hm
    · refine List.pairwise_cons.2 ⟨?_, mergeL_sorted val _ _ _ (le_refl _) hs2 hp1.2⟩
      intro x hx
      have hx2 := (mergeL_perm val _ (b :: t2) t1 (le_refl _)).mem_iff.1 hx
      rcases List.mem_append.1 hx2 with hm | hm
      · rcases List.mem_cons.1 hm with rfl | hm
        · exact nle_of_not_gt hgt
        · exact nle_trans (nle_of_not_gt hgt) (hp2.1 x hm)
      · exact hp1.1 x hm
  · rename_i hno
    cases l1 with
    | nil => simpa using hs2
    | cons a t1 =>
      cases l2 with
      | nil => simpa using hs1
      | cons b t2 => exact absurd rfl (hno a t1 b t2 rfl)

theorem msortL_small (val : Nat → List Nat) (fuel : Nat) {l : List Nat} (hl : l.length ≤ 1) :
    msortL val fuel l = l := by
  cases fuel with
  | zero => rw [msortL]
  | succ fuel => rw [msortL, if_pos hl]

theorem msortL_sorted (val : Nat → List Nat) (fuel : Nat) : ∀ l : List Nat,
    l.length ≤ fuel + 1 → (msortL val fuel l).Pairwise (nle val) := by
  induction fuel with
  | zero =>
    intro l hl
    rw [msortL]
    match l, hl with
    | [], _ => exact List.Pairwise.nil
    | [a], _ => exact List.pairwise_singleton _ _
  | succ fuel ih =>
    intro l hl
    rw [msortL]
    split_ifs with h1
    · match l, h1 with
      | [], _ => exact List.Pairwise.nil
      | [a], _ => exact List.pairwise_singleton _ _
    · refine mergeHeads_sorted val _ _ (ih _ ?_) (ih _ ?_)
      · rw [List.length_take]; omega
      · rw [List.length_drop]; omega

/-! ## The tail loop and `q_sort` -/

theorem tail_loop_spec (h : Heap) : ∀ (l2 : List Nat) (t : Nat) (fuel : Nat),
    chain h (t :: l2) → l2.length < fuel →
    tail_loop fuel h (some t) = some (t :: l2).getLast? := by
  intro l2
  induction l2 with
  | nil =>
    intro t fuel hc hf
    obtain ⟨n, hn, hnx⟩ := seg_head hc
    have hnxn : n.next = none := hnx
    cases fuel with
    | zero => omega
    | succ fuel => simp [tail_loop, load, hn, hnxn]
  | cons b l2 ih =>
    intro t fuel hc hf
    obtain ⟨n, hn, hnx⟩ := seg_head hc
    have hnxs : n.next = some b := hnx
    cases fuel with
    | zero => omega
    | succ fuel =>
      simp only [List.length_cons] at hf
      simp only [tail_loop, load, hn, hnxs]
      rw [ih b fuel hc.2 (by omega)]
      simp [List.getLast?_cons_cons]

theorem tail_loop_mem (h : Heap) {l : List Nat} {t : Nat} (hc : chain h l) (ht : t ∈ l)
    {fuel : Nat} (hf : l.length ≤ fuel) : tail_loop fuel h (some t) = some l.getLast? := by
  obtain ⟨l1, l2, rfl⟩ := List.append_of_mem ht
  have hs := (seg_append (p := none)).1 hc
  rw [tail_loop_spec h l2 t fuel hs.2 (by simp at hf; omega)]
  rw [List.getLast?_append_of_ne_nil _ (by simp)]

theorem q_sort_spec (fuel : Nat) (h : Heap) (q : queue_t) (l : List Nat) (hinv : inv h q l)
    (hf : l.length < fuel) :
    ∃ h', q_sort fuel h (some q)
        = some (h', some { q with head := (msortL (valOf h) fuel l).head?,
                                  tail := (msortL (valOf h) fuel l).getLast? }) ∧
      chain h' (msortL (valOf h) fuel l) ∧
      (∀ b, b ∉ l → h' b = h b) ∧ sameVals h h' := by
  obtain ⟨hc, hnd, hhd, htl, hsz⟩ := hinv
  by_cases hsmall : l.length ≤ 1
  · refine ⟨h, ?_, ?_, fun _ _ => rfl, sameVals_refl h⟩
    · have hq : q_size (some q) ≤ 1 := by simp only [q_size, hsz]; omega
      rw [msortL_small _ _ hsmall, ← hhd, ← htl]
      simp [q_sort, hq]
    · rw [msortL_small _ _ hsmall]; exact hc
  · have hne : l ≠ [] := by rintro rfl; simp at hsmall
    obtain ⟨h', hrun, hch, hout, hv⟩ := q_sort_mergesort_spec fuel h l hne hnd hc hf
    have hperm := msortL_perm (valOf h) fuel l
    obtain ⟨t, ht⟩ : ∃ t, l.getLast? = some t := by
      cases hl : l.getLast? with
      | none => exact absurd (List.getLast?_eq_none_iff.1 hl) hne
      | some t => exact ⟨t, rfl⟩
    have htm : t ∈ msortL (valOf h) fuel l :=
      hperm.mem_iff.2 (List.mem_of_getLast?_eq_some ht)
    have htail : tail_loop fuel h' (some t) = some (msortL (valOf h) fuel l).getLast? :=
      tail_loop_mem h' hch htm (by rw [hperm.length_eq]; omega)
    refine ⟨h', ?_, hch, hout, hv⟩
    have hq : ¬ q_size (some q) ≤ 1 := by simp only [q_size, hsz]; omega
    simp only [q_sort, hq, if_false, hhd, hrun, htl, ht, htail]

/-! ## `q_reverse` -/

theorem headOr_append (l1 l2 : List Nat) (p : Option Nat) :
    headOr (l1 ++ l2) p = headOr l1 (headOr l2 p) := by
  cases l1 <;> rfl

theorem reverse_loop_spec : ∀ (c : List Nat) (h : Heap) (r : Nat) (fuel : Nat),
    chain h c → (r :: c).Nodup → c.length < fuel →
    ∃ h', reverse_loop fuel h (some r) c.head? = some (h', headOr c.reverse (some r)) ∧
      seg h' c.reverse (some r) ∧ (∀ b, b ∉ c → h' b = h b) ∧ sameVals h h' := by
  intro c
  induction c with
  | nil =>
    intro h r fuel _ _ hf
    cases fuel with
    | zero => omega
    | succ fuel =>
      exact ⟨h, by simp [reverse_loop, headOr], trivial, fun _ _ => rfl, sameVals_refl h⟩
  | cons x c ih =>
    intro h r fuel hc hnd hf
    cases fuel with
    | zero => omega
    | succ fuel =>
      obtain ⟨n, hn, hnx⟩ := seg_head hc
      have hnd2 : (x :: c).Nodup := (List.nodup_cons.1 hnd).2
      have hxc : x ∉ c := (List.nodup_cons.1 hnd2).1
      simp only [List.length_cons] at hf
      obtain ⟨h', hrun, hseg, hout, hv⟩ := ih (setNext h x (some r)) x fuel
        (seg_congr (fun b hb => setNext_other h _ (fun e => hxc (e ▸ hb))) hc.2) hnd2 (by omega)
      refine ⟨h', ?_, ?_, ?_, sameVals_trans (sameVals_setNext _ _ _) hv⟩
      · simp only [reverse_loop, List.head?_cons, hn, store_next_eq _ hn, hnx, headOr_none]
        rw [hrun, List.reverse_cons, headOr_append]
        rfl
      · rw [List.reverse_cons]
        refine seg_append.2 ⟨hseg, ?_, trivial⟩
        rw [hout x (by simpa using hxc), setNext_same, hn]
        rfl
      · intro b hb
        rw [hout b (fun hm => hb (List.mem_cons_of_mem _ hm))]
        exact setNext_other h _ (fun e => hb (by simp [e]))

theorem setNext_id {h : Heap} {a : Nat} {n : list_ele_t} {nx : Option Nat} (hn : h a = some n)
    (hnx : n.next = nx) : setNext h a nx = h := by
  funext b
  by_cases hb : b = a
  · subst hb
    rw [setNext_same, hn, ← hnx]
    rfl
  · exact setNext_other h _ hb

theorem q_reverse_spec (fuel : Nat) (h : Heap) (q : queue_t) (l : List Nat) (hinv : inv h q l)
    (hf : l.length ≤ fuel) :
    ∃ h', q_reverse fuel h (some q)
        = some (h', some { q with head := l.reverse.head?, tail := l.head? }) ∧
      chain h' l.reverse ∧ (∀ b, b ∉ l → h' b = h b) ∧ sameVals h h' ∧
      (l.length ≤ 1 → h' = h) := by
  obtain ⟨hc, hnd, hhd, htl, hsz⟩ := hinv
  cases l with
  | nil =>
    refine ⟨h, ?_, hc, fun _ _ => rfl, sameVals_refl h, fun _ => rfl⟩
    cases q with
    | mk qh qt qs =>
      have hh : qh = none := hhd
      have ht : qt = none := htl
      subst hh ht
      simp [q_reverse]
  | cons a c =>
    have hh : q.head = some a := hhd
    obtain ⟨n, hn, hnx⟩ := seg_head hc
    simp only [List.length_cons] at hf
    obtain ⟨h1, hrun, hseg, hout, hv⟩ := reverse_loop_spec c h a fuel hc.2 hnd (by omega)
    have hac : a ∉ c := (List.nodup_cons.1 hnd).1
    have h1a : h1 a = some n := by rw [hout a hac]; exact hn
    refine ⟨setNext h1 a none, ?_, ?_, ?_, sameVals_trans hv (sameVals_setNext _ _ _), ?_⟩
    · simp only [q_reverse, hh, hn, hnx, headOr_none, hrun, store_next_eq _ h1a,
        List.reverse_cons, List.head?_cons]
      rw [← headOr_none, headOr_append]
      rfl
    · rw [List.reverse_cons]
      refine seg_append.2 ⟨?_, ?_, trivial⟩
      · exact seg_congr (fun b hb => setNext_other h1 _
          (fun e => hac (List.mem_reverse.1 (e ▸ hb)))) hseg
      · rw [setNext_same, h1a]; rfl
    · intro b hb
      rw [setNext_other h1 _ (fun e => hb (by simp [e]))]
      exact hout b (fun hm => hb (List.mem_cons_of_mem _ hm))
    · intro hle
      have hcn : c = [] := List.length_eq_zero.1 (by simp only [List.length_cons] at hle; omega)
      subst hcn
      have hrun2 := hrun
      cases fuel with
      | zero => omega
      | succ fuel =>
        simp only [reverse_loop, List.head?_nil] at hrun2
        have e1 : h1 = h := by
          have := Option.some.inj hrun2
          exact (congrArg Prod.fst this).symm
        rw [e1]
        exact setNext_id hn hnx

/-! ## Strings -/

theorem byteAt_nil (i : Nat) : byteAt [] i = 0 := by
  simp [byteAt]

theorem byteAt_cons_zero (c : Nat) (cs : List Nat) : byteAt (c :: cs) 0 = c := by
  simp [byteAt]

theorem byteAt_cons_succ (c : Nat) (cs : List Nat) (i : Nat) :
    byteAt (c :: cs) (i + 1) = byteAt cs i := by
  simp [byteAt]

theorem byteAt_strlen (s : List Nat) : byteAt s (strlen s) = 0 := by
  induction s with
  | nil => simp [strlen, byteAt]
  | cons c cs ih =>
    by_cases hc : c = 0
    · simp [strlen, hc, byteAt]
    · simp only [strlen, hc, if_false, byteAt_cons_succ]
      exact ih

theorem byteAt_ne_zero (s : List Nat) : ∀ i, i < strlen s → byteAt s i ≠ 0 := by
  induction s with
  | nil => intro i hi; simp [strlen] at hi
  | cons c cs ih =>
    intro i hi
    by_cases hc : c = 0
    · simp [strlen, hc] at hi
    · simp only [strlen, hc, if_false] at hi
      cases i with
      | zero => rw [byteAt_cons_zero]; exact hc
      | succ i => rw [byteAt_cons_succ]; exact ih i (by omega)

theorem strlen_unique (s : List Nat) : ∀ m, (∀ i, i < m → byteAt s i ≠ 0) → byteAt s m = 0 →
    strlen s = m := by
  intro m h1 h2
  rcases Nat.lt_trichotomy (strlen s) m with hlt | heq | hgt
  · exact absurd (byteAt_strlen s) (h1 _ hlt)
  · exact heq
  · exact absurd h2 (byteAt_ne_zero s m hgt)

theorem length_memblock (s : List Nat) (n : Nat) : (memblock s n).length = n := by
  simp [memblock]

theorem byteAt_memblock (s : List Nat) {n i : Nat} (hi : i < n) :
    byteAt (memblock s n) i = byteAt s i := by
  simp [memblock, byteAt, List.getD_eq_getElem?_getD, List.getElem?_map, List.getElem?_range hi]

theorem strlen_memblock (s : List Nat) : strlen (memblock s (strlen s + 1)) = strlen s := by
  apply strlen_unique
  · intro i hi
    rw [byteAt_memblock s (by omega)]
    exact byteAt_ne_zero s i hi
  · rw [byteAt_memblock s (by omega)]
    exact byteAt_strlen s

/-! ## `q_insert_head`, `q_insert_tail` and `q_remove_head` -/

theorem not_mem_of_fresh {h : Heap} {l : List Nat} {p : Option Nat} (hs : seg h l p) {a : Nat}
    (ha : h a = none) : a ∉ l := by
  intro hm
  obtain ⟨n, hn⟩ := seg_live hs hm
  rw [ha] at hn
  cases hn

theorem q_insert_head_spec (h : Heap) (q : queue_t) (l : List Nat) (s : List Nat) (a : Nat)
    (hinv : inv h q l) (hfresh : h a = none) :
    ∃ q', q_insert_head h (some q) s (some a) true
        = some (alloc h a ⟨memblock s (strlen s + 1), l.head?⟩, some q', true) ∧
      inv (alloc h a ⟨memblock s (strlen s + 1), l.head?⟩) q' (a :: l) ∧
      q'.size = q.size + 1 := by
  obtain ⟨hc, hnd, hhd, htl, hsz⟩ := hinv
  have hal : a ∉ l := not_mem_of_fresh hc hfresh
  have hch : chain (alloc h a ⟨memblock s (strlen s + 1), l.head?⟩) (a :: l) := by
    refine ⟨?_, seg_congr (fun b hb => ?_) hc⟩
    · simp [alloc, headOr_none]
    · have : b ≠ a := fun e => hal (e ▸ hb)
      simp [alloc, this]
  cases l with
  | nil =>
    have hh : q.head = none := hhd
    refine ⟨{ q with head := some a, tail := some a, size := q.size + 1 }, ?_, ?_, rfl⟩
    · simp only [q_insert_head, hh, List.head?_nil]
      have e : (fun b => if b = a then some ({ value := memblock s (strlen s + 1), next := none } : list_ele_t)
          else if b = a then some { value := [], next := none } else h b)
          = alloc h a ⟨memblock s (strlen s + 1), none⟩ := by
        funext b; unfold alloc; by_cases hb : b = a <;> simp [hb]
      simp [e]
    · exact ⟨hch, by simp, rfl, rfl, by simp [hsz]⟩
  | cons x t =>
    have hh : q.head = some x := hhd
    refine ⟨{ q with head := some a, size := q.size + 1 }, ?_, ?_, rfl⟩
    · simp only [q_insert_head, hh, List.head?_cons, store_next]
      have e : (fun b => if b = a then some ({ value := memblock s (strlen s + 1), next := some x } : list_ele_t)
          else if b = a then some ({ value := memblock s (strlen s + 1), next := none } : list_ele_t)
          else if b = a then some { value := [], next := none } else h b)
          = alloc h a ⟨memblock s (strlen s + 1), some x⟩ := by
        funext b; unfold alloc; by_cases hb : b = a <;> simp [hb]
      simp [e]
    · refine ⟨hch, List.nodup_cons.2 ⟨hal, hnd⟩, rfl, ?_, ?_⟩
      · show q.tail = _
        rw [htl]; exact (List.getLast?_cons_cons).symm
      · show q.size + 1 = _
        rw [hsz]; simp

theorem q_insert_tail_spec (h : Heap) (q : queue_t) (l : List Nat) (s : List Nat) (a : Nat)
    (hinv : inv h q l) (hfresh : h a = none) :
    ∃ h' q', q_insert_tail h (some q) s (some a) true = some (h', some q', true) ∧
      inv h' q' (l ++ [a]) ∧ q'.size = q.size + 1 ∧
      h' a = some ⟨memblock s (strlen s + 1), none⟩ ∧
      (∀ b, b ≠ a → (h' b).map list_ele_t.value = (h b).map list_ele_t.value) ∧
      (∀ b, b ∉ a :: l → h' b = h b) := by
  obtain ⟨hc, hnd, hhd, htl, hsz⟩ := hinv
  have hal : a ∉ l := not_mem_of_fresh hc hfresh
  have hndl : (l ++ [a]).Nodup := by
    rw [List.nodup_append]
    refine ⟨hnd, by simp, ?_⟩
    intro x hx hx'
    rw [List.mem_singleton] at hx'
    exact hal (hx' ▸ hx)
  have e : (fun b => if b = a then some ({ value := memblock s (strlen s + 1), next := none } : list_ele_t)
      else if b = a then some { value := [], next := none } else h b)
      = alloc h a ⟨memblock s (strlen s + 1), none⟩ := by
    funext b; unfold alloc; by_cases hb : b = a <;> simp [hb]
  have hca : chain (alloc h a ⟨memblock s (strlen s + 1), none⟩) l :=
    seg_congr (fun b hb => by
      have : b ≠ a := fun e => hal (e ▸ hb)
      simp [alloc, this]) hc
  cases hl : l.getLast? with
  | none =>
    have hnil : l = [] := List.getLast?_eq_none_iff.1 hl
    subst hnil
    have ht : q.tail = none := htl
    refine ⟨alloc h a ⟨memblock s (strlen s + 1), none⟩,
      { q with head := some a, tail := some a, size := q.size + 1 }, ?_, ?_, rfl, ?_, ?_, ?_⟩
    · simp only [q_insert_tail, ht]
      simp [e]
    · refine ⟨?_, by simp, rfl, rfl, by simp [hsz]⟩
      exact ⟨by simp [alloc, headOr], trivial⟩
    · simp [alloc]
    · intro b hb; simp [alloc, hb]
    · intro b hb
      have : b ≠ a := fun e => hb (by simp [e])
      simp [alloc, this]
  | some tl =>
    have ht : q.tail = some tl := htl.trans hl
    have hdl : l.dropLast ++ [tl] = l := List.dropLast_append_getLast? tl hl
    have htll : tl ∈ l := List.mem_of_getLast?_eq_some hl
    have hta : tl ≠ a := fun e => hal (e ▸ htll)
    obtain ⟨n, hn⟩ := seg_live hca htll
    refine ⟨setNext (alloc h a ⟨memblock s (strlen s + 1), none⟩) tl (some a),
      { q with tail := some a, size := q.size + 1 }, ?_, ?_, rfl, ?_, ?_, ?_⟩
    · simp only [q_insert_tail, ht]
      simp [e, store_next_eq _ hn]
    · refine ⟨?_, hndl, ?_, ?_, ?_⟩
      · refine seg_append.2 ⟨?_, ?_, trivial⟩
        · have hnd' := hnd
          rw [← hdl] at hca hnd' ⊢
          have hs := (seg_append (p := none)).1 hca
          have htd : tl ∉ l.dropLast := fun hm =>
            (List.nodup_append.1 hnd').2.2 hm (List.mem_singleton_self _)
          refine seg_append.2 ⟨?_, ?_, trivial⟩
          · exact seg_congr (fun b hb => setNext_other _ _ (fun e => htd (e ▸ hb))) hs.1
          · have hn2 : alloc h a ⟨memblock s (strlen s + 1), none⟩ tl = some n := hn
            rw [setNext_same, hn2]; rfl
        · rw [setNext_other _ _ hta.symm]
          simp [alloc, headOr]
      · show q.head = _
        rw [hhd]
        cases l with
        | nil => simp at htll
        | cons x t => rfl
      · show some a = _
        simp
      · show q.size + 1 = _
        rw [hsz]; simp
    · rw [setNext_other _ _ hta.symm]; simp [alloc]
    · intro b hb
      rw [sameVals_setNext (alloc h a ⟨memblock s (strlen s + 1), none⟩) tl (some a) b]
      simp [alloc, hb]
    · intro b hb
      have hba : b ≠ a := fun e => hb (by simp [e])
      have hbt : b ≠ tl := fun e => hb (List.mem_cons_of_mem _ (e ▸ htll))
      rw [setNext_other _ _ hbt]
      simp [alloc, hba]

theorem q_remove_head_spec (h : Heap) (q : queue_t) (a : Nat) (l : List Nat)
    (sp : Option Buf) (bufsize : Nat) (hinv : inv h q (a :: l)) :
    ∃ q', q_remove_head h (some q) sp bufsize
        = some (free h a, some q',
            sp.map (fun buf => poke (memcpy buf (valOf h a)
              (if strlen (valOf h a) + 1 ≤ bufsize then strlen (valOf h a) + 1 else bufsize))
              ((bufsize + SIZE_MOD - 1) % SIZE_MOD) 0), true) ∧
      inv (free h a) q' l ∧ q'.size = q.size - 1 := by
  obtain ⟨hc, hnd, hhd, htl, hsz⟩ := hinv
  have hh : q.head = some a := hhd
  obtain ⟨n, hn, hnx⟩ := seg_head hc
  have hal : a ∉ l := (List.nodup_cons.1 hnd).1
  have hch : chain (free h a) l :=
    seg_congr (fun b hb => by
      have : b ≠ a := fun e => hal (e ▸ hb)
      simp [free, this]) hc.2
  cases l with
  | nil =>
    have hnxn : n.next = none := hnx
    refine ⟨{ q with head := none, tail := none, size := q.size - 1 }, ?_, ?_, rfl⟩
    · simp [q_remove_head, hh, hn, hnxn, valOf_of_eq hn]
    · exact ⟨hch, List.nodup_nil, rfl, rfl, by simp [hsz]⟩
  | cons x t =>
    have hnxs : n.next = some x := hnx
    refine ⟨{ q with head := some x, size := q.size - 1 }, ?_, ?_, rfl⟩
    · simp [q_remove_head, hh, hn, hnxs, valOf_of_eq hn]
    · refine ⟨hch, (List.nodup_cons.1 hnd).2, rfl, ?_, ?_⟩
      · show q.tail = _
        rw [htl]; exact List.getLast?_cons_cons
      · show q.size - 1 = _
        rw [hsz]; simp

/-! ## More fuel does not change a result -/

theorem split_loop_mono (h : Heap) : ∀ (fuel : Nat) (stp1 stp2 : Option Nat) (r : Option Nat),
    split_loop fuel h stp1 stp2 = some r →
    ∀ fuel', fuel ≤ fuel' → split_loop fuel' h stp1 stp2 = some r := by
  intro fuel
  induction fuel with
  | zero => intro stp1 stp2 r hr; simp [split_loop] at hr
  | succ fuel ih =>
    intro stp1 stp2 r hr fuel' hle
    cases fuel' with
    | zero => omega
    | succ fuel' =>
      simp only [split_loop] at hr ⊢
      cases stp2 with
      | none => exact hr
      | some a2 =>
        simp only at hr ⊢
        cases h2 : h a2 with
        | none => simp [h2] at hr
        | some n2 =>
          simp only [h2] at hr ⊢
          cases hx : n2.next with
          | none => simpa [hx] using hr
          | some a3 =>
            simp only [hx] at hr ⊢
            cases h1 : load h stp1 with
            | none => simp [h1] at hr
            | some n1 =>
              cases h3 : h a3 with
              | none => simp [h1, h3] at hr
              | some n3 =>
                simp only [h1, h3] at hr ⊢
                exact ih _ _ _ hr _ (by omega)

theorem merge_loop_mono : ∀ (fuel : Nat) (h : Heap) (p1 p2 p3 : Option Nat) (r : Heap),
    merge_loop fuel h p1 p2 p3 = some r →
    ∀ fuel', fuel ≤ fuel' → merge_loop fuel' h p1 p2 p3 = some r := by
  intro fuel
  induction fuel with
  | zero => intro h p1 p2 p3 r hr; simp [merge_loop] at hr
  | succ fuel ih =>
    intro h p1 p2 p3 r hr fuel' hle
    cases fuel' with
    | zero => omega
    | succ fuel' =>
      cases p2 with
      | none => simpa [merge_loop] using hr
      | some a2 =>
        cases p3 with
        | none => simpa [merge_loop] using hr
        | some a3 =>
          simp only [merge_loop] at hr ⊢
          cases h2 : h a2 with
          | none => simp [h2] at hr
          | some n2 =>
            cases h3 : h a3 with
            | none => simp [h2, h3] at hr
            | some n3 =>
              simp only [h2, h3] at hr ⊢
              by_cases hlt : strcmp n2.value n3.value < 0
              · simp only [hlt, if_true] at hr ⊢
                cases hs : store_next h p1 (some a2) with
                | none => simp [hs] at hr
                | some h1 =>
                  simp only [hs] at hr ⊢
                  cases hm : h1 a2 with
                  | none => simp [hm] at hr
                  | some m2 =>
                    simp only [hm] at hr ⊢
                    exact ih _ _ _ _ _ hr _ (by omega)
              · simp only [hlt, if_false] at hr ⊢
                cases hs : store_next h p1 (some a3) with
                | none => simp [hs] at hr
                | some h1 =>
                  simp only [hs] at hr ⊢
                  cases hm : h1 a3 with
                  | none => simp [hm] at hr
                  | some m3 =>
                    simp only [hm] at hr ⊢
                    exact ih _ _ _ _ _ hr _ (by omega)

theorem merge_halves_mono {fuel : Nat} {h : Heap} {p1 p2 : Option Nat} {r : Heap × Option Nat}
    (hr : merge_halves fuel h p1 p2 = some r) {fuel' : Nat} (hle : fuel ≤ fuel') :
    merge_halves fuel' h p1 p2 = some r := by
  unfold merge_halves at hr ⊢
  cases h1 : load h p1 with
  | none => simp [h1] at hr
  | some n1 =>
    cases h2 : load h p2 with
    | none => simp [h1, h2] at hr
    | some n2 =>
      simp only [h1, h2] at hr ⊢
      by_cases hgt : strcmp n1.value n2.value > 0
      · simp only [hgt, if_true] at hr ⊢
        cases hm : merge_loop fuel h p2 p1 n2.next with
        | none => simp [hm] at hr
        | some h1 =>
          rw [merge_loop_mono _ _ _ _ _ _ hm _ hle]
          simpa [hm] using hr
      · simp only [hgt, if_false] at hr ⊢
        cases hm : merge_loop fuel h p1 p2 n1.next with
        | none => simp [hm] at hr
        | some h1 =>
          rw [merge_loop_mono _ _ _ _ _ _ hm _ hle]
          simpa [hm] using hr

theorem q_sort_mergesort_mono : ∀ (fuel : Nat) (h : Heap) (p1 : Option Nat)
    (r : Heap × Option Nat), q_sort_mergesort fuel h p1 = some r →
    ∀ fuel', fuel ≤ fuel' → q_sort_mergesort fuel' h p1 = some r := by
  intro fuel
  induction fuel with
  | zero => intro h p1 r hr; simp [q_sort_mergesort] at hr
  | succ fuel ih =>
    intro h p1 r hr fuel' hle
    cases fuel' with
    | zero => omega
    | succ fuel' =>
      have hle' : fuel ≤ fuel' := by omega
      simp only [q_sort_mergesort] at hr ⊢
      cases h1 : load h p1 with
      | none => simp [h1] at hr
      | some n1 =>
        simp only [h1] at hr ⊢
        cases hx : n1.next with
        | none => simpa [hx] using hr
        | some a2 =>
          simp only [hx] at hr ⊢
          cases hsp : split_loop fuel h p1 (some a2) with
          | none => simp [hsp] at hr
          | some stp1 =>
            rw [split_loop_mono h _ _ _ _ hsp _ hle']
            simp only [hsp] at hr ⊢
            cases hl : load h stp1 with
            | none => simp [hl] at hr
            | some ns =>
              simp only [hl] at hr ⊢
              cases hst : store_next h stp1 none with
              | none => simp [hst] at hr
              | some h1 =>
                simp only [hst] at hr ⊢
                cases hs1 : q_sort_mergesort fuel h1 p1 with
                | none => simp [hs1] at hr
                | some r1 =>
                  rw [ih _ _ _ hs1 _ hle']
                  simp only [hs1] at hr ⊢
                  cases hs2 : q_sort_mergesort fuel r1.1 ns.next with
                  | none => simp [hs2] at hr
                  | some r2 =>
                    rw [ih _ _ _ hs2 _ hle']
                    simp only [hs2] at hr ⊢
                    exact merge_halves_mono hr hle'

theorem tail_loop_mono (h : Heap) : ∀ (fuel : Nat) (t : Option Nat) (r : Option Nat),
    tail_loop fuel h t = some r → ∀ fuel', fuel ≤ fuel' → tail_loop fuel' h t = some r := by
  intro fuel
  induction fuel with
  | zero => intro t r hr; simp [tail_loop] at hr
  | succ fuel ih =>
    intro t r hr fuel' hle
    cases fuel' with
    | zero => omega
    | succ fuel' =>
      simp only [tail_loop] at hr ⊢
      cases h1 : load h t with
      | none => simp [h1] at hr
      | some n =>
        simp only [h1] at hr ⊢
        cases hx : n.next with
        | none => simpa [hx] using hr
        | some b =>
          simp only [hx] at hr ⊢
          exact ih _ _ hr _ (by omega)

theorem reverse_loop_mono : ∀ (fuel : Nat) (h : Heap) (hd cur : Option Nat)
    (r : Heap × Option Nat), reverse_loop fuel h hd cur = some r →
    ∀ fuel', fuel ≤ fuel' → reverse_loop fuel' h hd cur = some r := by
  intro fuel
  induction fuel with
  | zero => intro h hd cur r hr; simp [reverse_loop] at hr
  | succ fuel ih =>
    intro h hd cur r hr fuel' hle
    cases fuel' with
    | zero => omega
    | succ fuel' =>
      simp only [reverse_loop] at hr ⊢
      cases cur with
      | none => exact hr
      | some c =>
        simp only at hr ⊢
        cases hc : h c with
        | none => simp [hc] at hr
        | some n =>
          simp only [hc] at hr ⊢
          cases hs : store_next h (some c) hd with
          | none => simp [hs] at hr
          | some h1 =>
            simp only [hs] at hr ⊢
            exact ih _ _ _ _ hr _ (by omega)

theorem q_sort_mono {fuel : Nat} {h : Heap} {q : Option queue_t} {r : Heap × Option queue_t}
    (hr : q_sort fuel h q = some r) {fuel' : Nat} (hle : fuel ≤ fuel') :
    q_sort fuel' h q = some r := by
  unfold q_sort at hr ⊢
  by_cases hs : q_size q ≤ 1
  · simpa [hs] using hr
  · simp only [hs, if_false] at hr ⊢
    cases q with
    | none => simp at hr
    | some q =>
      simp only at hr ⊢
      cases hm : q_sort_mergesort fuel h q.head with
      | none => simp [hm] at hr
      | some r1 =>
        rw [q_sort_mergesort_mono _ _ _ _ hm _ hle]
        simp only [hm] at hr ⊢
        cases ht : tail_loop fuel r1.1 q.tail with
        | none => simp [ht] at hr
        | some tl =>
          rw [tail_loop_mono _ _ _ _ ht _ hle]
          simpa [ht] using hr

theorem q_reverse_mono {fuel : Nat} {h : Heap} {q : Option queue_t} {r : Heap × Option queue_t}
    (hr : q_reverse fuel h q = some r) {fuel' : Nat} (hle : fuel ≤ fuel') :
    q_reverse fuel' h q = some r := by
  unfold q_reverse at hr ⊢
  cases q with
  | none => exact hr
  | some q =>
    simp only at hr ⊢
    cases hh : q.head with
    | none => simpa [hh] using hr
    | some a =>
      simp only [hh] at hr ⊢
      cases ha : h a with
      | none => simp [ha] at hr
      | some n =>
        simp only [ha] at hr ⊢
        cases hl : reverse_loop fuel h (some a) n.next with
        | none => simp [hl] at hr
        | some r1 =>
          rw [reverse_loop_mono _ _ _ _ _ hl _ hle]
          simpa [hl] using hr

/-! ## `strcmp` is the byte-wise order -/

theorem strlen_cons_zero (as : List Nat) : strlen (0 :: as) = 0 := by
  simp [strlen]

theorem strlen_cons_ne {a : Nat} (ha : a ≠ 0) (as : List Nat) :
    strlen (a :: as) = strlen as + 1 := by
  simp [strlen, ha]

theorem bytewiseLe_cons {a : Nat} (ha : a ≠ 0) (as bs : List Nat) :
    bytewiseLe (a :: as) (a :: bs) ↔ bytewiseLe as bs := by
  unfold bytewiseLe
  rw [strlen_cons_ne ha]
  constructor
  · rintro (h1 | ⟨i, hi, h2, h3⟩)
    · left
      intro j hj
      have := h1 (j + 1) (by omega)
      simpa [byteAt_cons_succ] using this
    · right
      cases i with
      | zero => simp [byteAt_cons_zero] at h3
      | succ i =>
        refine ⟨i, by omega, ?_, by simpa [byteAt_cons_succ] using h3⟩
        intro j hj
        have := h2 (j + 1) (by omega)
        simpa [byteAt_cons_succ] using this
  · rintro (h1 | ⟨i, hi, h2, h3⟩)
    · left
      intro j hj
      cases j with
      | zero => simp [byteAt_cons_zero]
      | succ j =>
        rw [byteAt_cons_succ, byteAt_cons_succ]
        exact h1 j (by omega)
    · right
      refine ⟨i + 1, by omega, ?_, by simpa [byteAt_cons_succ] using h3⟩
      intro j hj
      cases j with
      | zero => simp [byteAt_cons_zero]
      | succ j =>
        rw [byteAt_cons_succ, byteAt_cons_succ]
        exact h2 j (by omega)

theorem sle_iff_bytewiseLe (v w : List Nat) : sle v w ↔ bytewiseLe v w := by
  induction v generalizing w with
  | nil =>
    cases w with
    | nil =>
      refine iff_of_true (by simp [sle, strcmp]) (Or.inl fun j _ => rfl)
    | cons b bs =>
      refine iff_of_true (by simp only [sle, strcmp]; omega) ?_
      by_cases hb : b = 0
      · left
        intro j hj
        have hj0 : j = 0 := by simpa [strlen] using hj
        subst hj0 hb
        simp [byteAt]
      · right
        refine ⟨0, by simp, fun j hj => absurd hj (Nat.not_lt_zero _), ?_⟩
        simp only [byteAt_nil, byteAt_cons_zero]
        omega
  | cons a as ih =>
    cases w with
    | nil =>
      by_cases ha : a = 0
      · subst ha
        refine iff_of_true (by simp [sle, strcmp]) (Or.inl ?_)
        intro j hj
        have hj0 : j = 0 := by simpa [strlen] using hj
        subst hj0
        simp [byteAt]
      · refine iff_of_false (by simp only [sle, strcmp]; omega) ?_
        rintro (h1 | ⟨i, -, -, h3⟩)
        · have := h1 0 (Nat.zero_le _)
          simp [byteAt] at this
          exact ha this
        · simp [byteAt_nil] at h3
    | cons b bs =>
      by_cases hab : a = b
      · subst hab
        by_cases ha : a = 0
        · subst ha
          refine iff_of_true (by simp [sle, strcmp]) (Or.inl ?_)
          intro j hj
          have hj0 : j = 0 := by simpa [strlen] using hj
          subst hj0
          simp [byteAt]
        · rw [bytewiseLe_cons ha, ← ih bs]
          simp [sle, strcmp, ha]
      · have hs : sle (a :: as) (b :: bs) ↔ a < b := by
          simp only [sle, strcmp, ne_eq, hab, not_false_eq_true, if_true]
          omega
        rw [hs]
        constructor
        · intro hlt
          right
          exact ⟨0, Nat.zero_le _, fun j hj => absurd hj (Nat.not_lt_zero _),
            by simpa [byteAt_cons_zero] using hlt⟩
        · rintro (h1 | ⟨i, -, h2, h3⟩)
          · have := h1 0 (Nat.zero_le _)
            simp only [byteAt_cons_zero] at this
            exact absurd this hab
          · cases i with
            | zero => simpa [byteAt_cons_zero] using h3
            | succ i =>
              have := h2 0 (Nat.succ_pos _)
              simp only [byteAt_cons_zero] at this
              exact absurd this hab

/-! ## The sort: order, permutation, ties -/

/-- C1: on a container satisfying the invariants, `q_sort` returns (for any
fuel above the number of nodes); the chain read from the new head has the same
length as before and its strings are in non-decreasing order: each string
compares `<= 0` by `strcmp` with every later one, that is, precedes it in the
byte-wise order (the first differing byte decides, a proper prefix is less). -/
theorem q_sort_sorted (h : Heap) (q : queue_t) (l : List Nat) (fuel : Nat)
    (hinv : inv h q l) (hf : l.length < fuel) :
    ∃ h' q' l', q_sort fuel h (some q) = some (h', some q') ∧
      chain h' l' ∧ q'.head = l'.head? ∧ l'.length = l.length ∧
      (l'.map (valOf h')).Pairwise sle ∧ (l'.map (valOf h')).Pairwise bytewiseLe := by
  obtain ⟨h', hrun, hch, -, hv⟩ := q_sort_spec fuel h q l hinv hf
  have hs : ((msortL (valOf h) fuel l).map (valOf h')).Pairwise sle := by
    rw [valOf_eq_of_sameVals hv, List.pairwise_map]
    exact msortL_sorted (valOf h) fuel l (by omega)
  exact ⟨h', _, msortL (valOf h) fuel l, hrun, hch, rfl,
    (msortL_perm (valOf h) fuel l).length_eq, hs,
    hs.imp (fun {v w} hvw => (sle_iff_bytewiseLe v w).1 hvw)⟩

theorem q_sort_sorted_witness :
    inv exHeap exQ [1, 2, 3, 4] ∧ [1, 2, 3, 4].length < 5 ∧
    ∃ h' q' l', q_sort 5 exHeap (some exQ) = some (h', some q') ∧
      chain h' l' ∧ q'.head = l'.head? ∧ l'.length = [1, 2, 3, 4].length ∧
      (l'.map (valOf h')).Pairwise sle ∧ (l'.map (valOf h')).Pairwise bytewiseLe :=
  ⟨by decide, by decide, q_sort_sorted exHeap exQ [1, 2, 3, 4] 5 (by decide) (by decide)⟩

/-- C2: on a container satisfying the invariants, `q_sort` only relinks: the
new chain is a permutation of the old one without repetition, every address
holds the same string as before (none created or released), the elements
outside the chain are untouched and `size` is unchanged. -/
theorem q_sort_perm (h : Heap) (q : queue_t) (l : List Nat) (fuel : Nat)
    (hinv : inv h q l) (hf : l.length < fuel) :
    ∃ h' q' l', q_sort fuel h (some q) = some (h', some q') ∧
      inv h' q' l' ∧ l'.Perm l ∧ l'.Nodup ∧ q'.size = q.size ∧
      (∀ b, (h' b).map list_ele_t.value = (h b).map list_ele_t.value) ∧
      (∀ b, b ∉ l → h' b = h b) := by
  obtain ⟨h', hrun, hch, hout, hv⟩ := q_sort_spec fuel h q l hinv hf
  have hp := msortL_perm (valOf h) fuel l
  have hnd : (msortL (valOf h) fuel l).Nodup := hp.nodup_iff.2 hinv.2.1
  refine ⟨h', _, msortL (valOf h) fuel l, hrun, ⟨hch, hnd, rfl, rfl, ?_⟩, hp, hnd, rfl, hv, hout⟩
  show q.size = _
  rw [hinv.2.2.2.2, hp.length_eq]

theorem q_sort_perm_witness :
    inv exHeap exQ [1, 2, 3, 4] ∧ [1, 2, 3, 4].length < 5 ∧
    ∃ h' q' l', q_sort 5 exHeap (some exQ) = some (h', some q') ∧
      inv h' q' l' ∧ l'.Perm [1, 2, 3, 4] ∧ l'.Nodup ∧ q'.size = exQ.size ∧
      (∀ b, (h' b).map list_ele_t.value = (exHeap b).map list_ele_t.value) ∧
      (∀ b, b ∉ [1, 2, 3, 4] → h' b = exHeap b) :=
  ⟨by decide, by decide, q_sort_perm exHeap exQ [1, 2, 3, 4] 5 (by decide) (by decide)⟩

/-- C3, counterexample: on the chain "b", "c", "a", "b" at addresses 1 to 4 the
two elements holding "b" compare equal, element 1 precedes element 4 before
`q_sort`, and after it the chain is `[3, 4, 1, 2]`: element 4 precedes element 1. -/
theorem q_sort_not_stable :
    inv exHeap exQ [1, 2, 3, 4] ∧ strcmp (valOf exHeap 1) (valOf exHeap 4) = 0 ∧
    (q_sort 5 exHeap (some exQ)).map
        (fun r => readChain 5 r.1 (r.2.bind queue_t.head)) = some [3, 4, 1, 2] := by
  refine ⟨by decide, by decide, ?_⟩
  decide

theorem mergeL_sublist (val : Nat → List Nat) : ∀ (n : Nat) (l2 l3 : List Nat),
    l2.length + l3.length ≤ n →
    l2.Sublist (mergeL val l2 l3) ∧ l3.Sublist (mergeL val l2 l3) := by
  intro n
  induction n with
  | zero =>
    intro l2 l3 hn
    have h2 : l2 = [] := List.length_eq_zero.1 (by omega)
    have h3 : l3 = [] := List.length_eq_zero.1 (by omega)
    subst h2 h3
    simp [mergeL]
  | succ n ih =>
    intro l2 l3 hn
    cases l2 with
    | nil => rw [mergeL]; exact ⟨List.nil_sublist _, List.Sublist.refl _⟩
    | cons a2 t2 =>
      cases l3 with
      | nil => rw [mergeL]; exact ⟨List.Sublist.refl _, List.nil_sublist _⟩
      | cons a3 t3 =>
        rw [mergeL]
        simp only [List.length_cons] at hn
        split_ifs
        · have hi := ih t2 (a3 :: t3) (by simp only [List.length_cons]; omega)
          exact ⟨hi.1.cons₂ a2, hi.2.cons a2⟩
        · have hi := ih (a2 :: t2) t3 (by simp only [List.length_cons]; omega)
          exact ⟨hi.1.cons a3, hi.2.cons₂ a3⟩

theorem mergeL_tie (val : Nat → List Nat) : ∀ (n : Nat) (l2 l3 : List Nat),
    l2.length + l3.length ≤ n → l3.Pairwise (nle val) →
    ∀ x y, x ∈ l3 → y ∈ l2 → strcmp (val x) (val y) = 0 →
    [x, y].Sublist (mergeL val l2 l3) := by
  intro n
  induction n with
  | zero =>
    intro l2 l3 hn _ x y hx _ _
    have h3 : l3 = [] := List.length_eq_zero.1 (by omega)
    subst h3
    cases hx
  | succ n ih =>
    intro l2 l3 hn hs3 x y hx hy hxy
    cases l2 with
    | nil => cases hy
    | cons a2 t2 =>
      cases l3 with
      | nil => cases hx
      | cons a3 t3 =>
        rw [mergeL]
        simp only [List.length_cons] at hn
        have hp3 := List.pairwise_cons.1 hs3
        split_ifs with hlt
        · rcases List.mem_cons.1 hy with rfl | hy2
          · exfalso
            have h3x : nle val a3 x := by
              rcases List.mem_cons.1 hx with rfl | hx2
              · unfold nle sle; rw [strcmp_self]
              · exact hp3.1 x hx2
            have hxy2 : nle val x y := by unfold nle sle; omega
            have h3y : strcmp (val a3) (val y) ≤ 0 := nle_trans h3x hxy2
            have := strcmp_swap (val a3) (val y)
            omega
          · exact (ih t2 (a3 :: t3) (by simp only [List.length_cons]; omega) hs3 x y hx hy2
              hxy).cons a2
        · rcases List.mem_cons.1 hx with rfl | hx2
          · refine List.Sublist.cons₂ x ?_
            rw [List.singleton_sublist]
            exact (mergeL_perm val _ (a2 :: t2) t3 (le_refl _)).mem_iff.2
              (List.mem_append_left _ hy)
          · exact (ih (a2 :: t2) t3 (by simp only [List.length_cons]; omega) hp3.2 x y hx2 hy
              hxy).cons a3

/-- C3, amended: the merge part of `q_sort_mergesort`, run on two sorted
halves, returns a chain in which the elements of each half keep their order;
of two elements with equal strings, `x` of the left half and `y` of the right
half, `x` comes first when the head of the left half does not compare greater
than the head of the right half, and `y` comes first when it does (the halves
are then swapped before the loop). -/
theorem merge_halves_ties (fuel : Nat) (h : Heap) (l1 l2 : List Nat) (a b : Nat)
    (hh1 : l1.head? = some a) (hh2 : l2.head? = some b)
    (hnd : (l1 ++ l2).Nodup) (hc1 : chain h l1) (hc2 : chain h l2)
    (hs1 : l1.Pairwise (nle (valOf h))) (hs2 : l2.Pairwise (nle (valOf h)))
    (hf : l1.length + l2.length ≤ fuel) :
    ∃ h' l', merge_halves fuel h l1.head? l2.head? = some (h', l'.head?) ∧ chain h' l' ∧
      l1.Sublist l' ∧ l2.Sublist l' ∧
      ∀ x y, x ∈ l1 → y ∈ l2 → strcmp (valOf h x) (valOf h y) = 0 →
        (¬ strcmp (valOf h a) (valOf h b) > 0 → [x, y].Sublist l') ∧
        (strcmp (valOf h a) (valOf h b) > 0 → [y, x].Sublist l') := by
  have hne1 : l1 ≠ [] := by rintro rfl; cases hh1
  have hne2 : l2 ≠ [] := by rintro rfl; cases hh2
  obtain ⟨h', hrun, hch, -, -⟩ := merge_halves_spec fuel h l1 l2 hne1 hne2 hnd hc1 hc2 hf
  refine ⟨h', mergeHeads (valOf h) l1 l2, hrun, hch, ?_⟩
  cases l1 with
  | nil => exact absurd rfl hne1
  | cons a1 t1 =>
    cases l2 with
    | nil => exact absurd rfl hne2
    | cons b1 t2 =>
      have ea : a1 = a := by simpa using hh1
      have eb : b1 = b := by simpa using hh2
      subst ea eb
      have hp1 := List.pairwise_cons.1 hs1
      have hp2 := List.pairwise_cons.1 hs2
      by_cases hgt : strcmp (valOf h a1) (valOf h b1) > 0
      · have hm : mergeHeads (valOf h) (a1 :: t1) (b1 :: t2)
            = b1 :: mergeL (valOf h) (a1 :: t1) t2 := by
          simp [mergeHeads, hgt]
        have hsub := mergeL_sublist (valOf h) _ (a1 :: t1) t2 (le_refl _)
        rw [hm]
        refine ⟨hsub.1.cons b1, hsub.2.cons₂ b1, ?_⟩
        intro x y hx hy hxy
        refine ⟨fun hn => absurd hgt hn, fun _ => ?_⟩
        have hyx : strcmp (valOf h y) (valOf h x) = 0 := by
          have := strcmp_swap (valOf h x) (valOf h y); omega
        rcases List.mem_cons.1 hy with rfl | hy2
        · refine List.Sublist.cons₂ y ?_
          rw [List.singleton_sublist]
          exact hsub.1.subset hx
        · exact (mergeL_tie (valOf h) _ (a1 :: t1) t2 (le_refl _) hp2.2 y x hy2 hx hyx).cons b1
      · have hm : mergeHeads (valOf h) (a1 :: t1) (b1 :: t2)
            = a1 :: mergeL (valOf h) (b1 :: t2) t1 := by
          simp [mergeHeads, hgt]
        have hsub := mergeL_sublist (valOf h) _ (b1 :: t2) t1 (le_refl _)
        rw [hm]
        refine ⟨hsub.2.cons₂ a1, hsub.1.cons a1, ?_⟩
        intro x y hx hy hxy
        refine ⟨fun _ => ?_, fun hg => absurd hg hgt⟩
        rcases List.mem_cons.1 hx with rfl | hx2
        · refine List.Sublist.cons₂ x ?_
          rw [List.singleton_sublist]
          exact hsub.1.subset hy
        · exact (mergeL_tie (valOf h) _ (b1 :: t2) t1 (le_refl _) hp1.2 x y hx2 hy hxy).cons a1

theorem merge_halves_ties_witness :
    ([1, 2] ++ [3, 4]).Nodup ∧ chain exHalves [1, 2] ∧ chain exHalves [3, 4] ∧
    [1, 2].Pairwise (nle (valOf exHalves)) ∧ [3, 4].Pairwise (nle (valOf exHalves)) ∧
    ∃ h' l', merge_halves 4 exHalves [1, 2].head? [3, 4].head? = some (h', l'.head?) ∧
      chain h' l' ∧ [1, 2].Sublist l' ∧ [3, 4].Sublist l' ∧
      ∀ x y, x ∈ [1, 2] → y ∈ [3, 4] → strcmp (valOf exHalves x) (valOf exHalves y) = 0 →
        (¬ strcmp (valOf exHalves 1) (valOf exHalves 3) > 0 → [x, y].Sublist l') ∧
        (strcmp (valOf exHalves 1) (valOf exHalves 3) > 0 → [y, x].Sublist l') :=
  ⟨by decide, by decide, by decide, by decide, by decide,
    merge_halves_ties 4 exHalves [1, 2] [3, 4] 1 3 rfl rfl (by decide) (by decide) (by decide)
      (by decide) (by decide) (by decide)⟩

/-! ## The container invariants -/

theorem follow_chain (h : Heap) : ∀ (k : Nat) (l : List Nat), chain h l → k < l.length →
    follow h k l.head? = (l.drop k).head? := by
  intro k
  induction k with
  | zero => intro l _ _; rfl
  | succ k ih =>
    intro l hc hk
    cases l with
    | nil => simp at hk
    | cons a t =>
      obtain ⟨n, hn, hnx⟩ := seg_head hc
      simp only [List.length_cons] at hk
      simp only [follow, load, List.head?_cons, hn, hnx, headOr_none, List.drop_succ_cons]
      exact ih t hc.2 (by omega)

theorem chain_last_next {h : Heap} {l : List Nat} (hc : chain h l) {t : Nat}
    (ht : l.getLast? = some t) : (h t).map list_ele_t.next = some none := by
  have hdl : l.dropLast ++ [t] = l := List.dropLast_append_getLast? t ht
  rw [← hdl] at hc
  exact ((seg_append (p := none)).1 hc).2.1

theorem inv_facts {h : Heap} {q : queue_t} {l : List Nat} (hinv : inv h q l) :
    (q.size = 0 ↔ q.head = none) ∧ (q.head = none ↔ q.tail = none) ∧
    (q.size = 1 ↔ (q.head = q.tail ∧ q.head ≠ none)) ∧
    (∀ t, q.tail = some t →
      follow h (q.size.toNat - 1) q.head = some t ∧
      (h t).map list_ele_t.next = some none) := by
  obtain ⟨hc, hnd, hhd, htl, hsz⟩ := hinv
  refine ⟨?_, ?_, ?_, ?_⟩
  · rw [hsz, hhd]
    cases l <;> simp
    omega
  · rw [hhd, htl]
    cases l <;> simp
  · rw [hsz, hhd, htl]
    cases l with
    | nil => simp
    | cons a t =>
      cases t with
      | nil => simp
      | cons b t2 =>
        have hne : (a :: b :: t2).getLast? ≠ some a := by
          intro he
          have hm : a ∈ b :: t2 := by
            rw [List.getLast?_cons_cons] at he
            exact List.mem_of_getLast?_eq_some he
          exact (List.nodup_cons.1 hnd).1 hm
        constructor
        · intro h1; simp only [List.length_cons] at h1; omega
        · rintro ⟨h1, -⟩
          exact absurd h1.symm hne
  · intro t ht
    rw [htl] at ht
    refine ⟨?_, chain_last_next hc ht⟩
    have hne : l ≠ [] := by rintro rfl; cases ht
    have hlen : 0 < l.length := List.length_pos.2 hne
    rw [hsz, hhd, Int.toNat_ofNat, follow_chain h _ l hc (by omega), ← ht,
      List.head?_drop, List.getLast?_eq_getElem?]

theorem inv_alloc_fail {h : Heap} {q : queue_t} {l : List Nat} (hinv : inv h q l) {a : Nat}
    (hfresh : h a = none) (n : list_ele_t) :
    inv (free (fun b => if b = a then some n else h b) a) q l := by
  obtain ⟨hc, hrest⟩ := hinv
  refine ⟨seg_congr (fun b hb => ?_) hc, hrest⟩
  have hba : b ≠ a := fun e => not_mem_of_fresh hc hfresh (e ▸ hb)
  simp [free, hba]

theorem reach_inv {h : Heap} {q : queue_t} (hr : Reach h q) :
    ∃ l, inv h q l ∧ l.length ≤ INT_MAX := by
  induction hr with
  | new h q hq =>
    refine ⟨[], ?_, Nat.zero_le _⟩
    simp only [q_new, if_true, Option.some.injEq] at hq
    subst hq
    exact ⟨trivial, List.nodup_nil, rfl, rfl, rfl⟩
  | @insert_head h q s newh valueOk h' q' r _ hfresh hsz hrun ih =>
    obtain ⟨l, hinv, hlen⟩ := ih
    cases newh with
    | none =>
      simp only [q_insert_head, Option.some.injEq, Prod.mk.injEq] at hrun
      obtain ⟨rfl, rfl, -⟩ := hrun
      exact ⟨l, hinv, hlen⟩
    | some a =>
      cases valueOk with
      | false =>
        simp only [q_insert_head, if_true, Option.some.injEq, Prod.mk.injEq] at hrun
        obtain ⟨rfl, rfl, -⟩ := hrun
        exact ⟨l, inv_alloc_fail hinv (hfresh a rfl) _, hlen⟩
      | true =>
        have hs : q.size = (l.length : Int) := hinv.2.2.2.2
        obtain ⟨q2, hrun2, hinv2, -⟩ := q_insert_head_spec h q l s a hinv (hfresh a rfl)
        rw [hrun2] at hrun
        simp only [Option.some.injEq, Prod.mk.injEq] at hrun
        obtain ⟨rfl, rfl, -⟩ := hrun
        refine ⟨a :: l, hinv2, ?_⟩
        simp only [List.length_cons]
        omega
  | @insert_tail h q s newt valueOk h' q' r _ hfresh hsz hrun ih =>
    obtain ⟨l, hinv, hlen⟩ := ih
    cases newt with
    | none =>
      simp only [q_insert_tail, Option.some.injEq, Prod.mk.injEq] at hrun
      obtain ⟨rfl, rfl, -⟩ := hrun
      exact ⟨l, hinv, hlen⟩
    | some a =>
      cases valueOk with
      | false =>
        simp only [q_insert_tail, if_true, Option.some.injEq, Prod.mk.injEq] at hrun
        obtain ⟨rfl, rfl, -⟩ := hrun
        exact ⟨l, inv_alloc_fail hinv (hfresh a rfl) _, hlen⟩
      | true =>
        have hs : q.size = (l.length : Int) := hinv.2.2.2.2
        obtain ⟨h2, q2, hrun2, hinv2, -⟩ := q_insert_tail_spec h q l s a hinv (hfresh a rfl)
        rw [hrun2] at hrun
        simp only [Option.some.injEq, Prod.mk.injEq] at hrun
        obtain ⟨rfl, rfl, -⟩ := hrun
        refine ⟨l ++ [a], hinv2, ?_⟩
        simp only [List.length_append, List.length_singleton]
        omega
  | @remove_head h q sp bufsize h' q' sp' r _ hbuf hrun ih =>
    obtain ⟨l, hinv, hlen⟩ := ih
    cases l with
    | nil =>
      have hh : q.head = none := hinv.2.2.1
      simp only [q_remove_head, hh, Option.some.injEq, Prod.mk.injEq] at hrun
      obtain ⟨rfl, rfl, -⟩ := hrun
      exact ⟨[], hinv, hlen⟩
    | cons a t =>
      obtain ⟨q2, hrun2, hinv2, -⟩ := q_remove_head_spec h q a t sp bufsize hinv
      rw [hrun2] at hrun
      simp only [Option.some.injEq, Prod.mk.injEq] at hrun
      obtain ⟨rfl, rfl, -⟩ := hrun
      refine ⟨t, hinv2, ?_⟩
      simp only [List.length_cons] at hlen
      omega
  | @reverse h q fuel h' q' _ hrun ih =>
    obtain ⟨l, hinv, hlen⟩ := ih
    obtain ⟨h2, hrun2, hch, -, -, -⟩ :=
      q_reverse_spec (max fuel l.length) h q l hinv (le_max_right _ _)
    rw [q_reverse_mono hrun (le_max_left _ _)] at hrun2
    simp only [Option.some.injEq, Prod.mk.injEq] at hrun2
    obtain ⟨rfl, rfl⟩ := hrun2
    refine ⟨l.reverse, ⟨hch, List.nodup_reverse.2 hinv.2.1, rfl, ?_, ?_⟩, ?_⟩
    · simp [List.getLast?_reverse]
    · show q.size = _
      rw [hinv.2.2.2.2]; simp
    · rw [List.length_reverse]; exact hlen
  | @sort h q fuel h' q' _ hrun ih =>
    obtain ⟨l, hinv, hlen⟩ := ih
    obtain ⟨h2, hrun2, hch, -, -⟩ :=
      q_sort_spec (max fuel (l.length + 1)) h q l hinv
        (lt_of_lt_of_le (Nat.lt_succ_self _) (le_max_right _ _))
    rw [q_sort_mono hrun (le_max_left _ _)] at hrun2
    simp only [Option.some.injEq, Prod.mk.injEq] at hrun2
    obtain ⟨rfl, rfl⟩ := hrun2
    have hp := msortL_perm (valOf h) (max fuel (l.length + 1)) l
    refine ⟨_, ⟨hch, hp.nodup_iff.2 hinv.2.1, rfl, rfl, ?_⟩, ?_⟩
    · show q.size = _
      rw [hinv.2.2.2.2, hp.length_eq]
    · rw [hp.length_eq]; exact hlen

/-- C4: every state reachable from the empty container of `q_new` by
`q_insert_head`, `q_insert_tail`, `q_remove_head`, `q_reverse` and `q_sort`
(insertions on fewer than `INT_MAX` nodes, removals with no buffer or a
capacity of at least one byte) satisfies the container invariants: the chain
from `head` ends in `NULL` without repetition and has `size` nodes, `tail` is
its last node; `size` is an `int` between 0 and `INT_MAX`; `size = 0` iff
`head` is `NULL` iff `tail` is `NULL`; `size = 1` iff `head` and `tail` are
the same node; `tail` is reached from `head` in exactly `size - 1` steps and
its successor is `NULL`. -/
theorem reach_invariants (h : Heap) (q : queue_t) (hr : Reach h q) :
    ∃ l, inv h q l ∧ 0 ≤ q.size ∧ q.size ≤ (INT_MAX : Int) ∧
      (q.size = 0 ↔ q.head = none) ∧ (q.head = none ↔ q.tail = none) ∧
      (q.size = 1 ↔ (q.head = q.tail ∧ q.head ≠ none)) ∧
      (∀ t, q.tail = some t →
        follow h (q.size.toNat - 1) q.head = some t ∧
        (h t).map list_ele_t.next = some none) := by
  obtain ⟨l, hinv, hlen⟩ := reach_inv hr
  have hs : q.size = (l.length : Int) := hinv.2.2.2.2
  exact ⟨l, hinv, by omega, by omega, inv_facts hinv⟩

/-! ## The output buffer of `q_remove_head` -/

theorem byteAt_bufBytes (buf : Buf) {c i : Nat} (hi : i < c) :
    byteAt (bufBytes buf c) i = buf i := by
  simp [bufBytes, byteAt, List.getD_eq_getElem?_getD, List.getElem?_map, List.getElem?_range hi]

theorem last_index_eq {c : Nat} (hc1 : 1 ≤ c) (hc2 : c < SIZE_MOD) :
    (c + SIZE_MOD - 1) % SIZE_MOD = c - 1 := by
  unfold SIZE_MOD at *
  omega

theorem q_remove_head_buffer_spec (h : Heap) (q : queue_t) (a : Nat) (l : List Nat) (buf : Buf)
    (c : Nat) (hinv : inv h q (a :: l)) (hc1 : 1 ≤ c) (hc2 : c < SIZE_MOD) :
    ∃ h' q' buf', q_remove_head h (some q) (some buf) c = some (h', some q', some buf', true) ∧
      (∀ i, i < min (strlen (valOf h a)) (c - 1) → buf' i = byteAt (valOf h a) i) ∧
      buf' (min (strlen (valOf h a)) (c - 1)) = 0 ∧ buf' (c - 1) = 0 ∧
      strlen (bufBytes buf' c) = min (strlen (valOf h a)) (c - 1) := by
  obtain ⟨q', hrun, -, -⟩ := q_remove_head_spec h q a l (some buf) c hinv
  rw [last_index_eq hc1 hc2] at hrun
  refine ⟨_, q', poke (memcpy buf (valOf h a)
    (if strlen (valOf h a) + 1 ≤ c then strlen (valOf h a) + 1 else c)) (c - 1) 0, hrun, ?_⟩
  have hbody : ∀ i, i < min (strlen (valOf h a)) (c - 1) →
      poke (memcpy buf (valOf h a)
        (if strlen (valOf h a) + 1 ≤ c then strlen (valOf h a) + 1 else c)) (c - 1) 0 i
        = byteAt (valOf h a) i := by
    intro i hi
    have h1 : i ≠ c - 1 := by omega
    have h2 : i < (if strlen (valOf h a) + 1 ≤ c then strlen (valOf h a) + 1 else c) := by
      split_ifs <;> omega
    simp [poke, memcpy, h1, h2]
  have hterm : poke (memcpy buf (valOf h a)
        (if strlen (valOf h a) + 1 ≤ c then strlen (valOf h a) + 1 else c)) (c - 1) 0
        (min (strlen (valOf h a)) (c - 1)) = 0 := by
    by_cases hm : min (strlen (valOf h a)) (c - 1) = c - 1
    · simp [poke, hm]
    · have hn : min (strlen (valOf h a)) (c - 1) = strlen (valOf h a) := by omega
      have hle : strlen (valOf h a) + 1 ≤ c := by omega
      rw [hn] at hm ⊢
      simp [poke, memcpy, hm, hle, byteAt_strlen]
  refine ⟨hbody, hterm, by simp [poke], ?_⟩
  apply strlen_unique
  · intro i hi
    rw [byteAt_bufBytes _ (by omega), hbody i hi]
    exact byteAt_ne_zero _ i (by omega)
  · rw [byteAt_bufBytes _ (by omega)]
    exact hterm

/-- C5: removing the head of a non-empty container into a buffer of capacity
`c` with `1 <= c` (a `size_t`), where the head string has length `n`: the
first `min n (c-1)` bytes of the buffer are those of the string, the bytes at
`min n (c-1)` and at `c-1` are the terminator, so the buffer read as a string
has exactly `min n (c-1)` content bytes. -/
theorem q_remove_head_buffer (h : Heap) (q : queue_t) (a : Nat) (l : List Nat) (buf : Buf)
    (c : Nat) (hinv : inv h q (a :: l)) (hc1 : 1 ≤ c) (hc2 : c < SIZE_MOD) :
    ∃ h' q' buf', q_remove_head h (some q) (some buf) c = some (h', some q', some buf', true) ∧
      (∀ i, i < min (strlen (valOf h a)) (c - 1) → buf' i = byteAt (valOf h a) i) ∧
      buf' (min (strlen (valOf h a)) (c - 1)) = 0 ∧ buf' (c - 1) = 0 ∧
      strlen (bufBytes buf' c) = min (strlen (valOf h a)) (c - 1) :=
  q_remove_head_buffer_spec h q a l buf c hinv hc1 hc2

theorem q_remove_head_buffer_witness :
    inv exHeap exQ (1 :: [2, 3, 4]) ∧ 1 ≤ 2 ∧ 2 < SIZE_MOD ∧
    ∃ h' q' buf', q_remove_head exHeap (some exQ) (some exBuf) 2
        = some (h', some q', some buf', true) ∧
      (∀ i, i < min (strlen (valOf exHeap 1)) (2 - 1) → buf' i = byteAt (valOf exHeap 1) i) ∧
      buf' (min (strlen (valOf exHeap 1)) (2 - 1)) = 0 ∧ buf' (2 - 1) = 0 ∧
      strlen (bufBytes buf' 2) = min (strlen (valOf exHeap 1)) (2 - 1) :=
  ⟨by decide, by decide, by decide,
    q_remove_head_buffer exHeap exQ 1 [2, 3, 4] exBuf 2 (by decide) (by decide) (by decide)⟩

/-- C6, at the failing input: with a provided buffer and capacity 0 the call
returns true and writes the terminator at offset `SIZE_MOD - 1` (the index
`bufsize - 1` computed in `size_t`), outside the declared capacity: the byte
there was 7 and is 0 afterwards. -/
theorem q_remove_head_zero_capacity :
    exBuf (SIZE_MOD - 1) = 7 ∧
    (q_remove_head exHeap (some exQ) (some exBuf) 0).map
      (fun r => (r.2.2.1.map (fun b => b (SIZE_MOD - 1)), r.2.2.2)) = some (some 0, true) := by
  refine ⟨rfl, ?_⟩
  decide

/-! ## Reversal, insertion, removal and the round trip -/

/-- C7: on a container satisfying the invariants with chain `l`, `q_reverse`
returns (for any fuel of at least the number of nodes) a container whose chain
is the reverse of `l`; the new head is the old tail, the new tail is the old
head and its successor is `NULL`, `size` and the strings are unchanged; a
container of at most one element is left exactly as it was. -/
theorem q_reverse_inverts (h : Heap) (q : queue_t) (l : List Nat) (fuel : Nat)
    (hinv : inv h q l) (hf : l.length ≤ fuel) :
    ∃ h' q', q_reverse fuel h (some q) = some (h', some q') ∧
      inv h' q' l.reverse ∧ q'.head = q.tail ∧ q'.tail = q.head ∧ q'.size = q.size ∧
      (∀ t, q'.tail = some t → (h' t).map list_ele_t.next = some none) ∧
      (∀ b, (h' b).map list_ele_t.value = (h b).map list_ele_t.value) ∧
      (l.length ≤ 1 → h' = h ∧ q' = q) := by
  obtain ⟨h', hrun, hch, -, hv, hsame⟩ := q_reverse_spec fuel h q l hinv hf
  have hinv' : inv h' { q with head := l.reverse.head?, tail := l.head? } l.reverse := by
    refine ⟨hch, List.nodup_reverse.2 hinv.2.1, rfl, ?_, ?_⟩
    · simp [List.getLast?_reverse]
    · show q.size = _
      rw [hinv.2.2.2.2]; simp
  refine ⟨h', _, hrun, hinv', ?_, ?_, rfl, ?_, hv, ?_⟩
  · show l.reverse.head? = q.tail
    rw [hinv.2.2.2.1, List.head?_reverse]
  · exact hinv.2.2.1.symm
  · intro t ht
    exact chain_last_next hch (hinv'.2.2.2.1 ▸ ht)
  · intro hle
    refine ⟨hsame hle, ?_⟩
    obtain ⟨-, -, hhd, htl, -⟩ := hinv
    cases q with
    | mk qh qt qs =>
      have e1 : qh = l.head? := hhd
      have e2 : qt = l.getLast? := htl
      subst e1 e2
      match l, hle with
      | [], _ => rfl
      | [a], _ => rfl

theorem q_reverse_inverts_witness :
    inv exHeap exQ [1, 2, 3, 4] ∧ [1, 2, 3, 4].length ≤ 4 ∧
    ∃ h' q', q_reverse 4 exHeap (some exQ) = some (h', some q') ∧
      inv h' q' [1, 2, 3, 4].reverse ∧ q'.head = exQ.tail ∧ q'.tail = exQ.head ∧
      q'.size = exQ.size ∧
      (∀ t, q'.tail = some t → (h' t).map list_ele_t.next = some none) ∧
      (∀ b, (h' b).map list_ele_t.value = (exHeap b).map list_ele_t.value) ∧
      ([1, 2, 3, 4].length ≤ 1 → h' = exHeap ∧ q' = exQ) :=
  ⟨by decide, by decide, q_reverse_inverts exHeap exQ [1, 2, 3, 4] 4 (by decide) (by decide)⟩

/-- C8: on a container satisfying the invariants with chain `l` of fewer than
`INT_MAX` nodes, when both allocations succeed (the new address `a` is not
live), `q_insert_head` returns true and leaves the chain `a :: l`,
`q_insert_tail` returns true and leaves the chain `l ++ [a]`; in both cases
`size` grows by exactly 1 and stays an `int`, the new element owns
`strlen s + 1` bytes equal to those of `s` (terminator included) and the
strings of the other elements are unchanged. -/
theorem q_insert_success (h : Heap) (q : queue_t) (l : List Nat) (s : List Nat) (a : Nat)
    (hinv : inv h q l) (hlen : l.length < INT_MAX) (hfresh : h a = none) :
    (∃ h' q', q_insert_head h (some q) s (some a) true = some (h', some q', true) ∧
      inv h' q' (a :: l) ∧ q'.size = q.size + 1 ∧ q'.size ≤ (INT_MAX : Int) ∧
      (valOf h' a).length = strlen s + 1 ∧
      (∀ i, i < strlen s + 1 → byteAt (valOf h' a) i = byteAt s i) ∧
      (∀ b, b ≠ a → valOf h' b = valOf h b)) ∧
    (∃ h' q', q_insert_tail h (some q) s (some a) true = some (h', some q', true) ∧
      inv h' q' (l ++ [a]) ∧ q'.size = q.size + 1 ∧ q'.size ≤ (INT_MAX : Int) ∧
      (valOf h' a).length = strlen s + 1 ∧
      (∀ i, i < strlen s + 1 → byteAt (valOf h' a) i = byteAt s i) ∧
      (∀ b, b ≠ a → valOf h' b = valOf h b)) := by
  have hs : q.size = (l.length : Int) := hinv.2.2.2.2
  constructor
  · obtain ⟨q', hrun, hinv', hsz⟩ := q_insert_head_spec h q l s a hinv hfresh
    refine ⟨_, q', hrun, hinv', hsz, by omega, ?_, ?_, ?_⟩
    · simp [valOf, alloc, length_memblock]
    · intro i hi
      have : valOf (alloc h a ⟨memblock s (strlen s + 1), l.head?⟩) a
          = memblock s (strlen s + 1) := by simp [valOf, alloc]
      rw [this, byteAt_memblock s hi]
    · intro b hb
      simp [valOf, alloc, hb]
  · obtain ⟨h', q', hrun, hinv', hsz, ha, hvals, -⟩ := q_insert_tail_spec h q l s a hinv hfresh
    have hva : valOf h' a = memblock s (strlen s + 1) := by simp [valOf, ha]
    refine ⟨h', q', hrun, hinv', hsz, by omega, ?_, ?_, ?_⟩
    · rw [hva, length_memblock]
    · intro i hi
      rw [hva, byteAt_memblock s hi]
    · intro b hb
      have := hvals b hb
      unfold valOf
      cases h1 : h b <;> cases h2 : h' b <;> simp_all

theorem q_insert_success_witness :
    inv exHeap exQ [1, 2, 3, 4] ∧ [1, 2, 3, 4].length < INT_MAX ∧ exHeap 5 = none ∧
    ((∃ h' q', q_insert_head exHeap (some exQ) [120] (some 5) true = some (h', some q', true) ∧
      inv h' q' (5 :: [1, 2, 3, 4]) ∧ q'.size = exQ.size + 1 ∧ q'.size ≤ (INT_MAX : Int) ∧
      (valOf h' 5).length = strlen [120] + 1 ∧
      (∀ i, i < strlen [120] + 1 → byteAt (valOf h' 5) i = byteAt [120] i) ∧
      (∀ b, b ≠ 5 → valOf h' b = valOf exHeap b)) ∧
    (∃ h' q', q_insert_tail exHeap (some exQ) [120] (some 5) true = some (h', some q', true) ∧
      inv h' q' ([1, 2, 3, 4] ++ [5]) ∧ q'.size = exQ.size + 1 ∧ q'.size ≤ (INT_MAX : Int) ∧
      (valOf h' 5).length = strlen [120] + 1 ∧
      (∀ i, i < strlen [120] + 1 → byteAt (valOf h' 5) i = byteAt [120] i) ∧
      (∀ b, b ≠ 5 → valOf h' b = valOf exHeap b))) :=
  ⟨by decide, by decide, by decide,
    q_insert_success exHeap exQ [1, 2, 3, 4] [120] 5 (by decide) (by decide) (by decide)⟩

/-- C9: on a non-empty container with chain `a :: l`, `q_remove_head` called
with no buffer, or with a buffer of a capacity of at least one byte, returns
true and leaves exactly the chain `l` (the head advanced to the successor, the
tail cleared when `l` is empty) with `size` decreased by 1; the removed element
is released; without a buffer nothing is delivered, with a buffer every byte
copied into it (offsets below `min (strlen v + 1) bufsize`, the last index
`bufsize - 1` apart) is the byte of the removed string `v` at that offset, the
byte at the last index is the terminator and nothing is written at or beyond
`bufsize`. -/
theorem q_remove_head_unlinks (h : Heap) (q : queue_t) (a : Nat) (l : List Nat)
    (sp : Option Buf) (bufsize : Nat) (hinv : inv h q (a :: l))
    (hbuf : sp = none ∨ (1 ≤ bufsize ∧ bufsize < SIZE_MOD)) :
    ∃ h' q' sp', q_remove_head h (some q) sp bufsize = some (h', some q', sp', true) ∧
      inv h' q' l ∧ q'.head = l.head? ∧ (l = [] → q'.tail = none) ∧ q'.size = q.size - 1 ∧
      h' a = none ∧ (∀ b, b ≠ a → h' b = h b) ∧
      (sp = none → sp' = none) ∧
      (∀ buf, sp = some buf → ∃ buf', sp' = some buf' ∧
        (∀ i, i < min (strlen (valOf h a) + 1) bufsize → i ≠ bufsize - 1 →
          buf' i = byteAt (valOf h a) i) ∧
        buf' (bufsize - 1) = 0 ∧ (∀ i, bufsize ≤ i → buf' i = buf i)) := by
  obtain ⟨q', hrun, hinv', hsz⟩ := q_remove_head_spec h q a l sp bufsize hinv
  refine ⟨_, q', _, hrun, hinv', hinv'.2.2.1, ?_, hsz, by simp [free], ?_, ?_, ?_⟩
  · intro hl
    rw [hinv'.2.2.2.1, hl]; rfl
  · intro b hb; simp [free, hb]
  · intro hs; rw [hs]; rfl
  · intro buf hs
    rw [hs]
    have hb : 1 ≤ bufsize ∧ bufsize < SIZE_MOD := by
      rcases hbuf with hn | hb
      · rw [hs] at hn; cases hn
      · exact hb
    have hidx : (bufsize + SIZE_MOD - 1) % SIZE_MOD = bufsize - 1 := last_index_eq hb.1 hb.2
    refine ⟨_, rfl, ?_, ?_, ?_⟩
    · intro i hi hne
      have h2 : i < (if strlen (valOf h a) + 1 ≤ bufsize then strlen (valOf h a) + 1
          else bufsize) := by
        split_ifs <;> omega
      simp [poke, memcpy, hidx, hne, h2]
    · simp [poke, hidx]
    · intro i hi
      have h1 : i ≠ bufsize - 1 := by omega
      have h2 : ¬ i < (if strlen (valOf h a) + 1 ≤ bufsize then strlen (valOf h a) + 1
          else bufsize) := by
        split_ifs <;> omega
      simp [poke, memcpy, hidx, h1, h2]

theorem q_remove_head_unlinks_witness :
    inv exHeap exQ (1 :: [2, 3, 4]) ∧ (some exBuf = none ∨ (1 ≤ 4 ∧ 4 < SIZE_MOD)) ∧
    ∃ h' q' sp', q_remove_head exHeap (some exQ) (some exBuf) 4
        = some (h', some q', sp', true) ∧
      inv h' q' [2, 3, 4] ∧ q'.head = [2, 3, 4].head? ∧ ([2, 3, 4] = [] → q'.tail = none) ∧
      q'.size = exQ.size - 1 ∧
      h' 1 = none ∧ (∀ b, b ≠ 1 → h' b = exHeap b) ∧
      (some exBuf = none → sp' = none) ∧
      (∀ buf, some exBuf = some buf → ∃ buf', sp' = some buf' ∧
        (∀ i, i < min (strlen (valOf exHeap 1) + 1) 4 → i ≠ 4 - 1 →
          buf' i = byteAt (valOf exHeap 1) i) ∧
        buf' (4 - 1) = 0 ∧ (∀ i, 4 ≤ i → buf' i = buf i)) :=
  ⟨by decide, Or.inr ⟨by decide, by decide⟩,
    q_remove_head_unlinks exHeap exQ 1 [2, 3, 4] (some exBuf) 4 (by decide)
      (Or.inr ⟨by decide, by decide⟩)⟩

theorem free_alloc {h : Heap} {a : Nat} (hfresh : h a = none) (n : list_ele_t) :
    free (alloc h a n) a = h := by
  funext b
  by_cases hb : b = a
  · subst hb; simp [free, hfresh]
  · simp [free, alloc, hb]

theorem inv_unique {h h' : Heap} {q q' : queue_t} {l : List Nat} (h1 : inv h q l)
    (h2 : inv h' q' l) : q' = q := by
  obtain ⟨-, -, a1, a2, a3⟩ := h1
  obtain ⟨-, -, b1, b2, b3⟩ := h2
  cases q; cases q'
  simp_all

/-- C10: round trip.  On a container satisfying the invariants, a successful
`q_insert_head` of `s` (at a new address `a`) followed by `q_remove_head` into
a buffer of capacity `c` (a `size_t`) returns true and restores the heap and
the container exactly; when `c >= strlen s + 1` the buffer receives the bytes
of `s` up to and including its terminator; when `1 <= c < strlen s + 1` it
receives the first `c - 1` bytes of `s` followed by the terminator. -/
theorem insert_remove_round_trip (h : Heap) (q : queue_t) (l : List Nat) (s : List Nat)
    (a : Nat) (buf : Buf) (c : Nat) (hinv : inv h q l) (hfresh : h a = none)
    (hc1 : 1 ≤ c) (hc2 : c < SIZE_MOD) :
    ∃ h1 q1 buf', q_insert_head h (some q) s (some a) true = some (h1, some q1, true) ∧
      q_remove_head h1 (some q1) (some buf) c = some (h, some q, some buf', true) ∧
      (strlen s + 1 ≤ c → (∀ i, i ≤ strlen s → buf' i = byteAt s i) ∧
        strlen (bufBytes buf' c) = strlen s) ∧
      (c < strlen s + 1 → (∀ i, i < c - 1 → buf' i = byteAt s i) ∧ buf' (c - 1) = 0 ∧
        strlen (bufBytes buf' c) = c - 1) := by
  obtain ⟨q1, hrun1, hinv1, -⟩ := q_insert_head_spec h q l s a hinv hfresh
  obtain ⟨h2, q2, buf', hrun2, hb1, hb2, hb3, hb4⟩ :=
    q_remove_head_buffer_spec _ q1 a l buf c hinv1 hc1 hc2
  obtain ⟨q3, hrun3, hinv3, -⟩ := q_remove_head_spec _ q1 a l (some buf) c hinv1
  rw [free_alloc hfresh] at hrun3 hinv3
  have hq3 : q3 = q := inv_unique hinv hinv3
  have hval : valOf (alloc h a ⟨memblock s (strlen s + 1), l.head?⟩) a
      = memblock s (strlen s + 1) := by simp [valOf, alloc]
  rw [hval, strlen_memblock] at hb1 hb2 hb4
  rw [hrun3] at hrun2
  simp only [Option.some.injEq, Prod.mk.injEq] at hrun2
  obtain ⟨rfl, rfl, hbuf, -⟩ := hrun2
  subst hq3
  refine ⟨_, q1, buf', hrun1, ?_, ?_, ?_⟩
  · rw [hrun3, hbuf]
  · intro hle
    have hmin : min (strlen s) (c - 1) = strlen s := by omega
    rw [hmin] at hb1 hb2 hb4
    refine ⟨?_, hb4⟩
    intro i hi
    rcases Nat.lt_or_ge i (strlen s) with hlt | hge
    · rw [hb1 i hlt, byteAt_memblock s (by omega)]
    · have : i = strlen s := by omega
      rw [this, hb2, byteAt_strlen]
  · intro hlt
    have hmin : min (strlen s) (c - 1) = c - 1 := by omega
    rw [hmin] at hb1 hb4
    refine ⟨?_, hb3, hb4⟩
    intro i hi
    rw [hb1 i hi, byteAt_memblock s (by omega)]

theorem insert_remove_round_trip_witness :
    inv exHeap exQ [1, 2, 3, 4] ∧ exHeap 5 = none ∧ 1 ≤ 2 ∧ 2 < SIZE_MOD ∧
    ∃ h1 q1 buf', q_insert_head exHeap (some exQ) [120, 121] (some 5) true
        = some (h1, some q1, true) ∧
      q_remove_head h1 (some q1) (some exBuf) 2 = some (exHeap, some exQ, some buf', true) ∧
      (strlen [120, 121] + 1 ≤ 2 → (∀ i, i ≤ strlen [120, 121] → buf' i = byteAt [120, 121] i) ∧
        strlen (bufBytes buf' 2) = strlen [120, 121]) ∧
      (2 < strlen [120, 121] + 1 → (∀ i, i < 2 - 1 → buf' i = byteAt [120, 121] i) ∧
        buf' (2 - 1) = 0 ∧ strlen (bufBytes buf' 2) = 2 - 1) :=
  ⟨by decide, by decide, by decide, by decide,
    insert_remove_round_trip exHeap exQ [1, 2, 3, 4] [120, 121] 5 exBuf 2 (by decide) (by decide)
      (by decide) (by decide)⟩

/-! ## Failure paths: exhausted memory, empty and absent containers -/

/-- C15: when the allocation of the node fails, or the node is allocated (at
an address `a` that was not live) and the allocation of the copy of the string
fails, `q_insert_head` and `q_insert_tail` return false and leave the heap and
the container exactly as they were: the chain, `head`, `tail` and `size` are
unchanged and the node allocated in between is released, not attached. -/
theorem q_insert_failure_atomic (h : Heap) (q : queue_t) (l : List Nat) (s : List Nat)
    (a : Nat) (valueOk : Bool) (hinv : inv h q l) (hfresh : h a = none) :
    q_insert_head h (some q) s none valueOk = some (h, some q, false) ∧
    q_insert_head h (some q) s (some a) false = some (h, some q, false) ∧
    q_insert_tail h (some q) s none valueOk = some (h, some q, false) ∧
    q_insert_tail h (some q) s (some a) false = some (h, some q, false) ∧
    inv h q l ∧ a ∉ l := by
  have e : free (fun b => if b = a then some ({ value := [], next := none } : list_ele_t)
      else h b) a = h := free_alloc hfresh _
  refine ⟨rfl, ?_, rfl, ?_, hinv, not_mem_of_fresh hinv.1 hfresh⟩
  · simp only [q_insert_head, if_true, e]
  · simp only [q_insert_tail, if_true, e]

theorem q_insert_failure_atomic_witness :
    inv exHeap exQ [1, 2, 3, 4] ∧ exHeap 5 = none ∧
    (q_insert_head exHeap (some exQ) [120] none true = some (exHeap, some exQ, false) ∧
    q_insert_head exHeap (some exQ) [120] (some 5) false = some (exHeap, some exQ, false) ∧
    q_insert_tail exHeap (some exQ) [120] none true = some (exHeap, some exQ, false) ∧
    q_insert_tail exHeap (some exQ) [120] (some 5) false = some (exHeap, some exQ, false) ∧
    inv exHeap exQ [1, 2, 3, 4] ∧ 5 ∉ [1, 2, 3, 4]) :=
  ⟨by decide, by decide,
    q_insert_failure_atomic exHeap exQ [1, 2, 3, 4] [120] 5 true (by decide) (by decide)⟩

/-- C16: on an empty container, with any buffer (or none) and any capacity,
`q_remove_head` returns false and changes nothing: the heap, the container
(`head` and `tail` empty, `size` 0) and the caller's buffer are returned as
they were. -/
theorem q_remove_head_empty (h : Heap) (q : queue_t) (sp : Option Buf) (bufsize : Nat)
    (hinv : inv h q []) :
    q_remove_head h (some q) sp bufsize = some (h, some q, sp, false) ∧
    q.head = none ∧ q.tail = none ∧ q.size = 0 ∧ q_size (some q) = 0 := by
  obtain ⟨-, -, hhd, htl, hsz⟩ := hinv
  have hh : q.head = none := hhd
  refine ⟨?_, hh, htl, hsz, hsz⟩
  simp only [q_remove_head, hh]

theorem q_remove_head_empty_witness :
    inv exEmpty { head := none, tail := none, size := 0 } [] ∧
    (q_remove_head exEmpty (some { head := none, tail := none, size := 0 }) (some exBuf) 4
        = some (exEmpty, some { head := none, tail := none, size := 0 }, some exBuf, false) ∧
    ({ head := none, tail := none, size := 0 } : queue_t).head = none ∧
    ({ head := none, tail := none, size := 0 } : queue_t).tail = none ∧
    ({ head := none, tail := none, size := 0 } : queue_t).size = 0 ∧
    q_size (some { head := none, tail := none, size := 0 }) = 0) :=
  ⟨by decide, q_remove_head_empty exEmpty { head := none, tail := none, size := 0 }
    (some exBuf) 4 (by decide)⟩

/-- C17: every operation accepts an absent (`NULL`) container without a
fault: `q_insert_head` and `q_insert_tail` return false whatever the
allocator would have answered, `q_remove_head` returns false and hands the
buffer back unwritten, `q_size` returns 0, `q_reverse` and `q_sort` return at
once (with any fuel); the heap is left as it was in every case. -/
theorem null_container_handled (h : Heap) (s : List Nat) (newh : Option Nat) (valueOk : Bool)
    (sp : Option Buf) (bufsize : Nat) (fuel : Nat) :
    q_insert_head h none s newh valueOk = some (h, none, false) ∧
    q_insert_tail h none s newh valueOk = some (h, none, false) ∧
    q_remove_head h none sp bufsize = some (h, none, sp, false) ∧
    q_size none = 0 ∧
    q_reverse fuel h none = some (h, none) ∧
    q_sort fuel h none = some (h, none) :=
  ⟨rfl, rfl, rfl, rfl, rfl, by simp [q_sort, q_size]⟩

/-! ## Involution of `q_reverse`, idempotence of `q_sort` -/

theorem seg_next_eq {h h' : Heap} {l : List Nat} {p : Option Nat} (hc : seg h l p)
    (hc' : seg h' l p) : ∀ b, b ∈ l →
    (h' b).map list_ele_t.next = (h b).map list_ele_t.next := by
  induction l with
  | nil => intro b hb; cases hb
  | cons a t ih =>
    intro b hb
    rcases List.mem_cons.1 hb with rfl | hm
    · rw [hc.1, hc'.1]
    · exact ih hc.2 hc'.2 b hm

theorem node_eq_of_fields {x y : Option list_ele_t}
    (hn : x.map list_ele_t.next = y.map list_ele_t.next)
    (hv : x.map list_ele_t.value = y.map list_ele_t.value) : x = y := by
  cases x with
  | none => cases y with
    | none => rfl
    | some n => cases hn
  | some m => cases y with
    | none => cases hn
    | some n =>
      cases m; cases n
      simp only [Option.map_some', Option.some.injEq] at hn hv
      subst hn hv
      rfl

theorem heap_eq_of_same_chain {h h' : Heap} {l : List Nat} {p : Option Nat} (hc : seg h l p)
    (hc' : seg h' l p) (hv : sameVals h h') (hout : ∀ b, b ∉ l → h' b = h b) : h' = h := by
  funext b
  by_cases hb : b ∈ l
  · exact node_eq_of_fields (seg_next_eq hc hc' b hb) (hv b)
  · exact hout b hb

/-- C13: on a container satisfying the invariants (the empty and the
single-element ones included), `q_reverse` applied twice returns the heap and
the container of the start: the same chain in the same order, the same `head`,
`tail` and `size`. -/
theorem q_reverse_involution (h : Heap) (q : queue_t) (l : List Nat) (fuel : Nat)
    (hinv : inv h q l) (hf : l.length ≤ fuel) :
    ∃ h1 q1, q_reverse fuel h (some q) = some (h1, some q1) ∧ inv h1 q1 l.reverse ∧
      q_reverse fuel h1 (some q1) = some (h, some q) := by
  obtain ⟨h1', hrun1, hch1, hout1, hv1, -⟩ := q_reverse_spec fuel h q l hinv hf
  obtain ⟨q1, hq1⟩ : ∃ q1 : queue_t, q1 = { q with head := l.reverse.head?, tail := l.head? } :=
    ⟨_, rfl⟩
  rw [← hq1] at hrun1
  have hinv1 : inv h1' q1 l.reverse := by
    rw [hq1]
    refine ⟨hch1, List.nodup_reverse.2 hinv.2.1, rfl, ?_, ?_⟩
    · simp [List.getLast?_reverse]
    · show q.size = _
      rw [hinv.2.2.2.2]; simp
  obtain ⟨h2, hrun2, hch2, hout2, hv2, -⟩ :=
    q_reverse_spec fuel h1' q1 l.reverse hinv1 (by simpa using hf)
  rw [List.reverse_reverse] at hch2
  have hh : h2 = h := by
    refine heap_eq_of_same_chain hinv.1 hch2 (sameVals_trans hv1 hv2) ?_
    intro b hb
    rw [hout2 b (by simpa using hb), hout1 b hb]
  have hinv2 : inv h2 { q1 with head := l.reverse.reverse.head?, tail := l.reverse.head? } l := by
    refine ⟨hch2, hinv.2.1, ?_, ?_, ?_⟩
    · simp
    · show l.reverse.head? = _
      rw [List.head?_reverse]
    · show q1.size = _
      rw [hinv1.2.2.2.2]; simp
  have hq : ({ q1 with head := l.reverse.reverse.head?, tail := l.reverse.head? } : queue_t) = q :=
    inv_unique hinv hinv2
  refine ⟨h1', q1, hrun1, hinv1, ?_⟩
  rw [hrun2, hh, hq]

theorem q_reverse_involution_witness :
    inv exHeap exQ [1, 2, 3, 4] ∧ [1, 2, 3, 4].length ≤ 4 ∧
    ∃ h1 q1, q_reverse 4 exHeap (some exQ) = some (h1, some q1) ∧
      inv h1 q1 [1, 2, 3, 4].reverse ∧
      q_reverse 4 h1 (some q1) = some (exHeap, some exQ) :=
  ⟨by decide, by decide, q_reverse_involution exHeap exQ [1, 2, 3, 4] 4 (by decide) (by decide)⟩

theorem mergeL_append (val : Nat → List Nat) : ∀ (n : Nat) (l2 l3 : List Nat),
    l2.length + l3.length ≤ n → (∀ x, x ∈ l3 → ∀ y, y ∈ l2 → nle val x y) →
    mergeL val l2 l3 = l3 ++ l2 := by
  intro n
  induction n with
  | zero =>
    intro l2 l3 hn _
    have h2 : l2 = [] := List.length_eq_zero.1 (by omega)
    have h3 : l3 = [] := List.length_eq_zero.1 (by omega)
    subst h2 h3
    simp [mergeL]
  | succ n ih =>
    intro l2 l3 hn hle
    cases l2 with
    | nil => rw [mergeL]; simp
    | cons a2 t2 =>
      cases l3 with
      | nil => rw [mergeL]; simp
      | cons a3 t3 =>
        rw [mergeL]
        simp only [List.length_cons] at hn
        have h32 : nle val a3 a2 := hle a3 (List.mem_cons_self _ _) a2 (List.mem_cons_self _ _)
        have hnlt : ¬ strcmp (val a2) (val a3) < 0 := by
          have := strcmp_swap (val a3) (val a2)
          unfold nle sle at h32
          omega
        rw [if_neg hnlt, ih (a2 :: t2) t3 (by simp only [List.length_cons]; omega)
          (fun x hx y hy => hle x (List.mem_cons_of_mem _ hx) y hy)]
        rfl

theorem msortL_of_sorted (val : Nat → List Nat) (fuel : Nat) : ∀ l : List Nat,
    l.Pairwise (nle val) → msortL val fuel l = l := by
  induction fuel with
  | zero => intro l _; rw [msortL]
  | succ fuel ih =>
    intro l hs
    rw [msortL]
    split_ifs with h1
    · rfl
    · have hsplit : l.take ((l.length + 1) / 2) ++ l.drop ((l.length + 1) / 2) = l :=
        List.take_append_drop _ _
      have hs2 := hs
      rw [← hsplit, List.pairwise_append] at hs2
      obtain ⟨hsA, hsB, hAB⟩ := hs2
      rw [ih _ hsA, ih _ hsB]
      have hlA : (l.take ((l.length + 1) / 2)).length = (l.length + 1) / 2 := by
        rw [List.length_take]; omega
      have hlB : (l.drop ((l.length + 1) / 2)).length = l.length - (l.length + 1) / 2 :=
        List.length_drop _ _
      cases hA : l.take ((l.length + 1) / 2) with
      | nil => rw [hA] at hlA; simp only [List.length_nil] at hlA; omega
      | cons a t1 =>
        cases hB : l.drop ((l.length + 1) / 2) with
        | nil => rw [hB] at hlB; simp only [List.length_nil] at hlB; omega
        | cons b t2 =>
          rw [hA, hB] at hAB hsplit
          have hab : nle val a b := hAB a (List.mem_cons_self _ _) b (List.mem_cons_self _ _)
          have hngt : ¬ strcmp (val a) (val b) > 0 := by
            unfold nle sle at hab; omega
          simp only [mergeHeads, if_neg hngt]
          rw [mergeL_append val _ (b :: t2) t1 (le_refl _)
            (fun x hx y hy => hAB x (List.mem_cons_of_mem _ hx) y hy)]
          exact hsplit

theorem q_sort_of_sorted (h : Heap) (q : queue_t) (l : List Nat) (fuel : Nat)
    (hinv : inv h q l) (hf : l.length < fuel) (hs : l.Pairwise (nle (valOf h))) :
    q_sort fuel h (some q) = some (h, some q) := by
  obtain ⟨h', hrun, hch, hout, hv⟩ := q_sort_spec fuel h q l hinv hf
  rw [msortL_of_sorted (valOf h) fuel l hs] at hrun hch
  have hh : h' = h := heap_eq_of_same_chain hinv.1 hch hv hout
  have hq : ({ q with head := l.head?, tail := l.getLast? } : queue_t) = q := by
    obtain ⟨-, -, hhd, htl, -⟩ := hinv
    cases q
    simp only [queue_t.mk.injEq, and_true]
    exact ⟨hhd.symm, htl.symm⟩
  rw [hrun, hh, hq]

/-- C14: on a container satisfying the invariants, a second `q_sort` returns
exactly the heap and the container left by the first one (same chain in the
same order, same `head`, `tail` and `size`); more generally `q_sort` returns a
container whose chain is already in non-decreasing order unchanged. -/
theorem q_sort_idempotent (h : Heap) (q : queue_t) (l : List Nat) (fuel : Nat)
    (hinv : inv h q l) (hf : l.length < fuel) :
    (∃ h1 q1, q_sort fuel h (some q) = some (h1, some q1) ∧
      q_sort fuel h1 (some q1) = some (h1, some q1)) ∧
    ((l.map (valOf h)).Pairwise sle → q_sort fuel h (some q) = some (h, some q)) := by
  constructor
  · obtain ⟨h1, hrun, hch, -, hv⟩ := q_sort_spec fuel h q l hinv hf
    have hp := msortL_perm (valOf h) fuel l
    have hinv1 : inv h1 ⟨(msortL (valOf h) fuel l).head?, (msortL (valOf h) fuel l).getLast?,
        q.size⟩ (msortL (valOf h) fuel l) := by
      refine ⟨hch, hp.nodup_iff.2 hinv.2.1, rfl, rfl, ?_⟩
      show q.size = _
      rw [hinv.2.2.2.2, hp.length_eq]
    refine ⟨h1, _, hrun, q_sort_of_sorted h1 _ _ fuel hinv1 (by rw [hp.length_eq]; exact hf) ?_⟩
    rw [valOf_eq_of_sameVals hv]
    exact msortL_sorted (valOf h) fuel l (by omega)
  · intro hs
    rw [List.pairwise_map] at hs
    exact q_sort_of_sorted h q l fuel hinv hf hs

theorem q_sort_idempotent_witness :
    inv exHeap exQ [1, 2, 3, 4] ∧ [1, 2, 3, 4].length < 5 ∧
    ((∃ h1 q1, q_sort 5 exHeap (some exQ) = some (h1, some q1) ∧
      q_sort 5 h1 (some q1) = some (h1, some q1)) ∧
    (([1, 2, 3, 4].map (valOf exHeap)).Pairwise sle →
      q_sort 5 exHeap (some exQ) = some (exHeap, some exQ))) :=
  ⟨by decide, by decide, q_sort_idempotent exHeap exQ [1, 2, 3, 4] 5 (by decide) (by decide)⟩

/-! ## The split and the termination of the sort -/

theorem q_sort_mergesort_split (fuel : Nat) (h : Heap) (p1 : Option Nat) (n1 : list_ele_t)
    (a2 : Nat) (hn1 : load h p1 = some n1) (hnx : n1.next = some a2) :
    q_sort_mergesort (fuel + 1) h p1 =
      match split_halves fuel h p1 with
      | none => none
      | some (h1, p2) =>
        match q_sort_mergesort fuel h1 p1 with
        | none => none
        | some (h2, s1) =>
          match q_sort_mergesort fuel h2 p2 with
          | none => none
          | some (h3, s2) => merge_halves fuel h3 s1 s2 := by
  simp only [q_sort_mergesort, split_halves, hn1, hnx]
  cases split_loop fuel h p1 (some a2) with
  | none => rfl
  | some stp1 =>
    simp only
    cases load h stp1 with
    | none => rfl
    | some ns =>
      simp only
      cases store_next h stp1 none with
      | none => rfl
      | some h1 => rfl

theorem split_halves_spec (h : Heap) (l : List Nat) (fuel : Nat) (hc : chain h l)
    (hnd : l.Nodup) (hn : 2 ≤ l.length) (hf : l.length ≤ fuel) :
    ∃ h1, split_halves fuel h l.head?
        = some (h1, (l.drop ((l.length + 1) / 2)).head?) ∧
      chain h1 (l.take ((l.length + 1) / 2)) ∧ chain h1 (l.drop ((l.length + 1) / 2)) ∧
      sameVals h h1 ∧ (∀ b, b ∉ l → h1 b = h b) := by
  cases l with
  | nil => simp at hn
  | cons a t =>
    obtain ⟨n1, hn1, hnx1⟩ := seg_head hc
    have hsplit := split_loop_spec h fuel (a :: t) t hc hc.2 (by simp)
      (by simp only [List.length_cons] at hf; omega)
    obtain ⟨k, hk⟩ : ∃ k, k = t.length / 2 := ⟨_, rfl⟩
    obtain ⟨l, hl0⟩ : ∃ l, l = a :: t := ⟨_, rfl⟩
    have hlen : l.length = t.length + 1 := by rw [hl0]; rfl
    have hkk : (l.length + 1) / 2 = k + 1 := by omega
    rw [← hk, ← hl0] at hsplit
    rw [← hl0] at hc hnd hn hf ⊢
    rw [hkk]
    obtain ⟨s, l2, hl, htake, hdrop⟩ := take_drop_split (show k < l.length by omega)
    have hstp : (l.drop k).head? = some s := by
      conv_lhs => rw [hl]
      rw [List.drop_left' (by rw [List.length_take]; omega)]
      rfl
    rw [hstp] at hsplit
    have hc0 := hc
    have hnd0 := hnd
    rw [hl] at hc0 hnd0
    have hseg := (seg_append (p := none)).1 hc0
    obtain ⟨ns, hns, hnxs⟩ := seg_head hseg.2
    obtain ⟨hcA, hcB⟩ := chain_cut hc0 hnd0
    rw [← htake] at hcA
    rw [← hdrop] at hcB hnxs
    have hsl : s ∈ l := by rw [hl]; simp
    have hlh : l.head? = some a := by rw [hl0]; rfl
    have hsp2 : split_loop fuel h (some a) t.head? = some (some s) := by
      rw [← hlh]; exact hsplit
    refine ⟨setNext h s none, ?_, hcA, hcB, sameVals_setNext _ _ _, ?_⟩
    · simp only [split_halves, hlh, load, hn1, hnx1, headOr_none, hsp2, hns,
        store_next_eq none hns, hnxs]
    · intro b hb
      exact setNext_other h _ (fun e => hb (e ▸ hsl))

/-- C18: on a chain `l` of `n >= 2` nodes the slow/fast split of
`q_sort_mergesort` returns (for any fuel of at least `n`) a heap in which the
first `(n + 1) / 2` nodes of `l`, in their order, form a chain of their own
whose last successor is `NULL`, and the remaining `n / 2` nodes, in their
order, form the chain at `p2`; `q_sort_mergesort` then sorts exactly these two
chains and merges them. -/
theorem split_halves_sizes (h : Heap) (l : List Nat) (fuel : Nat) (hc : chain h l)
    (hnd : l.Nodup) (hn : 2 ≤ l.length) (hf : l.length ≤ fuel) :
    ∃ h1, split_halves fuel h l.head?
        = some (h1, (l.drop ((l.length + 1) / 2)).head?) ∧
      chain h1 (l.take ((l.length + 1) / 2)) ∧ chain h1 (l.drop ((l.length + 1) / 2)) ∧
      (l.take ((l.length + 1) / 2)).length = (l.length + 1) / 2 ∧
      (l.drop ((l.length + 1) / 2)).length = l.length / 2 ∧
      (∀ t, (l.take ((l.length + 1) / 2)).getLast? = some t →
        (h1 t).map list_ele_t.next = some none) ∧
      q_sort_mergesort (fuel + 1) h l.head? =
        (match q_sort_mergesort fuel h1 (l.take ((l.length + 1) / 2)).head? with
        | none => none
        | some (h2, s1) =>
          match q_sort_mergesort fuel h2 (l.drop ((l.length + 1) / 2)).head? with
          | none => none
          | some (h3, s2) => merge_halves fuel h3 s1 s2) := by
  obtain ⟨h1, hrun, hcA, hcB, -, -⟩ := split_halves_spec h l fuel hc hnd hn hf
  refine ⟨h1, hrun, hcA, hcB, ?_, ?_, fun t ht => chain_last_next hcA ht, ?_⟩
  · rw [List.length_take]; omega
  · rw [List.length_drop]; omega
  · cases l with
    | nil => simp at hn
    | cons a t =>
      cases t with
      | nil => simp at hn
      | cons b t2 =>
        obtain ⟨n1, hn1, hnx1⟩ := seg_head hc
        have hnxs : n1.next = some b := hnx1
        have hhd : ((a :: b :: t2).take (((a :: b :: t2).length + 1) / 2)).head?
            = (a :: b :: t2).head? := by
          have : ((a :: b :: t2).length + 1) / 2 = (t2.length + 1) / 2 + 1 := by
            simp only [List.length_cons]; omega
          rw [this]; rfl
        rw [q_sort_mergesort_split fuel h (a :: b :: t2).head? n1 b hn1 hnxs, hrun, hhd]

theorem split_halves_sizes_witness :
    chain exHeap [1, 2, 3, 4] ∧ [1, 2, 3, 4].Nodup ∧ 2 ≤ [1, 2, 3, 4].length ∧
    [1, 2, 3, 4].length ≤ 4 ∧
    ∃ h1, split_halves 4 exHeap [1, 2, 3, 4].head?
        = some (h1, ([1, 2, 3, 4].drop (([1, 2, 3, 4].length + 1) / 2)).head?) ∧
      chain h1 ([1, 2, 3, 4].take (([1, 2, 3, 4].length + 1) / 2)) ∧
      chain h1 ([1, 2, 3, 4].drop (([1, 2, 3, 4].length + 1) / 2)) ∧
      ([1, 2, 3, 4].take (([1, 2, 3, 4].length + 1) / 2)).length = ([1, 2, 3, 4].length + 1) / 2 ∧
      ([1, 2, 3, 4].drop (([1, 2, 3, 4].length + 1) / 2)).length = [1, 2, 3, 4].length / 2 ∧
      (∀ t, ([1, 2, 3, 4].take (([1, 2, 3, 4].length + 1) / 2)).getLast? = some t →
        (h1 t).map list_ele_t.next = some none) ∧
      q_sort_mergesort (4 + 1) exHeap [1, 2, 3, 4].head? =
        (match q_sort_mergesort 4 h1 ([1, 2, 3, 4].take (([1, 2, 3, 4].length + 1) / 2)).head? with
        | none => none
        | some (h2, s1) =>
          match q_sort_mergesort 4 h2 ([1, 2, 3, 4].drop (([1, 2, 3, 4].length + 1) / 2)).head? with
          | none => none
          | some (h3, s2) => merge_halves 4 h3 s1 s2) :=
  ⟨by decide, by decide, by decide, by decide,
    split_halves_sizes exHeap [1, 2, 3, 4] 4 (by decide) (by decide) (by decide) (by decide)⟩

theorem q_sort_mergesort_null (fuel : Nat) (h : Heap) : q_sort_mergesort fuel h none = none := by
  cases fuel <;> simp [q_sort_mergesort, load]

theorem split_halves_shorter (h : Heap) (l : List Nat) (fuel : Nat) (hc : chain h l)
    (hnd : l.Nodup) (hn : 2 ≤ l.length) (hf : l.length ≤ fuel) :
    ∃ h1 p2 la lb, split_halves fuel h l.head? = some (h1, p2) ∧ l = la ++ lb ∧
      chain h1 la ∧ chain h1 lb ∧ la.head? = l.head? ∧ lb.head? = p2 ∧ p2 ≠ none ∧
      0 < la.length ∧ la.length < l.length ∧ 0 < lb.length ∧ lb.length < l.length := by
  obtain ⟨h1, hrun, hcA, hcB, -, -⟩ := split_halves_spec h l fuel hc hnd hn hf
  have hlA : (l.take ((l.length + 1) / 2)).length = (l.length + 1) / 2 := by
    rw [List.length_take]; omega
  have hlB : (l.drop ((l.length + 1) / 2)).length = l.length / 2 := by
    rw [List.length_drop]; omega
  refine ⟨h1, _, l.take ((l.length + 1) / 2), l.drop ((l.length + 1) / 2), hrun,
    (List.take_append_drop _ _).symm, hcA, hcB, ?_, rfl, ?_, by omega, by omega, by omega,
    by omega⟩
  · cases l with
    | nil => simp at hn
    | cons a t =>
      have : ((a :: t).length + 1) / 2 = t.length / 2 + 1 := by
        simp only [List.length_cons]; omega
      rw [this]; rfl
  · cases hB : l.drop ((l.length + 1) / 2) with
    | nil => rw [hB] at hlB; simp only [List.length_nil] at hlB; omega
    | cons b t => simp

/-- C19: `q_sort` terminates on every container satisfying the invariants.
With any fuel above the number of nodes it returns, and more fuel returns the
same state.  A container of at most one node is returned before any call of
`q_sort_mergesort` (even with no fuel).  With two nodes or more the call of
`q_sort_mergesort` is on a non-empty chain (`head` is not `NULL`) and returns,
and the loop that recomputes `tail` stops on a node whose successor is `NULL`.
In the recursion, a call on an empty reference would fault, a chain of
`n >= 2` nodes is split into two non-empty chains strictly shorter than `n`,
and `q_sort_mergesort` returns on every non-empty chain shorter than its fuel. -/
theorem q_sort_terminates (h : Heap) (q : queue_t) (l : List Nat) (fuel : Nat)
    (hinv : inv h q l) (hf : l.length < fuel) :
    (∃ h' q', q_sort fuel h (some q) = some (h', some q') ∧
      ∀ fuel', fuel ≤ fuel' → q_sort fuel' h (some q) = some (h', some q')) ∧
    (l.length ≤ 1 → ∀ f, q_sort f h (some q) = some (h, some q)) ∧
    (2 ≤ l.length → q.head ≠ none ∧
      ∃ h1 hd t, q_sort_mergesort fuel h q.head = some (h1, hd) ∧ hd ≠ none ∧
        tail_loop fuel h1 q.tail = some (some t) ∧
        (h1 t).map list_ele_t.next = some none) ∧
    (∀ f h0, q_sort_mergesort f h0 none = none) ∧
    (∀ f h0 l0, chain h0 l0 → l0.Nodup → 2 ≤ l0.length → l0.length ≤ f →
      ∃ h1 p2 la lb, split_halves f h0 l0.head? = some (h1, p2) ∧ l0 = la ++ lb ∧
        chain h1 la ∧ chain h1 lb ∧ la.head? = l0.head? ∧ lb.head? = p2 ∧ p2 ≠ none ∧
        0 < la.length ∧ la.length < l0.length ∧ 0 < lb.length ∧ lb.length < l0.length) ∧
    (∀ f h0 l0, l0 ≠ [] → l0.Nodup → chain h0 l0 → l0.length < f →
      ∃ r, q_sort_mergesort f h0 l0.head? = some r) := by
  refine ⟨?_, ?_, ?_, fun f h0 => q_sort_mergesort_null f h0,
    fun f h0 l0 hc hnd hn hf0 => split_halves_shorter h0 l0 f hc hnd hn hf0, ?_⟩
  · obtain ⟨h', hrun, -⟩ := q_sort_spec fuel h q l hinv hf
    exact ⟨h', _, hrun, fun fuel' hle => q_sort_mono hrun hle⟩
  · intro hle f
    have hq : q_size (some q) ≤ 1 := by
      simp only [q_size, hinv.2.2.2.2]; omega
    simp [q_sort, hq]
  · intro hn
    obtain ⟨hc, hnd, hhd, htl, hsz⟩ := hinv
    have hne : l ≠ [] := by rintro rfl; simp at hn
    obtain ⟨h1, hrun, hch, -, -⟩ := q_sort_mergesort_spec fuel h l hne hnd hc hf
    have hp := msortL_perm (valOf h) fuel l
    have hne' : msortL (valOf h) fuel l ≠ [] := fun e => hne (List.Perm.eq_nil (e ▸ hp.symm))
    obtain ⟨t0, ht0⟩ : ∃ t0, l.getLast? = some t0 := by
      cases hl : l.getLast? with
      | none => exact absurd (List.getLast?_eq_none_iff.1 hl) hne
      | some t => exact ⟨t, rfl⟩
    have htm : t0 ∈ msortL (valOf h) fuel l :=
      hp.mem_iff.2 (List.mem_of_getLast?_eq_some ht0)
    have htail : tail_loop fuel h1 (some t0) = some (msortL (valOf h) fuel l).getLast? :=
      tail_loop_mem h1 hch htm (by rw [hp.length_eq]; omega)
    obtain ⟨t, ht⟩ : ∃ t, (msortL (valOf h) fuel l).getLast? = some t := by
      cases hl : (msortL (valOf h) fuel l).getLast? with
      | none => exact absurd (List.getLast?_eq_none_iff.1 hl) hne'
      | some t => exact ⟨t, rfl⟩
    refine ⟨?_, h1, _, t, hhd ▸ hrun, ?_, ?_, chain_last_next hch ht⟩
    · rw [hhd]
      cases l with
      | nil => exact absurd rfl hne
      | cons a t => simp
    · cases hm : msortL (valOf h) fuel l with
      | nil => exact absurd hm hne'
      | cons a t => simp
    · rw [htl, ht0, htail, ht]
  · intro f h0 l0 hne hnd hc hf0
    obtain ⟨h1, hrun, -⟩ := q_sort_mergesort_spec f h0 l0 hne hnd hc hf0
    exact ⟨_, hrun⟩

theorem q_sort_terminates_witness :
    inv exHeap exQ [1, 2, 3, 4] ∧ [1, 2, 3, 4].length < 5 ∧
    ((∃ h' q', q_sort 5 exHeap (some exQ) = some (h', some q') ∧
      ∀ fuel', 5 ≤ fuel' → q_sort fuel' exHeap (some exQ) = some (h', some q')) ∧
    ([1, 2, 3, 4].length ≤ 1 → ∀ f, q_sort f exHeap (some exQ) = some (exHeap, some exQ)) ∧
    (2 ≤ [1, 2, 3, 4].length → exQ.head ≠ none ∧
      ∃ h1 hd t, q_sort_mergesort 5 exHeap exQ.head = some (h1, hd) ∧ hd ≠ none ∧
        tail_loop 5 h1 exQ.tail = some (some t) ∧
        (h1 t).map list_ele_t.next = some none) ∧
    (∀ f h0, q_sort_mergesort f h0 none = none) ∧
    (∀ f h0 l0, chain h0 l0 → l0.Nodup → 2 ≤ l0.length → l0.length ≤ f →
      ∃ h1 p2 la lb, split_halves f h0 l0.head? = some (h1, p2) ∧ l0 = la ++ lb ∧
        chain h1 la ∧ chain h1 lb ∧ la.head? = l0.head? ∧ lb.head? = p2 ∧ p2 ≠ none ∧
        0 < la.length ∧ la.length < l0.length ∧ 0 < lb.length ∧ lb.length < l0.length) ∧
    (∀ f h0 l0, l0 ≠ [] → l0.Nodup → chain h0 l0 → l0.length < f →
      ∃ r, q_sort_mergesort f h0 l0.head? = some r)) :=
  ⟨by decide, by decide, q_sort_terminates exHeap exQ [1, 2, 3, 4] 5 (by decide) (by decide)⟩

/-! ## Sequences of calls: the size -/

theorem q_insert_head_size {h : Heap} {q : Option queue_t} {s : List Nat} {newh : Option Nat}
    {valueOk : Bool} {h1 : Heap} {q1 : Option queue_t} {r : Bool}
    (hrun : q_insert_head h q s newh valueOk = some (h1, q1, r)) :
    q_size q1 = q_size q + (if r then 1 else 0) := by
  unfold q_insert_head at hrun
  cases q with
  | none =>
    simp only [Option.some.injEq, Prod.mk.injEq] at hrun
    obtain ⟨-, rfl, rfl⟩ := hrun
    simp
  | some q =>
    cases newh with
    | none =>
      simp only [Option.some.injEq, Prod.mk.injEq] at hrun
      obtain ⟨-, rfl, rfl⟩ := hrun
      simp
    | some a =>
      cases valueOk with
      | false =>
        simp only [if_true, Option.some.injEq, Prod.mk.injEq] at hrun
        obtain ⟨-, rfl, rfl⟩ := hrun
        simp
      | true =>
        simp only [Bool.true_eq_false, if_false] at hrun
        cases hh : q.head with
        | none =>
          simp only [hh, Option.some.injEq, Prod.mk.injEq] at hrun
          obtain ⟨-, rfl, rfl⟩ := hrun
          simp [q_size]
        | some hd =>
          simp only [hh] at hrun
          split at hrun
          · cases hrun
          · simp only [Option.some.injEq, Prod.mk.injEq] at hrun
            obtain ⟨-, rfl, rfl⟩ := hrun
            simp [q_size]

theorem q_insert_tail_size {h : Heap} {q : Option queue_t} {s : List Nat} {newt : Option Nat}
    {valueOk : Bool} {h1 : Heap} {q1 : Option queue_t} {r : Bool}
    (hrun : q_insert_tail h q s newt valueOk = some (h1, q1, r)) :
    q_size q1 = q_size q + (if r then 1 else 0) := by
  unfold q_insert_tail at hrun
  cases q with
  | none =>
    simp only [Option.some.injEq, Prod.mk.injEq] at hrun
    obtain ⟨-, rfl, rfl⟩ := hrun
    simp
  | some q =>
    cases newt with
    | none =>
      simp only [Option.some.injEq, Prod.mk.injEq] at hrun
      obtain ⟨-, rfl, rfl⟩ := hrun
      simp
    | some a =>
      cases valueOk with
      | false =>
        simp only [if_true, Option.some.injEq, Prod.mk.injEq] at hrun
        obtain ⟨-, rfl, rfl⟩ := hrun
        simp
      | true =>
        simp only [Bool.true_eq_false, if_false] at hrun
        cases hh : q.tail with
        | none =>
          simp only [hh, Option.some.injEq, Prod.mk.injEq] at hrun
          obtain ⟨-, rfl, rfl⟩ := hrun
          simp [q_size]
        | some tl =>
          simp only [hh] at hrun
          split at hrun
          · cases hrun
          · simp only [Option.some.injEq, Prod.mk.injEq] at hrun
            obtain ⟨-, rfl, rfl⟩ := hrun
            simp [q_size]

theorem q_remove_head_size {h : Heap} {q : Option queue_t} {sp : Option Buf} {bufsize : Nat}
    {h1 : Heap} {q1 : Option queue_t} {sp1 : Option Buf} {r : Bool}
    (hrun : q_remove_head h q sp bufsize = some (h1, q1, sp1, r)) :
    q_size q1 = q_size q - (if r then 1 else 0) := by
  unfold q_remove_head at hrun
  cases q with
  | none =>
    simp only [Option.some.injEq, Prod.mk.injEq] at hrun
    obtain ⟨-, rfl, -, rfl⟩ := hrun
    simp
  | some q =>
    cases hh : q.head with
    | none =>
      simp only [hh, Option.some.injEq, Prod.mk.injEq] at hrun
      obtain ⟨-, rfl, -, rfl⟩ := hrun
      simp
    | some a =>
      simp only [hh] at hrun
      cases ha : h a with
      | none => simp [ha] at hrun
      | some n =>
        simp only [ha, Option.some.injEq, Prod.mk.injEq] at hrun
        obtain ⟨-, rfl, -, rfl⟩ := hrun
        by_cases hn : n.next = none <;> simp [q_size, hn]

theorem q_reverse_size {fuel : Nat} {h : Heap} {q : Option queue_t} {h1 : Heap}
    {q1 : Option queue_t} (hrun : q_reverse fuel h q = some (h1, q1)) :
    q_size q1 = q_size q := by
  unfold q_reverse at hrun
  cases q with
  | none =>
    simp only [Option.some.injEq, Prod.mk.injEq] at hrun
    obtain ⟨-, rfl⟩ := hrun
    rfl
  | some q =>
    simp only at hrun
    split at hrun
    · simp only [Option.some.injEq, Prod.mk.injEq] at hrun
      obtain ⟨-, rfl⟩ := hrun
      rfl
    · split at hrun
      · cases hrun
      · split at hrun
        · cases hrun
        · split at hrun
          · cases hrun
          · simp only [Option.some.injEq, Prod.mk.injEq] at hrun
            obtain ⟨-, rfl⟩ := hrun
            rfl

theorem q_sort_size {fuel : Nat} {h : Heap} {q : Option queue_t} {h1 : Heap}
    {q1 : Option queue_t} (hrun : q_sort fuel h q = some (h1, q1)) :
    q_size q1 = q_size q := by
  unfold q_sort at hrun
  split at hrun
  · simp only [Option.some.injEq, Prod.mk.injEq] at hrun
    obtain ⟨-, rfl⟩ := hrun
    rfl
  · cases q with
    | none => cases hrun
    | some q =>
      simp only at hrun
      split at hrun
      · cases hrun
      · split at hrun
        · cases hrun
        · simp only [Option.some.injEq, Prod.mk.injEq] at hrun
          obtain ⟨-, rfl⟩ := hrun
          rfl

theorem step_size {st st1 : St} {op : Op} (hstep : step st op = some st1) :
    q_size st1.q - (st1.ins : Int) + (st1.rem : Int)
      = q_size st.q - (st.ins : Int) + (st.rem : Int) := by
  cases op with
  | insert_head s newh valueOk =>
    simp only [step] at hstep
    split at hstep
    · cases hstep
    · rename_i h1 q1 r hrun
      simp only [Option.some.injEq] at hstep
      subst hstep
      have := q_insert_head_size hrun
      cases r <;> simp_all
  | insert_tail s newt valueOk =>
    simp only [step] at hstep
    split at hstep
    · cases hstep
    · rename_i h1 q1 r hrun
      simp only [Option.some.injEq] at hstep
      subst hstep
      have := q_insert_tail_size hrun
      cases r <;> simp_all
  | remove_head sp bufsize =>
    simp only [step] at hstep
    split at hstep
    · cases hstep
    · rename_i h1 q1 sp1 r hrun
      simp only [Option.some.injEq] at hstep
      subst hstep
      have := q_remove_head_size hrun
      cases r <;> simp_all
      omega
  | reverse fuel =>
    simp only [step] at hstep
    split at hstep
    · cases hstep
    · rename_i h1 q1 hrun
      simp only [Option.some.injEq] at hstep
      subst hstep
      simp [q_reverse_size hrun]
  | sort fuel =>
    simp only [step] at hstep
    split at hstep
    · cases hstep
    · rename_i h1 q1 hrun
      simp only [Option.some.injEq] at hstep
      subst hstep
      simp [q_sort_size hrun]

theorem run_size : ∀ (ops : List Op) (st st1 : St), run st ops = some st1 →
    q_size st1.q - (st1.ins : Int) + (st1.rem : Int)
      = q_size st.q - (st.ins : Int) + (st.rem : Int) := by
  intro ops
  induction ops with
  | nil =>
    intro st st1 hrun
    simp only [run, Option.some.injEq] at hrun
    subst hrun; rfl
  | cons op ops ih =>
    intro st st1 hrun
    simp only [run] at hrun
    split at hrun
    · cases hrun
    · rename_i st2 hstep
      rw [ih st2 st1 hrun, step_size hstep]

theorem step_insert_head {st : St} {s : List Nat} {newh : Option Nat} {valueOk : Bool}
    {h1 : Heap} {q1 : Option queue_t} {r : Bool}
    (hrun : q_insert_head st.h st.q s newh valueOk = some (h1, q1, r)) :
    step st (Op.insert_head s newh valueOk)
      = some { st with h := h1, q := q1, ins := st.ins + (if r then 1 else 0) } := by
  simp only [step, hrun]

theorem step_insert_tail {st : St} {s : List Nat} {newt : Option Nat} {valueOk : Bool}
    {h1 : Heap} {q1 : Option queue_t} {r : Bool}
    (hrun : q_insert_tail st.h st.q s newt valueOk = some (h1, q1, r)) :
    step st (Op.insert_tail s newt valueOk)
      = some { st with h := h1, q := q1, ins := st.ins + (if r then 1 else 0) } := by
  simp only [step, hrun]

theorem step_remove_head {st : St} {sp : Option Buf} {bufsize : Nat}
    {h1 : Heap} {q1 : Option queue_t} {sp1 : Option Buf} {r : Bool}
    (hrun : q_remove_head st.h st.q sp bufsize = some (h1, q1, sp1, r)) :
    step st (Op.remove_head sp bufsize)
      = some { st with h := h1, q := q1, rem := st.rem + (if r then 1 else 0),
                       out := deliver st.out r sp1 bufsize } := by
  simp only [step, hrun]

theorem step_reverse {st : St} {fuel : Nat} {h1 : Heap} {q1 : Option queue_t}
    (hrun : q_reverse fuel st.h st.q = some (h1, q1)) :
    step st (Op.reverse fuel) = some { st with h := h1, q := q1 } := by
  simp only [step, hrun]

theorem step_sort {st : St} {fuel : Nat} {h1 : Heap} {q1 : Option queue_t}
    (hrun : q_sort fuel st.h st.q = some (h1, q1)) :
    step st (Op.sort fuel) = some { st with h := h1, q := q1 } := by
  simp only [step, hrun]

/-! ## Sequences of calls: the states they reach -/

theorem q_insert_head_isSome {h : Heap} {q : Option queue_t} {s : List Nat}
    {newh : Option Nat} {valueOk : Bool} {h1 : Heap} {q1 : Option queue_t} {r : Bool}
    (hrun : q_insert_head h q s newh valueOk = some (h1, q1, r)) :
    q1.isSome = q.isSome := by
  unfold q_insert_head at hrun
  cases q with
  | none =>
    simp only [Option.some.injEq, Prod.mk.injEq] at hrun
    obtain ⟨-, rfl, rfl⟩ := hrun
    rfl
  | some q =>
    cases newh with
    | none =>
      simp only [Option.some.injEq, Prod.mk.injEq] at hrun
      obtain ⟨-, rfl, rfl⟩ := hrun
      rfl
    | some a =>
      cases valueOk with
      | false =>
        simp only [if_true, Option.some.injEq, Prod.mk.injEq] at hrun
        obtain ⟨-, rfl, rfl⟩ := hrun
        rfl
      | true =>
        simp only [Bool.true_eq_false, if_false] at hrun
        cases hh : q.head with
        | none =>
          simp only [hh, Option.some.injEq, Prod.mk.injEq] at hrun
          obtain ⟨-, rfl, rfl⟩ := hrun
          rfl
        | some hd =>
          simp only [hh] at hrun
          split at hrun
          · cases hrun
          · simp only [Option.some.injEq, Prod.mk.injEq] at hrun
            obtain ⟨-, rfl, rfl⟩ := hrun
            rfl

theorem q_insert_tail_isSome {h : Heap} {q : Option queue_t} {s : List Nat}
    {newt : Option Nat} {valueOk : Bool} {h1 : Heap} {q1 : Option queue_t} {r : Bool}
    (hrun : q_insert_tail h q s newt valueOk = some (h1, q1, r)) :
    q1.isSome = q.isSome := by
  unfold q_insert_tail at hrun
  cases q with
  | none =>
    simp only [Option.some.injEq, Prod.mk.injEq] at hrun
    obtain ⟨-, rfl, rfl⟩ := hrun
    rfl
  | some q =>
    cases newt with
    | none =>
      simp only [Option.some.injEq, Prod.mk.injEq] at hrun
      obtain ⟨-, rfl, rfl⟩ := hrun
      rfl
    | some a =>
      cases valueOk with
      | false =>
        simp only [if_true, Option.some.injEq, Prod.mk.injEq] at hrun
        obtain ⟨-, rfl, rfl⟩ := hrun
        rfl
      | true =>
        simp only [Bool.true_eq_false, if_false] at hrun
        cases hh : q.tail with
        | none =>
          simp only [hh, Option.some.injEq, Prod.mk.injEq] at hrun
          obtain ⟨-, rfl, rfl⟩ := hrun
          rfl
        | some tl =>
          simp only [hh] at hrun
          split at hrun
          · cases hrun
          · simp only [Option.some.injEq, Prod.mk.injEq] at hrun
            obtain ⟨-, rfl, rfl⟩ := hrun
            rfl

theorem q_remove_head_isSome {h : Heap} {q : Option queue_t} {sp : Option Buf}
    {bufsize : Nat} {h1 : Heap} {q1 : Option queue_t} {sp1 : Option Buf} {r : Bool}
    (hrun : q_remove_head h q sp bufsize = some (h1, q1, sp1, r)) :
    q1.isSome = q.isSome := by
  unfold q_remove_head at hrun
  cases q with
  | none =>
    simp only [Option.some.injEq, Prod.mk.injEq] at hrun
    obtain ⟨-, rfl, -, rfl⟩ := hrun
    rfl
  | some q =>
    cases hh : q.head with
    | none =>
      simp only [hh, Option.some.injEq, Prod.mk.injEq] at hrun
      obtain ⟨-, rfl, -, rfl⟩ := hrun
      rfl
    | some a =>
      simp only [hh] at hrun
      cases ha : h a with
      | none => simp [ha] at hrun
      | some n =>
        simp only [ha, Option.some.injEq, Prod.mk.injEq] at hrun
        obtain ⟨-, rfl, -, rfl⟩ := hrun
        rfl

theorem q_reverse_isSome {fuel : Nat} {h : Heap} {q : Option queue_t} {h1 : Heap}
    {q1 : Option queue_t} (hrun : q_reverse fuel h q = some (h1, q1)) :
    q1.isSome = q.isSome := by
  unfold q_reverse at hrun
  cases q with
  | none =>
    simp only [Option.some.injEq, Prod.mk.injEq] at hrun
    obtain ⟨-, rfl⟩ := hrun
    rfl
  | some q =>
    simp only at hrun
    split at hrun
    · simp only [Option.some.injEq, Prod.mk.injEq] at hrun
      obtain ⟨-, rfl⟩ := hrun
      rfl
    · split at hrun
      · cases hrun
      · split at hrun
        · cases hrun
        · split at hrun
          · cases hrun
          · simp only [Option.some.injEq, Prod.mk.injEq] at hrun
            obtain ⟨-, rfl⟩ := hrun
            rfl

theorem q_sort_isSome {fuel : Nat} {h : Heap} {q : Option queue_t} {h1 : Heap}
    {q1 : Option queue_t} (hrun : q_sort fuel h q = some (h1, q1)) :
    q1.isSome = q.isSome := by
  unfold q_sort at hrun
  split at hrun
  · simp only [Option.some.injEq, Prod.mk.injEq] at hrun
    obtain ⟨-, rfl⟩ := hrun
    rfl
  · cases q with
    | none => cases hrun
    | some q =>
      simp only at hrun
      split at hrun
      · cases hrun
      · split at hrun
        · cases hrun
        · simp only [Option.some.injEq, Prod.mk.injEq] at hrun
          obtain ⟨-, rfl⟩ := hrun
          rfl

theorem reach_step {st st1 : St} {op : Op} {q : queue_t} (hq : st.q = some q)
    (hr : Reach st.h q) (hok : okOp st op) (hstep : step st op = some st1) :
    ∃ q1, st1.q = some q1 ∧ Reach st1.h q1 := by
  obtain ⟨sh, sq, si, sr, so⟩ := st
  have hq' : sq = some q := hq
  subst hq'
  have hr' : Reach sh q := hr
  cases op with
  | insert_head s newh valueOk =>
    simp only [step] at hstep
    split at hstep
    · cases hstep
    · rename_i h1 q1 r hrun
      simp only [Option.some.injEq] at hstep
      subst hstep
      have hs := q_insert_head_isSome hrun
      cases q1 with
      | none => cases hs
      | some q2 => exact ⟨q2, rfl, Reach.insert_head s newh valueOk hr' hok.1 hok.2 hrun⟩
  | insert_tail s newt valueOk =>
    simp only [step] at hstep
    split at hstep
    · cases hstep
    · rename_i h1 q1 r hrun
      simp only [Option.some.injEq] at hstep
      subst hstep
      have hs := q_insert_tail_isSome hrun
      cases q1 with
      | none => cases hs
      | some q2 => exact ⟨q2, rfl, Reach.insert_tail s newt valueOk hr' hok.1 hok.2 hrun⟩
  | remove_head sp bufsize =>
    simp only [step] at hstep
    split at hstep
    · cases hstep
    · rename_i h1 q1 sp1 r hrun
      simp only [Option.some.injEq] at hstep
      subst hstep
      have hs := q_remove_head_isSome hrun
      cases q1 with
      | none => cases hs
      | some q2 => exact ⟨q2, rfl, Reach.remove_head sp bufsize hr' hok hrun⟩
  | reverse fuel =>
    simp only [step] at hstep
    split at hstep
    · cases hstep
    · rename_i h1 q1 hrun
      simp only [Option.some.injEq] at hstep
      subst hstep
      have hs := q_reverse_isSome hrun
      cases q1 with
      | none => cases hs
      | some q2 => exact ⟨q2, rfl, Reach.reverse fuel hr' hrun⟩
  | sort fuel =>
    simp only [step] at hstep
    split at hstep
    · cases hstep
    · rename_i h1 q1 hrun
      simp only [Option.some.injEq] at hstep
      subst hstep
      have hs := q_sort_isSome hrun
      cases q1 with
      | none => cases hs
      | some q2 => exact ⟨q2, rfl, Reach.sort fuel hr' hrun⟩

theorem reach_run : ∀ (ops : List Op) (st st1 : St) (q : queue_t), st.q = some q →
    Reach st.h q → okRun st ops → run st ops = some st1 →
    ∃ q1, st1.q = some q1 ∧ Reach st1.h q1 := by
  intro ops
  induction ops with
  | nil =>
    intro st st1 q hq hr _ hrun
    simp only [run, Option.some.injEq] at hrun
    subst hrun
    exact ⟨q, hq, hr⟩
  | cons op ops ih =>
    intro st st1 q hq hr hok hrun
    simp only [run] at hrun
    split at hrun
    · cases hrun
    · rename_i st2 hstep
      obtain ⟨q2, hq2, hr2⟩ := reach_step hq hr hok.1 hstep
      exact ih st2 st1 q2 hq2 hr2 (hok.2 st2 hstep) hrun

theorem eq_some_getD {o : Option St} (d : St) (ho : o.isSome = true) : o = some (o.getD d) := by
  cases o with
  | none => cases ho
  | some x => rfl

theorem exFinal_reach : Reach exFinal.h exFinalQ := by
  have hrun : run { h := exEmpty, q := q_new true, ins := 0, rem := 0, out := [] } exOps
      = some exFinal := eq_some_getD _ (by decide)
  obtain ⟨q1, hq1, hr⟩ := reach_run exOps _ exFinal ⟨none, none, 0⟩ rfl
    (Reach.new exEmpty _ rfl) (by decide) hrun
  have he : exFinalQ = q1 := by
    unfold exFinalQ
    rw [hq1]; rfl
  rw [he]
  exact hr

theorem reach_invariants_witness :
    Reach exFinal.h exFinalQ ∧ exFinalQ.size = 3 ∧
    ∃ l, inv exFinal.h exFinalQ l ∧ 0 ≤ exFinalQ.size ∧ exFinalQ.size ≤ (INT_MAX : Int) ∧
      (exFinalQ.size = 0 ↔ exFinalQ.head = none) ∧
      (exFinalQ.head = none ↔ exFinalQ.tail = none) ∧
      (exFinalQ.size = 1 ↔ (exFinalQ.head = exFinalQ.tail ∧ exFinalQ.head ≠ none)) ∧
      (∀ t, exFinalQ.tail = some t →
        follow exFinal.h (exFinalQ.size.toNat - 1) exFinalQ.head = some t ∧
        (exFinal.h t).map list_ele_t.next = some none) :=
  ⟨exFinal_reach, by decide, reach_invariants exFinal.h exFinalQ exFinal_reach⟩

/-! ## Sequences of calls: every call returns, the count is in range -/

theorem step_total {st : St} {op : Op} (hI : stInv st) (hok : okOp st op) :
    ∃ st1, step st op = some st1 ∧ stInv st1 := by
  obtain ⟨sh, sq, si, sr, so⟩ := st
  rcases hI with hq | ⟨q, l, hq, hinv, hlen⟩
  · have hq' : sq = none := hq
    subst hq'
    cases op with
    | insert_head s newh valueOk => exact ⟨_, rfl, Or.inl rfl⟩
    | insert_tail s newt valueOk => exact ⟨_, rfl, Or.inl rfl⟩
    | remove_head sp bufsize => exact ⟨_, rfl, Or.inl rfl⟩
    | reverse fuel => exact ⟨_, rfl, Or.inl rfl⟩
    | sort fuel =>
      refine ⟨{ h := sh, q := none, ins := si, rem := sr, out := so }, ?_, Or.inl rfl⟩
      simp [step, q_sort, q_size]
  · have hq' : sq = some q := hq
    subst hq'
    have hinv' : inv sh q l := hinv
    have hs : q.size = (l.length : Int) := hinv'.2.2.2.2
    cases op with
    | insert_head s newh valueOk =>
      cases newh with
      | none => exact ⟨_, rfl, Or.inr ⟨q, l, rfl, hinv', hlen⟩⟩
      | some a =>
        have hfresh : sh a = none := hok.1 a rfl
        have hsz : q.size < (INT_MAX : Int) := hok.2
        cases valueOk with
        | false =>
          refine ⟨_, rfl, Or.inr ⟨q, l, rfl, ?_, hlen⟩⟩
          exact inv_alloc_fail hinv' hfresh _
        | true =>
          obtain ⟨q2, hrun, hinv2, -⟩ := q_insert_head_spec sh q l s a hinv' hfresh
          refine ⟨_, step_insert_head hrun, Or.inr ⟨q2, a :: l, rfl, hinv2, ?_⟩⟩
          simp only [List.length_cons]
          omega
    | insert_tail s newt valueOk =>
      cases newt with
      | none => exact ⟨_, rfl, Or.inr ⟨q, l, rfl, hinv', hlen⟩⟩
      | some a =>
        have hfresh : sh a = none := hok.1 a rfl
        have hsz : q.size < (INT_MAX : Int) := hok.2
        cases valueOk with
        | false =>
          refine ⟨_, rfl, Or.inr ⟨q, l, rfl, ?_, hlen⟩⟩
          exact inv_alloc_fail hinv' hfresh _
        | true =>
          obtain ⟨h2, q2, hrun, hinv2, -⟩ := q_insert_tail_spec sh q l s a hinv' hfresh
          refine ⟨_, step_insert_tail hrun, Or.inr ⟨q2, l ++ [a], rfl, hinv2, ?_⟩⟩
          simp only [List.length_append, List.length_singleton]
          omega
    | remove_head sp bufsize =>
      cases l with
      | nil =>
        have hh : q.head = none := hinv'.2.2.1
        have hrun : q_remove_head sh (some q) sp bufsize = some (sh, some q, sp, false) := by
          simp only [q_remove_head, hh]
        exact ⟨_, step_remove_head hrun, Or.inr ⟨q, [], rfl, hinv', hlen⟩⟩
      | cons a t =>
        obtain ⟨q2, hrun, hinv2, -⟩ := q_remove_head_spec sh q a t sp bufsize hinv'
        refine ⟨_, step_remove_head hrun, Or.inr ⟨q2, t, rfl, hinv2, ?_⟩⟩
        simp only [List.length_cons] at hlen
        omega
    | reverse fuel =>
      have hf : l.length ≤ fuel := by
        have h1 : q_size (some q) ≤ (fuel : Int) := hok
        simp only [q_size, hinv'.2.2.2.2] at h1
        omega
      obtain ⟨h2, hrun, hch, -, -, -⟩ := q_reverse_spec fuel sh q l hinv' hf
      refine ⟨_, step_reverse hrun, Or.inr ⟨_, l.reverse, rfl, ?_, ?_⟩⟩
      · refine ⟨hch, List.nodup_reverse.2 hinv'.2.1, rfl, ?_, ?_⟩
        · simp [List.getLast?_reverse]
        · show q.size = _
          rw [hinv'.2.2.2.2]; simp
      · rw [List.length_reverse]; exact hlen
    | sort fuel =>
      have hf : l.length < fuel := by
        have h1 : q_size (some q) < (fuel : Int) := hok
        simp only [q_size, hinv'.2.2.2.2] at h1
        omega
      obtain ⟨h2, hrun, hch, -, -⟩ := q_sort_spec fuel sh q l hinv' hf
      have hp := msortL_perm (valOf sh) fuel l
      refine ⟨_, step_sort hrun, Or.inr ⟨_, msortL (valOf sh) fuel l, rfl, ?_, ?_⟩⟩
      · refine ⟨hch, hp.nodup_iff.2 hinv'.2.1, rfl, rfl, ?_⟩
        show q.size = _
        rw [hinv'.2.2.2.2, hp.length_eq]
      · rw [hp.length_eq]; exact hlen

theorem run_total : ∀ (ops : List Op) (st : St), stInv st → okRun st ops →
    ∃ st1, run st ops = some st1 ∧ stInv st1 := by
  intro ops
  induction ops with
  | nil => intro st hI _; exact ⟨st, rfl, hI⟩
  | cons op ops ih =>
    intro st hI hok
    obtain ⟨st2, hstep, hI2⟩ := step_total hI hok.1
    obtain ⟨st1, hrun, hI1⟩ := ih st2 hI2 (hok.2 st2 hstep)
    exact ⟨st1, by simp only [run, hstep, hrun], hI1⟩

theorem stInv_new (h0 : Heap) (ok : Bool) :
    stInv { h := h0, q := q_new ok, ins := 0, rem := 0, out := [] } := by
  cases ok with
  | false => exact Or.inl rfl
  | true =>
    exact Or.inr ⟨_, [], rfl, ⟨trivial, List.nodup_nil, rfl, rfl, rfl⟩, Nat.zero_le _⟩

theorem stInv_size {st : St} (hI : stInv st) :
    0 ≤ q_size st.q ∧ q_size st.q ≤ (INT_MAX : Int) := by
  rcases hI with hq | ⟨q, l, hq, hinv, hlen⟩
  · rw [hq]
    simp [q_size]
  · rw [hq]
    have hs : q.size = (l.length : Int) := hinv.2.2.2.2
    simp only [q_size]
    omega

/-- C12: for every sequence of `q_insert_head`, `q_insert_tail`,
`q_remove_head`, `q_reverse` and `q_sort` calls on a fresh container in which
`malloc` answers `NULL` or an address that is not live, every insertion is
called on fewer than `INT_MAX` nodes, every removal is given no buffer or a
capacity of at least one byte and each loop is given fuel above the number of
nodes, the sequence leaves a state, and in that state `q_size` is the number
of insertions that returned true minus the number of removals that returned
true, an `int` between 0 and `INT_MAX`. -/
theorem size_counts (h0 : Heap) (ok : Bool) (ops : List Op)
    (hok : okRun { h := h0, q := q_new ok, ins := 0, rem := 0, out := [] } ops) :
    ∃ st, run { h := h0, q := q_new ok, ins := 0, rem := 0, out := [] } ops = some st ∧
      q_size st.q = (st.ins : Int) - (st.rem : Int) ∧
      0 ≤ q_size st.q ∧ q_size st.q ≤ (INT_MAX : Int) := by
  obtain ⟨st, hrun, hI⟩ := run_total ops _ (stInv_new h0 ok) hok
  refine ⟨st, hrun, ?_, stInv_size hI⟩
  have h1 := run_size ops _ st hrun
  have h2 : q_size (q_new ok) = 0 := by cases ok <;> rfl
  simp only [h2] at h1
  omega

theorem size_counts_witness :
    okRun { h := exEmpty, q := q_new true, ins := 0, rem := 0, out := [] } exOps ∧
    (run { h := exEmpty, q := q_new true, ins := 0, rem := 0, out := [] } exOps).map
      (fun st => (st.ins, st.rem, q_size st.q)) = some (4, 1, 3) ∧
    ∃ st, run { h := exEmpty, q := q_new true, ins := 0, rem := 0, out := [] } exOps
        = some st ∧
      q_size st.q = (st.ins : Int) - (st.rem : Int) ∧
      0 ≤ q_size st.q ∧ q_size st.q ≤ (INT_MAX : Int) :=
  ⟨by decide, by decide, size_counts exEmpty true exOps (by decide)⟩

/-! ## Sequences of calls: first in, first out -/

theorem cstr_congr {s1 s2 : List Nat} (hlen : strlen s1 = strlen s2)
    (hb : ∀ i, i ≤ strlen s1 → byteAt s1 i = byteAt s2 i) : cstr s1 = cstr s2 := by
  unfold cstr memblock
  rw [← hlen]
  apply List.map_congr_left
  intro i hi
  exact hb i (by have := List.mem_range.1 hi; omega)

theorem strlen_cstr (s : List Nat) : strlen (cstr s) = strlen s := strlen_memblock s

theorem cstr_cstr (s : List Nat) : cstr (cstr s) = cstr s := by
  apply cstr_congr (strlen_cstr s)
  intro i hi
  rw [strlen_cstr] at hi
  exact byteAt_memblock s (by omega)

theorem run_append : ∀ (ops1 ops2 : List Op) (st st1 : St), run st ops1 = some st1 →
    run st (ops1 ++ ops2) = run st1 ops2 := by
  intro ops1
  induction ops1 with
  | nil =>
    intro ops2 st st1 hrun
    simp only [run, Option.some.injEq] at hrun
    subst hrun; rfl
  | cons op ops ih =>
    intro ops2 st st1 hrun
    simp only [run, List.cons_append] at hrun ⊢
    cases hs : step st op with
    | none => simp [hs] at hrun
    | some st2 =>
      simp only [hs] at hrun ⊢
      exact ih ops2 st2 st1 hrun

theorem run_inserts : ∀ (items : List (Nat × List Nat)) (st : St) (q : queue_t) (l : List Nat),
    st.q = some q → inv st.h q l → (items.map Prod.fst).Nodup →
    (∀ p, p ∈ items → st.h p.1 = none) →
    ∃ st1 q1, run st (items.map (fun p => Op.insert_tail p.2 (some p.1) true)) = some st1 ∧
      st1.q = some q1 ∧ inv st1.h q1 (l ++ items.map Prod.fst) ∧
      st1.ins = st.ins + items.length ∧ st1.rem = st.rem ∧ st1.out = st.out ∧
      (∀ p, p ∈ items → valOf st1.h p.1 = cstr p.2) ∧
      (∀ b, b ∉ items.map Prod.fst →
        (st1.h b).map list_ele_t.value = (st.h b).map list_ele_t.value) ∧
      (∀ b, b ∉ l ++ items.map Prod.fst → st1.h b = st.h b) := by
  intro items
  induction items with
  | nil =>
    intro st q l hq hinv _ _
    exact ⟨st, q, rfl, hq, by simpa using hinv, rfl, rfl, rfl, (fun p hp => by cases hp),
      fun _ _ => rfl, fun _ _ => rfl⟩
  | cons it rest ih =>
    intro st q l hq hinv hnd hfresh
    obtain ⟨a, v⟩ := it
    obtain ⟨sh, sq, si, sr, so⟩ := st
    have hq' : sq = some q := hq
    subst hq'
    have hinv' : inv sh q l := hinv
    have hfa : sh a = none := hfresh (a, v) (List.mem_cons_self _ _)
    simp only [List.map_cons, List.nodup_cons] at hnd
    obtain ⟨h2, q2, hrun, hinv2, -, ha, hvals, hframe⟩ :=
      q_insert_tail_spec sh q l v a hinv' hfa
    have hstep := @step_insert_tail (⟨sh, some q, si, sr, so⟩ : St) _ _ _ _ _ _ hrun
    have hfresh2 : ∀ p, p ∈ rest → h2 p.1 = none := by
      intro p hp
      have hpa : p.1 ≠ a := fun e => hnd.1 (e ▸ List.mem_map_of_mem Prod.fst hp)
      have hps : sh p.1 = none := hfresh p (List.mem_cons_of_mem _ hp)
      have hpl : p.1 ∉ l := not_mem_of_fresh hinv'.1 hps
      rw [hframe p.1 (by simp [hpa, hpl])]
      exact hps
    obtain ⟨st1, q1, hrun1, hq1, hinv1, hins, hrem, hout, hval1, hvfr, hfr⟩ :=
      ih { h := h2, q := some q2, ins := si + (if true then 1 else 0), rem := sr, out := so }
        q2 (l ++ [a]) rfl hinv2 hnd.2 hfresh2
    refine ⟨st1, q1, ?_, hq1, ?_, ?_, hrem, hout, ?_, ?_, ?_⟩
    · simp only [List.map_cons, run, hstep]
      exact hrun1
    · simpa [List.append_assoc] using hinv1
    · simp only [List.length_cons] at hins ⊢
      simp only [if_true] at hins
      omega
    · intro p hp
      rcases List.mem_cons.1 hp with rfl | hp2
      · have h1 := hvfr a hnd.1
        have h2a : (h2 a).map list_ele_t.value = some (cstr v) := by rw [ha]; rfl
        rw [h2a] at h1
        unfold valOf
        cases hx : st1.h a with
        | none => rw [hx] at h1; cases h1
        | some n =>
          rw [hx] at h1
          simpa using h1
      · exact hval1 p hp2
    · intro b hb
      have hb1 : b ≠ a := fun e => hb (by simp [e])
      have hb2 : b ∉ rest.map Prod.fst := fun hm => hb (List.mem_cons_of_mem _ hm)
      rw [hvfr b hb2]
      exact hvals b hb1
    · intro b hb
      have hb1 : b ∉ l ++ [a] ++ rest.map Prod.fst := by
        intro hm; apply hb
        simpa [List.append_assoc] using hm
      rw [hfr b hb1]
      exact hframe b (fun hm => hb (by
        rcases List.mem_cons.1 hm with e | hm2
        · simp [e]
        · exact List.mem_append_left _ hm2))

theorem remove_delivers {buf' : Buf} {v : List Nat} {c : Nat} (hcap : strlen v + 1 ≤ c)
    (hb1 : ∀ i, i < min (strlen v) (c - 1) → buf' i = byteAt v i)
    (hb2 : buf' (min (strlen v) (c - 1)) = 0)
    (hb4 : strlen (bufBytes buf' c) = min (strlen v) (c - 1)) :
    cstr (bufBytes buf' c) = cstr v := by
  have hmin : min (strlen v) (c - 1) = strlen v := by omega
  rw [hmin] at hb1 hb2 hb4
  apply cstr_congr hb4
  intro i hi
  rw [hb4] at hi
  rw [byteAt_bufBytes _ (by omega)]
  rcases Nat.lt_or_ge i (strlen v) with hlt | hge
  · exact hb1 i hlt
  · have : i = strlen v := by omega
    rw [this, hb2, byteAt_strlen]

theorem run_removes (buf : Buf) (c : Nat) (hc : c < SIZE_MOD) : ∀ (l : List Nat) (st : St)
    (q : queue_t), st.q = some q → inv st.h q l →
    (∀ a, a ∈ l → strlen (valOf st.h a) + 1 ≤ c) →
    ∃ st1, run st (List.replicate l.length (Op.remove_head (some buf) c)) = some st1 ∧
      st1.q = some { head := none, tail := none, size := 0 } ∧ st1.ins = st.ins ∧
      st1.rem = st.rem + l.length ∧
      st1.out = st.out ++ l.map (fun a => cstr (valOf st.h a)) ∧
      (∀ b, st1.h b = if b ∈ l then none else st.h b) := by
  intro l
  induction l with
  | nil =>
    intro st q hq hinv _
    refine ⟨st, rfl, ?_, rfl, rfl, by simp, by simp⟩
    obtain ⟨-, -, hhd, htl, hsz⟩ := hinv
    rw [hq]
    cases q
    simp only [Option.some.injEq, queue_t.mk.injEq]
    exact ⟨hhd, htl, hsz⟩
  | cons a t ih =>
    intro st q hq hinv hcap
    obtain ⟨sh, sq, si, sr, so⟩ := st
    have hq' : sq = some q := hq
    subst hq'
    have hinv' : inv sh q (a :: t) := hinv
    have hca : strlen (valOf sh a) + 1 ≤ c := hcap a (List.mem_cons_self _ _)
    obtain ⟨h2, q2, buf', hrun2, hb1, hb2, -, hb4⟩ :=
      q_remove_head_buffer_spec sh q a t buf c hinv' (by omega) hc
    obtain ⟨q3, hrun3, hinv3, -⟩ := q_remove_head_spec sh q a t (some buf) c hinv'
    rw [hrun3] at hrun2
    simp only [Option.some.injEq, Prod.mk.injEq] at hrun2
    obtain ⟨rfl, rfl, hbuf, -⟩ := hrun2
    rw [hbuf] at hrun3
    have hstep := @step_remove_head (⟨sh, some q, si, sr, so⟩ : St) _ _ _ _ _ _ hrun3
    have hat : a ∉ t := (List.nodup_cons.1 hinv'.2.1).1
    have hvt : ∀ b, b ∈ t → valOf (free sh a) b = valOf sh b := by
      intro b hb
      have hba : b ≠ a := fun e => hat (e ▸ hb)
      simp [valOf, free, hba]
    obtain ⟨st1, hrun1, hq1, hins, hrem, hout, hheap⟩ :=
      ih { h := free sh a, q := some q3, ins := si, rem := sr + (if true then 1 else 0),
           out := deliver so true (some buf') c } q3 rfl hinv3
        (fun b hb => by rw [hvt b hb]; exact hcap b (List.mem_cons_of_mem _ hb))
    refine ⟨st1, ?_, hq1, hins, ?_, ?_, ?_⟩
    · simp only [List.length_cons, List.replicate_succ, run, hstep]
      exact hrun1
    · simp only [List.length_cons] at hrem ⊢
      simp only [if_true] at hrem
      omega
    · rw [hout]
      have hd : deliver so true (some buf') c = so ++ [cstr (valOf sh a)] := by
        simp only [deliver, remove_delivers hca hb1 hb2 hb4]
      have hm : t.map (fun b => cstr (valOf (free sh a) b)) = t.map (fun b => cstr (valOf sh b)) :=
        List.map_congr_left (fun b hb => by rw [hvt b hb])
      simp only [hd, hm, List.map_cons, List.append_assoc, List.singleton_append]
    · intro b
      rw [hheap b]
      by_cases hba : b = a
      · subst hba; simp [free]
      · by_cases hbt : b ∈ t <;> simp [free, hba, hbt]

/-- C11: first in, first out.  Inserting the strings of `items` one by one
with `q_insert_tail` into a fresh container (each at the address `malloc`
answers, no two alike and none live before) and then calling `q_remove_head`
as many times, with a buffer of a capacity `c` (a `size_t`) that holds each
string and its terminator, leaves a state: every call returned true, the
strings delivered are the inserted ones in the order of insertion, the
container is empty with size 0 and the heap is as before the insertions. -/
theorem fifo_order (h0 : Heap) (items : List (Nat × List Nat)) (buf : Buf) (c : Nat)
    (hnd : (items.map Prod.fst).Nodup) (hfresh : ∀ p, p ∈ items → h0 p.1 = none)
    (hcap : ∀ p, p ∈ items → strlen p.2 + 1 ≤ c) (hc : c < SIZE_MOD) :
    ∃ st, run { h := h0, q := q_new true, ins := 0, rem := 0, out := [] }
        (items.map (fun p => Op.insert_tail p.2 (some p.1) true) ++
          items.map (fun _ => Op.remove_head (some buf) c)) = some st ∧
      st.ins = items.length ∧ st.rem = items.length ∧
      st.out = items.map (fun p => cstr p.2) ∧
      st.q = some { head := none, tail := none, size := 0 } ∧ q_size st.q = 0 ∧
      st.h = h0 := by
  obtain ⟨st1, q1, hrun1, hq1, hinv1, hins1, hrem1, hout1, hval1, -, hfr1⟩ :=
    run_inserts items { h := h0, q := q_new true, ins := 0, rem := 0, out := [] }
      { head := none, tail := none, size := 0 } [] rfl
      ⟨trivial, List.nodup_nil, rfl, rfl, rfl⟩ hnd hfresh
  simp only [List.nil_append] at hinv1 hfr1
  have hcap1 : ∀ a, a ∈ items.map Prod.fst → strlen (valOf st1.h a) + 1 ≤ c := by
    intro a ha
    obtain ⟨p, hp, rfl⟩ := List.mem_map.1 ha
    rw [hval1 p hp, strlen_cstr]
    exact hcap p hp
  obtain ⟨st2, hrun2, hq2, hins2, hrem2, hout2, hheap2⟩ :=
    run_removes buf c hc (items.map Prod.fst) st1 q1 hq1 hinv1 hcap1
  have hrep : items.map (fun _ => Op.remove_head (some buf) c)
      = List.replicate (items.map Prod.fst).length (Op.remove_head (some buf) c) := by
    rw [List.length_map]
    exact List.map_const' _ _
  refine ⟨st2, ?_, ?_, ?_, ?_, hq2, by rw [hq2]; rfl, ?_⟩
  · rw [run_append _ _ _ _ hrun1, hrep]
    exact hrun2
  · rw [hins2, hins1]; simp
  · rw [hrem2, hrem1]; simp
  · rw [hout2, hout1, List.map_map]
    simp only [List.nil_append]
    apply List.map_congr_left
    intro p hp
    simp only [Function.comp]
    rw [hval1 p hp, cstr_cstr]
  · funext b
    rw [hheap2 b]
    by_cases hb : b ∈ items.map Prod.fst
    · rw [if_pos hb]
      obtain ⟨p, hp, rfl⟩ := List.mem_map.1 hb
      exact (hfresh p hp).symm
    · rw [if_neg hb]
      exact hfr1 b hb

theorem fifo_order_witness :
    ([(1, [98]), (2, [97, 99])].map Prod.fst).Nodup ∧
    (∀ p, p ∈ [(1, [98]), (2, [97, 99])] → exEmpty p.1 = none) ∧
    (∀ p, p ∈ [(1, [98]), (2, [97, 99])] → strlen p.2 + 1 ≤ 3) ∧ 3 < SIZE_MOD ∧
    ∃ st, run { h := exEmpty, q := q_new true, ins := 0, rem := 0, out := [] }
        ([(1, [98]), (2, [97, 99])].map (fun p => Op.insert_tail p.2 (some p.1) true) ++
          [(1, [98]), (2, [97, 99])].map (fun _ => Op.remove_head (some exBuf) 3)) = some st ∧
      st.ins = [(1, [98]), (2, [97, 99])].length ∧ st.rem = [(1, [98]), (2, [97, 99])].length ∧
      st.out = [(1, [98]), (2, [97, 99])].map (fun p => cstr p.2) ∧
      st.q = some { head := none, tail := none, size := 0 } ∧ q_size st.q = 0 ∧
      st.h = exEmpty :=
  ⟨by decide, by decide, by decide, by decide,
    fifo_order exEmpty [(1, [98]), (2, [97, 99])] exBuf 3 (by decide) (by decide) (by decide)
      (by decide)⟩

/-! ## The alternate implementation of the sort -/

theorem cstr_nil : cstr [] = [0] := by
  decide

theorem cstr_cons_zero (as : List Nat) : cstr (0 :: as) = [0] := by
  simp only [cstr, memblock, strlen_cons_zero]
  rw [List.range_succ, List.range_zero]
  simp [byteAt]

theorem cstr_cons_ne {a : Nat} (ha : a ≠ 0) (as : List Nat) :
    cstr (a :: as) = a :: cstr as := by
  simp only [cstr, memblock, strlen_cons_ne ha]
  rw [List.range_succ_eq_map, List.map_cons, List.map_map]
  congr 1

theorem strcmp_zero_left (as w : List Nat) : strcmp (0 :: as) w = strcmp [] w := by
  cases w with
  | nil => simp [strcmp]
  | cons b bs =>
    by_cases hb : b = 0
    · subst hb; simp [strcmp]
    · have hb' : ¬ 0 = b := fun e => hb e.symm
      simp [strcmp, hb']

theorem strcmp_cstr_left (v w : List Nat) : strcmp (cstr v) w = strcmp v w := by
  induction v generalizing w with
  | nil => rw [cstr_nil]; exact strcmp_zero_left [] w
  | cons a as ih =>
    by_cases ha : a = 0
    · subst ha
      rw [cstr_cons_zero, strcmp_zero_left, strcmp_zero_left]
    · rw [cstr_cons_ne ha]
      cases w with
      | nil => simp [strcmp]
      | cons b bs =>
        by_cases hab : a = b
        · subst hab
          simp [strcmp, ha, ih]
        · simp [strcmp, hab]

theorem strcmp_cstr (v w : List Nat) : strcmp (cstr v) (cstr w) = strcmp v w := by
  rw [strcmp_cstr_left, strcmp_swap (cstr w) v, strcmp_cstr_left]
  exact (strcmp_swap w v).symm

theorem cstr_eq_of_strcmp {v w : List Nat} (h0 : strcmp v w = 0) : cstr v = cstr w := by
  induction v generalizing w with
  | nil =>
    cases w with
    | nil => rfl
    | cons b bs =>
      simp only [strcmp] at h0
      have hb : b = 0 := by omega
      subst hb
      rw [cstr_nil, cstr_cons_zero]
  | cons a as ih =>
    cases w with
    | nil =>
      simp only [strcmp] at h0
      have ha : a = 0 := by omega
      subst ha
      rw [cstr_nil, cstr_cons_zero]
    | cons b bs =>
      by_cases hab : a = b
      · subst hab
        by_cases ha : a = 0
        · subst ha
          rw [cstr_cons_zero, cstr_cons_zero]
        · simp only [strcmp, ne_eq, not_true_eq_false, if_false, ha] at h0
          rw [cstr_cons_ne ha, cstr_cons_ne ha, ih h0]
      · simp only [strcmp, ne_eq, hab, not_false_eq_true, if_true] at h0
        omega

theorem keyLe_antisymm {v w : List Nat} (h1 : keyLe v w) (h2 : keyLe w v) : v = w := by
  rcases h1 with h1 | h1
  · rcases h2 with h2 | h2
    · have := strcmp_swap v w
      omega
    · exact h2.symm
  · exact h1

theorem keyLe_of_nle {val : Nat → List Nat} {a b : Nat} (hab : nle val a b) :
    keyLe (cstr (val a)) (cstr (val b)) := by
  unfold nle sle at hab
  unfold keyLe
  rw [strcmp_cstr]
  by_cases hlt : strcmp (val a) (val b) < 0
  · exact Or.inl hlt
  · exact Or.inr (cstr_eq_of_strcmp (by omega))

theorem sorted_perm_strings (val : Nat → List Nat) {l1 l2 : List Nat} (hp : l1.Perm l2)
    (hs1 : l1.Pairwise (nle val)) (hs2 : l2.Pairwise (nle val)) :
    l1.map (fun a => cstr (val a)) = l2.map (fun a => cstr (val a)) := by
  haveI : IsAntisymm (List Nat) keyLe := ⟨fun _ _ h1 h2 => keyLe_antisymm h1 h2⟩
  refine List.eq_of_perm_of_sorted (r := keyLe) (hp.map _) ?_ ?_
  · exact (List.pairwise_map.2 (hs1.imp (fun hab => keyLe_of_nle hab)))
  · exact (List.pairwise_map.2 (hs2.imp (fun hab => keyLe_of_nle hab)))

theorem msortAlt_small (val : Nat → List Nat) (fuel : Nat) {l : List Nat} (hl : l.length ≤ 1) :
    msortAlt val fuel l = l := by
  cases fuel with
  | zero => rw [msortAlt]
  | succ fuel => rw [msortAlt, if_pos hl]

theorem msortAlt_perm (val : Nat → List Nat) (fuel : Nat) :
    ∀ l : List Nat, (msortAlt val fuel l).Perm l := by
  induction fuel with
  | zero => intro l; rw [msortAlt]
  | succ fuel ih =>
    intro l
    rw [msortAlt]
    split_ifs
    · exact List.Perm.refl _
    · refine (mergeL_perm val _ _ _ (le_refl _)).trans ?_
      refine ((ih _).append (ih _)).trans ?_
      refine List.perm_append_comm.trans ?_
      rw [List.take_append_drop]

theorem msortAlt_sorted (val : Nat → List Nat) (fuel : Nat) : ∀ l : List Nat,
    l.length ≤ fuel + 1 → (msortAlt val fuel l).Pairwise (nle val) := by
  induction fuel with
  | zero =>
    intro l hl
    rw [msortAlt]
    match l, hl with
    | [], _ => exact List.Pairwise.nil
    | [a], _ => exact List.pairwise_singleton _ _
  | succ fuel ih =>
    intro l hl
    rw [msortAlt]
    split_ifs with h1
    · match l, h1 with
      | [], _ => exact List.Pairwise.nil
      | [a], _ => exact List.pairwise_singleton _ _
    · refine mergeL_sorted val _ _ _ (le_refl _) (ih _ ?_) (ih _ ?_)
      · rw [List.length_drop]; omega
      · rw [List.length_take]; omega

theorem alt_merge_loop_node : ∀ (fuel : Nat) (h : Heap) (hd : Option Nat) (a : Nat)
    (x y : Option Nat),
    alt_merge_loop fuel h hd (some a) x y
      = (merge_loop fuel h (some a) x y).map (fun h1 => (h1, hd)) := by
  intro fuel
  induction fuel with
  | zero => intro h hd a x y; simp [alt_merge_loop, merge_loop]
  | succ fuel ih =>
    intro h hd a x y
    cases x with
    | none =>
      simp only [alt_merge_loop, merge_loop, assign_slot]
      cases store_next h (some a) y <;> rfl
    | some a1 =>
      cases y with
      | none =>
        simp only [alt_merge_loop, merge_loop, assign_slot]
        cases store_next h (some a) (some a1) <;> rfl
      | some a2 =>
        simp only [alt_merge_loop, merge_loop, assign_slot]
        cases h1 : h a1 with
        | none => rfl
        | some n1 =>
          cases h2 : h a2 with
          | none => rfl
          | some n2 =>
            simp only
            by_cases hlt : strcmp n1.value n2.value < 0
            · simp only [hlt, if_true]
              cases hs : store_next h (some a) (some a1) with
              | none => rfl
              | some hh =>
                simp only
                cases hm : hh a1 with
                | none => rfl
                | some m1 => simp only [ih]
            · simp only [hlt, if_false]
              cases hs : store_next h (some a) (some a2) with
              | none => rfl
              | some hh =>
                simp only
                cases hm : hh a2 with
                | none => rfl
                | some m2 => simp only [ih]

theorem alt_merge_spec (fuel : Nat) (h : Heap) (l1 l2 : List Nat) (hnd : (l1 ++ l2).Nodup)
    (hc1 : chain h l1) (hc2 : chain h l2) (hf : l1.length + l2.length < fuel) :
    ∃ h', alt_merge_loop fuel h none none l1.head? l2.head?
        = some (h', (mergeL (valOf h) l1 l2).head?) ∧
      chain h' (mergeL (valOf h) l1 l2) ∧
      (∀ b, b ∉ l1 ++ l2 → h' b = h b) ∧ sameVals h h' := by
  cases fuel with
  | zero => omega
  | succ fuel =>
    cases l1 with
    | nil =>
      refine ⟨h, ?_, ?_, fun _ _ => rfl, sameVals_refl h⟩
      · rw [mergeL]; simp [alt_merge_loop, assign_slot]
      · rw [mergeL]; exact hc2
    | cons a1 t1 =>
      cases l2 with
      | nil =>
        refine ⟨h, ?_, ?_, fun _ _ => rfl, sameVals_refl h⟩
        · rw [mergeL]; simp [alt_merge_loop, assign_slot]
        · rw [mergeL]; exact hc1
      | cons a2 t2 =>
        obtain ⟨n1, hn1, hnx1⟩ := seg_head hc1
        obtain ⟨n2, hn2, hnx2⟩ := seg_head hc2
        simp only [List.length_cons] at hf
        by_cases hlt : strcmp n1.value n2.value < 0
        · obtain ⟨h', hrun, hch, hout, hv⟩ := merge_loop_spec fuel h a1 t1 (a2 :: t2) hnd
            hc1.2 hc2 ⟨n1, hn1⟩ (by simp only [List.length_cons]; omega)
          refine ⟨h', ?_, ?_, hout, hv⟩
          · simp only [alt_merge_loop, List.head?_cons, hn1, hn2, hlt, if_true, assign_slot,
              alt_merge_loop_node, hnx1, headOr_none]
            simp only [List.head?_cons] at hrun
            rw [hrun, mergeL, valOf_of_eq hn1, valOf_of_eq hn2, if_pos hlt]
            rfl
          · rw [mergeL, valOf_of_eq hn1, valOf_of_eq hn2, if_pos hlt]
            exact hch
        · have hp : (a2 :: ((a1 :: t1) ++ t2)).Perm ((a1 :: t1) ++ a2 :: t2) :=
            List.perm_middle.symm
          obtain ⟨h', hrun, hch, hout, hv⟩ := merge_loop_spec fuel h a2 (a1 :: t1) t2
            (hp.nodup_iff.2 hnd) hc1 hc2.2 ⟨n2, hn2⟩ (by simp only [List.length_cons]; omega)
          refine ⟨h', ?_, ?_, fun b hb => hout b (fun hm => hb (hp.mem_iff.1 hm)), hv⟩
          · simp only [alt_merge_loop, List.head?_cons, hn1, hn2, hlt, if_false, assign_slot,
              alt_merge_loop_node, hnx2, headOr_none]
            simp only [List.head?_cons] at hrun
            rw [hrun, mergeL, valOf_of_eq hn1, valOf_of_eq hn2, if_neg hlt]
            rfl
          · rw [mergeL, valOf_of_eq hn1, valOf_of_eq hn2, if_neg hlt]
            exact hch

theorem merge_sort_split (fuel : Nat) (h : Heap) (a : Nat) (n : list_ele_t) (b : Nat)
    (hn : h a = some n) (hnx : n.next = some b) :
    merge_sort (fuel + 1) h (some a) =
      match split_halves fuel h (some a) with
      | none => none
      | some (h1, p2) =>
        match merge_sort fuel h1 (some a) with
        | none => none
        | some (h2, s2) =>
          match merge_sort fuel h2 p2 with
          | none => none
          | some (h3, s1) => alt_merge_loop fuel h3 none none s1 s2 := by
  have hl : load h (some a) = some n := hn
  simp only [merge_sort, split_halves, hl, hn, hnx]
  cases split_loop fuel h (some a) (some b) with
  | none => rfl
  | some stp1 =>
    simp only
    cases load h stp1 with
    | none => rfl
    | some ns =>
      simp only
      cases store_next h stp1 none with
      | none => rfl
      | some h1 => rfl

theorem merge_sort_spec (fuel : Nat) : ∀ (h : Heap) (l : List Nat),
    l ≠ [] → l.Nodup → chain h l → l.length + 1 < fuel →
    ∃ h', merge_sort fuel h l.head? = some (h', (msortAlt (valOf h) fuel l).head?) ∧
      chain h' (msortAlt (valOf h) fuel l) ∧
      (∀ b, b ∉ l → h' b = h b) ∧ sameVals h h' := by
  induction fuel with
  | zero => intro h l _ _ _ hf; omega
  | succ fuel ih =>
    intro h l hne hnd hc hf
    by_cases hsmall : l.length ≤ 1
    · cases l with
      | nil => exact absurd rfl hne
      | cons a t =>
        have ht : t = [] := List.length_eq_zero.1 (by simp only [List.length_cons] at hsmall; omega)
        subst ht
        obtain ⟨n1, hn1, hnx1⟩ := seg_head hc
        have hnx1n : n1.next = none := hnx1
        refine ⟨h, ?_, ?_, fun _ _ => rfl, sameVals_refl h⟩
        · simp [merge_sort, hn1, hnx1n, msortAlt]
        · simpa [msortAlt] using hc
    · have hn2 : 2 ≤ l.length := by omega
      obtain ⟨h1, hsp, hcA, hcB, hv0, hout0⟩ :=
        split_halves_spec h l fuel hc hnd hn2 (by omega)
      obtain ⟨k, hk⟩ : ∃ k, k = (l.length + 1) / 2 := ⟨_, rfl⟩
      rw [← hk] at hsp hcA hcB
      have hlA : (l.take k).length = k := by rw [List.length_take]; omega
      have hlB : (l.drop k).length = l.length - k := List.length_drop _ _
      have hneA : l.take k ≠ [] := by
        intro e; rw [e] at hlA; simp only [List.length_nil] at hlA; omega
      have hneB : l.drop k ≠ [] := by
        intro e; rw [e] at hlB; simp only [List.length_nil] at hlB; omega
      have hndAB : (l.take k ++ l.drop k).Nodup := by
        rw [List.take_append_drop]; exact hnd
      have hndA := (List.nodup_append.1 hndAB).1
      have hndB := (List.nodup_append.1 hndAB).2.1
      have hdisj := (List.nodup_append.1 hndAB).2.2
      have hval1 : valOf h1 = valOf h := valOf_eq_of_sameVals hv0
      -- first recursive call, on the first half
      obtain ⟨h2, hrun1, hch1, hout1, hv1⟩ := ih h1 _ hneA hndA hcA (by omega)
      rw [hval1] at hrun1 hch1
      have hcB2 : chain h2 (l.drop k) :=
        seg_congr (fun c hcm => hout1 c (fun hm => hdisj hm hcm)) hcB
      -- second recursive call, on the second half
      obtain ⟨h3, hrun2, hch2, hout2, hv2⟩ := ih h2 _ hneB hndB hcB2 (by omega)
      have hval2 : valOf h2 = valOf h := (valOf_eq_of_sameVals hv1).trans hval1
      rw [hval2] at hrun2 hch2
      have hval3 : valOf h3 = valOf h := (valOf_eq_of_sameVals hv2).trans hval2
      have hpA := msortAlt_perm (valOf h) fuel (l.take k)
      have hpB := msortAlt_perm (valOf h) fuel (l.drop k)
      have hch1b : chain h3 (msortAlt (valOf h) fuel (l.take k)) :=
        seg_congr (fun c hcm => hout2 c (fun hm => hdisj (hpA.mem_iff.1 hcm) hm)) hch1
      have hndBA : (msortAlt (valOf h) fuel (l.drop k) ++
          msortAlt (valOf h) fuel (l.take k)).Nodup :=
        ((hpB.append hpA).trans List.perm_append_comm).nodup_iff.2 hndAB
      obtain ⟨h4, hrun3, hch3, hout3, hv3⟩ := alt_merge_spec fuel h3 _ _ hndBA hch2 hch1b
        (by rw [hpA.length_eq, hpB.length_eq, hlA, hlB]; omega)
      rw [hval3] at hrun3 hch3
      have hms : msortAlt (valOf h) (fuel + 1) l
          = mergeL (valOf h) (msortAlt (valOf h) fuel (l.drop k))
              (msortAlt (valOf h) fuel (l.take k)) := by
        rw [msortAlt, if_neg hsmall, ← hk]
      cases l with
      | nil => exact absurd rfl hne
      | cons a t =>
        cases t with
        | nil => simp at hn2
        | cons b t2 =>
          obtain ⟨n1, hn1, hnx1⟩ := seg_head hc
          have hnx1s : n1.next = some b := hnx1
          have hhd : ((a :: b :: t2).take k).head? = some a := by
            have : k = (t2.length + 1) / 2 + 1 := by
              rw [hk]; simp only [List.length_cons]; omega
            rw [this]; rfl
          rw [hhd] at hrun1
          refine ⟨h4, ?_, ?_, ?_, ?_⟩
          · simp only [List.head?_cons] at hsp ⊢
            rw [merge_sort_split fuel h a n1 b hn1 hnx1s, hsp]
            simp only [hrun1, hrun2]
            rw [hms]
            exact hrun3
          · rw [hms]; exact hch3
          · intro c hcm
            have hcA' : c ∉ (a :: b :: t2).take k := fun hm => hcm (List.mem_of_mem_take hm)
            have hcB' : c ∉ (a :: b :: t2).drop k := fun hm => hcm (List.mem_of_mem_drop hm)
            rw [hout3 c (fun hm => by
              rcases List.mem_append.1 hm with hm | hm
              · exact hcB' (hpB.mem_iff.1 hm)
              · exact hcA' (hpA.mem_iff.1 hm)), hout2 c hcB', hout1 c hcA']
            exact hout0 c hcm
          · exact sameVals_trans (sameVals_trans (sameVals_trans hv0 hv1) hv2) hv3

theorem q_sort_alt_spec (fuel : Nat) (h : Heap) (q : queue_t) (l : List Nat) (hinv : inv h q l)
    (hf : l.length + 1 < fuel) :
    ∃ h', q_sort_alt fuel h (some q)
        = some (h', some { q with head := (msortAlt (valOf h) fuel l).head?,
                                  tail := (msortAlt (valOf h) fuel l).getLast? }) ∧
      chain h' (msortAlt (valOf h) fuel l) ∧
      (∀ b, b ∉ l → h' b = h b) ∧ sameVals h h' := by
  have hfacts := inv_facts hinv
  obtain ⟨hc, hnd, hhd, htl, hsz⟩ := hinv
  by_cases hsmall : l.length ≤ 1
  · refine ⟨h, ?_, ?_, fun _ _ => rfl, sameVals_refl h⟩
    · have hq : q.head = q.tail := by
        rw [hhd, htl]
        match l, hsmall with
        | [], _ => rfl
        | [a], _ => rfl
      rw [msortAlt_small _ _ hsmall, ← hhd, ← htl]
      simp only [q_sort_alt, if_pos hq]
    · rw [msortAlt_small _ _ hsmall]; exact hc
  · have hne : l ≠ [] := by rintro rfl; simp at hsmall
    have hq : q.head ≠ q.tail := by
      intro e
      have hsz1 : q.size = 1 := hfacts.2.2.1.2 ⟨e, by
        rw [hhd]
        cases l with
        | nil => exact absurd rfl hne
        | cons a t => simp⟩
      rw [hsz] at hsz1
      have : l.length = 1 := by omega
      omega
    obtain ⟨h', hrun, hch, hout, hv⟩ := merge_sort_spec fuel h l hne hnd hc hf
    have hperm := msortAlt_perm (valOf h) fuel l
    obtain ⟨t, ht⟩ : ∃ t, l.getLast? = some t := by
      cases hl : l.getLast? with
      | none => exact absurd (List.getLast?_eq_none_iff.1 hl) hne
      | some t => exact ⟨t, rfl⟩
    have htm : t ∈ msortAlt (valOf h) fuel l :=
      hperm.mem_iff.2 (List.mem_of_getLast?_eq_some ht)
    have htail : tail_loop fuel h' (some t) = some (msortAlt (valOf h) fuel l).getLast? :=
      tail_loop_mem h' hch htm (by rw [hperm.length_eq]; omega)
    refine ⟨h', ?_, hch, hout, hv⟩
    have hq2 : ¬ l.head? = some t := by
      rw [← hhd, ← ht, ← htl]; exact hq
    simp only [q_sort_alt, hhd, htl, ht, hq2, if_false, hrun, htail]

/-- C20: on a container satisfying the invariants, the active `q_sort` and
the commented-out alternate (`merge_sort` through a pointer to pointer, with
its own `q_sort`) both return, with containers that satisfy the invariants
(so each `tail` is the last node of its chain), hold the same sequence of
strings and have the same `size` as before; when no element owns bytes after
its terminator (as every inserted element does) the sequences of owned blocks
are equal byte for byte.  The order of the nodes themselves may differ between
the two when strings are equal. -/
theorem q_sort_alt_same_values (h : Heap) (q : queue_t) (l : List Nat) (fuel : Nat)
    (hinv : inv h q l) (hf : l.length + 1 < fuel) :
    ∃ h1 q1 l1 h2 q2 l2,
      q_sort fuel h (some q) = some (h1, some q1) ∧
      q_sort_alt fuel h (some q) = some (h2, some q2) ∧
      inv h1 q1 l1 ∧ inv h2 q2 l2 ∧
      l1.map (fun a => cstr (valOf h1 a)) = l2.map (fun a => cstr (valOf h2 a)) ∧
      ((∀ a, a ∈ l → valOf h a = cstr (valOf h a)) → l1.map (valOf h1) = l2.map (valOf h2)) ∧
      q1.size = q2.size ∧ q1.size = q.size ∧
      q1.tail = l1.getLast? ∧ q2.tail = l2.getLast? := by
  obtain ⟨h1, hrun1, hch1, -, hv1⟩ := q_sort_spec fuel h q l hinv (by omega)
  obtain ⟨h2, hrun2, hch2, -, hv2⟩ := q_sort_alt_spec fuel h q l hinv hf
  have hp1 := msortL_perm (valOf h) fuel l
  have hp2 := msortAlt_perm (valOf h) fuel l
  have hs1 := msortL_sorted (valOf h) fuel l (by omega)
  have hs2 := msortAlt_sorted (valOf h) fuel l (by omega)
  have hval1 : valOf h1 = valOf h := valOf_eq_of_sameVals hv1
  have hval2 : valOf h2 = valOf h := valOf_eq_of_sameVals hv2
  have hstr : (msortL (valOf h) fuel l).map (fun a => cstr (valOf h a))
      = (msortAlt (valOf h) fuel l).map (fun a => cstr (valOf h a)) :=
    sorted_perm_strings (valOf h) (hp1.trans hp2.symm) hs1 hs2
  refine ⟨h1, _, msortL (valOf h) fuel l, h2, _, msortAlt (valOf h) fuel l, hrun1, hrun2,
    ⟨hch1, hp1.nodup_iff.2 hinv.2.1, rfl, rfl, ?_⟩, ⟨hch2, hp2.nodup_iff.2 hinv.2.1, rfl, rfl, ?_⟩,
    ?_, ?_, rfl, rfl, rfl, rfl⟩
  · show q.size = _
    rw [hinv.2.2.2.2, hp1.length_eq]
  · show q.size = _
    rw [hinv.2.2.2.2, hp2.length_eq]
  · rw [hval1, hval2]; exact hstr
  · intro hclean
    rw [hval1, hval2]
    have e1 : (msortL (valOf h) fuel l).map (valOf h)
        = (msortL (valOf h) fuel l).map (fun a => cstr (valOf h a)) :=
      List.map_congr_left (fun a ha => hclean a (hp1.mem_iff.1 ha))
    have e2 : (msortAlt (valOf h) fuel l).map (valOf h)
        = (msortAlt (valOf h) fuel l).map (fun a => cstr (valOf h a)) :=
      List.map_congr_left (fun a ha => hclean a (hp2.mem_iff.1 ha))
    rw [e1, e2]; exact hstr

theorem q_sort_alt_same_values_witness :
    inv exHeap exQ [1, 2, 3, 4] ∧ [1, 2, 3, 4].length + 1 < 6 ∧
    ∃ h1 q1 l1 h2 q2 l2,
      q_sort 6 exHeap (some exQ) = some (h1, some q1) ∧
      q_sort_alt 6 exHeap (some exQ) = some (h2, some q2) ∧
      inv h1 q1 l1 ∧ inv h2 q2 l2 ∧
      l1.map (fun a => cstr (valOf h1 a)) = l2.map (fun a => cstr (valOf h2 a)) ∧
      ((∀ a, a ∈ [1, 2, 3, 4] → valOf exHeap a = cstr (valOf exHeap a)) →
        l1.map (valOf h1) = l2.map (valOf h2)) ∧
      q1.size = q2.size ∧ q1.size = exQ.size ∧
      q1.tail = l1.getLast? ∧ q2.tail = l2.getLast? :=
  ⟨by decide, by decide,
    q_sort_alt_same_values exHeap exQ [1, 2, 3, 4] 6 (by decide) (by decide)⟩

theorem q_sort_alt_example :
    (q_sort_alt 6 exHeap (some exQ)).map
        (fun r => readChain 5 r.1 (r.2.bind queue_t.head)) = some [3, 1, 4, 2] ∧
    (q_sort 6 exHeap (some exQ)).map
        (fun r => readChain 5 r.1 (r.2.bind queue_t.head)) = some [3, 4, 1, 2] := by
  constructor <;> decide

end Queue
